import Mathlib

/-!
Midnight Landing video DMA engine

Shallow embedding of the tile blitter of `src/mame/drivers/mlanding.cpp`
(`mlanding_state::exec_dma`, `mlanding_state::dma_start_w`).

Conventions of the embedding

* machine integers are natural numbers; every conversion to `uint8_t`,
  `uint16_t` or `uint32_t` of the source is an explicit `u8`, `u16`, `u32`;
* memories are total functions from an index to a natural number; a 16-bit read
  truncates the stored value with `rd16`, so no well-formedness assumption on
  memory contents is needed;
* the frame buffer `m_g_ram` is viewed as the byte array the source obtains with
  `reinterpret_cast<uint8_t *>(m_g_ram.target())`, in the big-endian byte order
  of the 68000: byte `2 * w` is the high byte (palette plane) and byte
  `2 * w + 1` the low byte (pixel plane) of the 16-bit word `w`;
* a C `for (i = 0; i < n; ++i)` loop over a record of the mutable variables is
  `forLoop n body`.
-/

namespace mlanding

/-! ## Machine integers and memory -/

/-- Conversion to `uint8_t`. -/
def u8 (n : Nat) : Nat := n % 256

/-- Conversion to `uint16_t`. -/
def u16 (n : Nat) : Nat := n % 65536

/-- Conversion to `uint32_t`. -/
def u32 (n : Nat) : Nat := n % 4294967296

/-- Read of a `uint16_t` cell of a memory. -/
def rd16 (mem : Nat → Nat) (i : Nat) : Nat := u16 (mem i)

/-- Modelled from the spec: the `BIT(x, n)` helper of the emulator core, which is
not part of the driver file; it extracts bit `n` of `x` (the bit-plane decode
`pixel = bit3·b4 | bit2·b3 | bit1·b2 | bit0·b1` takes one bit of each plane). -/
def BIT (x n : Nat) : Nat := (x >>> n) &&& 1

/-- Modelled from the spec: the `BYTE_XOR_BE(a)` helper of the emulator core,
which is not part of the driver file; it turns a big-endian byte offset into the
host's. The frame buffer is kept here in the hardware's big-endian byte order
(even bytes palette plane, odd bytes pixel plane), where it is the identity. -/
def BYTE_XOR_BE (a : Nat) : Nat := a

/-- The loop `for (i = 0; i < n; ++i) s = body i s`. -/
def forLoop {σ : Type} : Nat → (Nat → σ → σ) → σ → σ
  | 0, _, s => s
  | n + 1, body, s => body n (forLoop n body s)

/-- Number of 16-bit words of one DMA bank (`c_dma_bank_words`). -/
def c_dma_bank_words : Nat := 0x2000

/-- Size in bytes of graphics RAM, `m_g_ram.bytes()`: `main_map` maps the share
`g_ram` at `0x100000 .. 0x17ffff`. -/
def g_ram_bytes : Nat := 0x17ffff + 1 - 0x100000

/-- Size in bytes of character RAM: `main_map` maps the share `cha_ram` at
`0x180000 .. 0x1bffff`. -/
def cha_ram_bytes : Nat := 0x1bffff + 1 - 0x180000

/-- The local `gram_mask` of `exec_dma`. -/
def gram_mask : Nat := u32 (g_ram_bytes - 1)

/-- Identifier of the only device timer (`enum { TIMER_DMA_COMPLETE }`). -/
def TIMER_DMA_COMPLETE : Nat := 0

/-- Modelled from the spec: the `attotime` durations of the emulator core, which
is not part of the driver file. A duration is a number of attoseconds, `none`
standing for `attotime::never`. -/
abbrev attotime : Type := Option Nat

/-- Modelled from the spec: `attotime::from_hz(hz) * n` of the emulator core,
`n` periods of a clock of `hz` Hz (`duration = pixels × one base-clock period`). -/
def periods_of_hz (hz n : Nat) : attotime := some (1000000000000000000 / hz * n)

/-- One call of `timer_set(duration, id)` made by the driver. -/
structure timer_request where
  duration : attotime
  id : Nat
deriving DecidableEq

/-! ## Driver state -/

/-- The part of `mlanding_state` the video DMA reads or writes. `timer_requests`
is the sequence of `timer_set` calls issued so far, `dma_bank_entry` the entry
last selected on the `dma_ram` memory bank device. -/
structure mlanding_state where
  m_dma_ram : Nat → Nat
  m_dma_cpu_bank : Nat
  m_dma_busy : Nat
  m_g_ram : Nat → Nat
  m_cha_ram : Nat → Nat
  dma_bank_entry : Nat
  timer_requests : List timer_request

/-- The mutable variables of `exec_dma`: the frame buffer bytes and the locals
`pixcnt`, `byteaddr` and `code`. -/
structure dma_vars where
  g_ram : Nat → Nat
  pixcnt : Nat
  byteaddr : Nat
  code : Nat

/-! ## `exec_dma`, innermost loops first -/

/-- The four bit planes `(p1, p2, p3, p4)` of row `y1` of tile `code`:
`src = &m_cha_ram[(code * 2 * 8) + y1 * 2]`, `p2 = *src & 0xff`,
`p1 = *src++ >> 8`, `p4 = *src`, `p3 = *src++ >> 8`. -/
def tile_planes (cha_ram : Nat → Nat) (code y1 : Nat) : Nat × Nat × Nat × Nat :=
  let src := (code * 2 * 8) + y1 * 2
  let p2 := u8 (rd16 cha_ram src &&& 0xff)
  let p1 := u8 (rd16 cha_ram src >>> 8)
  let p4 := u8 (rd16 cha_ram (src + 1))
  let p3 := u8 (rd16 cha_ram (src + 1) >>> 8)
  (p1, p2, p3, p4)

/-- The pixel value
`pix = (BIT(p4, x1) << 3) | (BIT(p3, x1) << 2) | (BIT(p2, x1) << 1) | BIT(p1, x1)`. -/
def decode_pix (p : Nat × Nat × Nat × Nat) (x1 : Nat) : Nat :=
  u16 ((BIT p.2.2.2 x1 <<< 3) ||| (BIT p.2.2.1 x1 <<< 2) ||| (BIT p.2.1 x1 <<< 1) ||| BIT p.1 x1)

/-- The 4-bit pixel of column `x1` of row `y1` of tile `code`. -/
def tile_pixel (cha_ram : Nat → Nat) (code y1 x1 : Nat) : Nat :=
  decode_pix (tile_planes cha_ram code y1) x1

/-- Store `pixdata[addr] = v` into the pixel plane,
`pixdata = reinterpret_cast<uint8_t *>(m_g_ram.target()) + BYTE_XOR_BE(1)`. -/
def pixdata_put (g : Nat → Nat) (addr v : Nat) : Nat → Nat :=
  Function.update g (BYTE_XOR_BE 1 + addr) (u8 v)

/-- Store `paldata[addr] = v` into the palette plane,
`paldata = reinterpret_cast<uint8_t *>(m_g_ram.target()) + BYTE_XOR_BE(0)`. -/
def paldata_put (g : Nat → Nat) (addr v : Nat) : Nat → Nat :=
  Function.update g (BYTE_XOR_BE 0 + addr) (u8 v)

/-- The pixel store of a normal draw: in transparency mode (`(attr & 0x8000) == 0`)
only a non-zero `pix` is stored, otherwise `pix` is always stored. -/
def put_pixel (attr basepix pix addr : Nat) (g : Nat → Nat) : Nat → Nat :=
  if attr &&& 0x8000 = 0 then
    if pix ≠ 0 then pixdata_put g addr (basepix ||| pix) else g
  else
    pixdata_put g addr (basepix ||| pix)

/-- Body of the loop `for (x1 = 0; x1 < 8; ++x1)` ("Draw 8 pixels"). -/
def draw_pixel (attr basepix : Nat) (p : Nat × Nat × Nat × Nat) (x1 : Nat)
    (s : dma_vars) : dma_vars :=
  { s with
    g_ram := put_pixel attr basepix (decode_pix p x1) (s.byteaddr &&& gram_mask) s.g_ram
    byteaddr := u32 (s.byteaddr + 2)
    pixcnt := u32 (s.pixcnt + 1) }

/-- Body of the loop `for (y1 = 0; y1 < 8; ++y1)` of a tile. -/
def draw_row (cha_ram : Nat → Nat) (attr x y basepix j k : Nat) (y1 : Nat)
    (s : dma_vars) : dma_vars :=
  forLoop 8 (draw_pixel attr basepix (tile_planes cha_ram s.code y1))
    { s with byteaddr := u32 (((y + k * 8 + y1) * 512 + (j * 8 + x)) * 2) }

/-- Body of the loop `for (k = 0; k < sy; ++k)`: one 8x8 tile, then `++code`. -/
def draw_tile (cha_ram : Nat → Nat) (attr x y basepix j : Nat) (k : Nat)
    (s : dma_vars) : dma_vars :=
  let s1 := forLoop 8 (draw_row cha_ram attr x y basepix j k) s
  { s1 with code := u16 (s1.code + 1) }

/-- Body of the loop `for (j = 0; j < sx; ++j)`: one column of `sy` tiles. -/
def draw_column (cha_ram : Nat → Nat) (attr x y sy basepix : Nat) (j : Nat)
    (s : dma_vars) : dma_vars :=
  forLoop sy (draw_tile cha_ram attr x y basepix j) s

/-- Body of the loops `for (x1 = 0; x1 < sx * 8; ++x1)` of the fill mode, on the
pixel plane when `(attr & 0x4000) == 0` and on the palette plane otherwise. -/
def fill_pixel (attr colour : Nat) (_x1 : Nat) (s : dma_vars) : dma_vars :=
  { s with
    g_ram :=
      if attr &&& 0x4000 = 0 then pixdata_put s.g_ram (s.byteaddr &&& gram_mask) colour
      else paldata_put s.g_ram (s.byteaddr &&& gram_mask) colour
    byteaddr := u32 (s.byteaddr + 2)
    pixcnt := u32 (s.pixcnt + 1) }

/-- Body of the loop `for (y1 = 0; y1 < sy * 8; ++y1)` of the fill mode. -/
def fill_row (attr x y sx colour : Nat) (y1 : Nat) (s : dma_vars) : dma_vars :=
  forLoop (sx * 8) (fill_pixel attr colour)
    { s with byteaddr := u32 ((((y + y1) * 512) + x) * 2) }

/-- The two drawing modes of one command, after its words are decoded: the
normal draw when `(attr & 0x2000) == 0`, the fill ("Set pixel or palette data")
otherwise. -/
def exec_command (cha_ram : Nat → Nat) (attr code x y sx sy colour : Nat)
    (s : dma_vars) : dma_vars :=
  if attr &&& 0x2000 = 0 then
    forLoop sx (draw_column cha_ram attr x y sy (u8 (colour <<< 4))) { s with code := code }
  else
    forLoop (sy * 8) (fill_row attr x y sx colour) s

/-- The word `attr = dma_ram[offs]`. -/
def entry_attr (dma_ram : Nat → Nat) (offs : Nat) : Nat := rd16 dma_ram offs

/-- The local `code = attr & 0x1fff`. -/
def entry_code (dma_ram : Nat → Nat) (offs : Nat) : Nat :=
  u16 (entry_attr dma_ram offs &&& 0x1fff)

/-- The local `x = xword & 0x1ff`, `xword = dma_ram[offs + 1]`. -/
def entry_x (dma_ram : Nat → Nat) (offs : Nat) : Nat :=
  u16 (rd16 dma_ram (offs + 1) &&& 0x1ff)

/-- The local `y = yword & 0x1ff`, `yword = dma_ram[offs + 2]`. -/
def entry_y (dma_ram : Nat → Nat) (offs : Nat) : Nat :=
  u16 (rd16 dma_ram (offs + 2) &&& 0x1ff)

/-- The local `sx = ((xword >> 11) & 0x1f) + 1`, the width in tiles. -/
def entry_sx (dma_ram : Nat → Nat) (offs : Nat) : Nat :=
  u16 (((rd16 dma_ram (offs + 1) >>> 11) &&& 0x1f) + 1)

/-- The local `sy = ((yword >> 11) & 0x1f) + 1`, the height in tiles. -/
def entry_sy (dma_ram : Nat → Nat) (offs : Nat) : Nat :=
  u16 (((rd16 dma_ram (offs + 2) >>> 11) &&& 0x1f) + 1)

/-- The local `colour = dma_ram[offs + 3] & 0xff`. -/
def entry_colour (dma_ram : Nat → Nat) (offs : Nat) : Nat :=
  u8 (rd16 dma_ram (offs + 3) &&& 0xff)

/-- Body of the loop over the entries of DMA RAM, for the entry at word offset
`offs` of the replayed bank `dma_ram`: an entry with `attr == 0` is skipped
(`continue`). -/
def exec_entry (dma_ram cha_ram : Nat → Nat) (offs : Nat) (s : dma_vars) : dma_vars :=
  if entry_attr dma_ram offs = 0 then s
  else
    exec_command cha_ram (entry_attr dma_ram offs) (entry_code dma_ram offs)
      (entry_x dma_ram offs) (entry_y dma_ram offs) (entry_sx dma_ram offs)
      (entry_sy dma_ram offs) (entry_colour dma_ram offs) s

/-- The window `dma_ram = &m_dma_ram[(m_dma_cpu_bank ^ 1) * c_dma_bank_words]`. -/
def replay_bank (st : mlanding_state) : Nat → Nat :=
  fun offs => st.m_dma_ram ((st.m_dma_cpu_bank ^^^ 1) * c_dma_bank_words + offs)

/-- The loop `for (offs = 0; offs < c_dma_bank_words; offs += 4)` of `exec_dma`,
iteration `i` handling `offs = i * 4`. -/
def exec_dma_loop (dma_ram cha_ram : Nat → Nat) (n : Nat) (s : dma_vars) : dma_vars :=
  forLoop n (fun i s => exec_entry dma_ram cha_ram (i * 4) s) s

/-- The variables of `exec_dma` at entry: `pixcnt = 0`, the frame buffer as it
is (`byteaddr` and `code` are assigned before any use). -/
def start_vars (g : Nat → Nat) : dma_vars :=
  { g_ram := g, pixcnt := 0, byteaddr := 0, code := 0 }

/-- `mlanding_state::exec_dma`: the state after the replay and the returned
`pixcnt`. -/
def exec_dma (st : mlanding_state) : mlanding_state × Nat :=
  let s := exec_dma_loop (replay_bank st) st.m_cha_ram (c_dma_bank_words / 4)
    (start_vars st.m_g_ram)
  ({ st with m_g_ram := s.g_ram }, s.pixcnt)

/-- The first two statements of `dma_start_w`: `m_dma_cpu_bank ^= 1;` and
`membank("dma_ram")->set_entry(m_dma_cpu_bank);`. -/
def dma_bank_swap (st : mlanding_state) : mlanding_state :=
  { st with
    m_dma_cpu_bank := u8 (st.m_dma_cpu_bank ^^^ 1)
    dma_bank_entry := u8 (st.m_dma_cpu_bank ^^^ 1) }

/-- `mlanding_state::dma_start_w`: the bank swap, the replay, and when the replay
counted pixels the busy flag and the request of the completion timer. -/
def dma_start_w (st : mlanding_state) : mlanding_state :=
  let r := exec_dma (dma_bank_swap st)
  if r.2 ≠ 0 then
    { r.1 with
      m_dma_busy := 1
      timer_requests :=
        r.1.timer_requests ++ [⟨periods_of_hz 16000000 r.2, TIMER_DMA_COMPLETE⟩] }
  else r.1

/-! ## Closed forms of the blit, as the specification words them -/

/-- Pixel-plane byte offset of pixel column `x1` of row `y1` of the tile at tile
position `(j, k)` of a normal draw at `(x, y)`, as specified:
`((y + 8k + y1) * 512 + (8j + x) + x1) * 2`, masked into the frame buffer. -/
def dest_offset (x y j k y1 x1 : Nat) : Nat :=
  (((y + 8 * k + y1) * 512 + (8 * j + x) + x1) * 2) % 0x80000

/-- Byte offset of position `(y1, x1)` of a fill at `(x, y)`, as specified:
`((y + y1) * 512 + x + x1) * 2`, masked into the frame buffer. -/
def fill_offset (x y y1 x1 : Nat) : Nat :=
  (((y + y1) * 512 + x + x1) * 2) % 0x80000

/-- Frame-buffer effect of one tile row, every pixel stored at its specified
offset. -/
def row_spec (cha_ram : Nat → Nat) (attr x y basepix code j k y1 : Nat)
    (g : Nat → Nat) : Nat → Nat :=
  forLoop 8 (fun x1 g => put_pixel attr basepix (tile_pixel cha_ram code y1 x1)
    (dest_offset x y j k y1 x1) g) g

/-- Frame-buffer effect of the tile of index `code` drawn at tile position
`(j, k)`. -/
def tile_spec (cha_ram : Nat → Nat) (attr x y basepix code j k : Nat)
    (g : Nat → Nat) : Nat → Nat :=
  forLoop 8 (fun y1 g => row_spec cha_ram attr x y basepix code j k y1 g) g

/-- Frame-buffer effect of a normal draw as specified: tiles taken column-major,
the tile at `(j, k)` having index `code + j * sy + k`. -/
def draw_spec (cha_ram : Nat → Nat) (attr x y sx sy basepix code : Nat)
    (g : Nat → Nat) : Nat → Nat :=
  forLoop sx (fun j g =>
    forLoop sy (fun k g => tile_spec cha_ram attr x y basepix (code + j * sy + k) j k g) g) g

/-- The store of the fill byte at an offset, in the plane `attr` selects. -/
def put_fill (attr colour addr : Nat) (g : Nat → Nat) : Nat → Nat :=
  if attr &&& 0x4000 = 0 then pixdata_put g addr colour else paldata_put g addr colour

/-- Frame-buffer effect of a fill as specified: `sy * 8` rows of `sx * 8` stores
of the fill byte. -/
def fill_spec (attr x y sx sy colour : Nat) (g : Nat → Nat) : Nat → Nat :=
  forLoop (sy * 8) (fun y1 g =>
    forLoop (sx * 8) (fun x1 g => put_fill attr colour (fill_offset x y y1 x1) g) g) g

/-- The byte offsets of the footprint of a command at `(x, y)`, `sx` tiles wide
and `sy` tiles high, in the plane of offset `plane` (1 the pixel plane, 0 the
palette plane): the images of the positions `(row offset, column offset)`. -/
def footprint (x y sx sy plane : Nat) : Finset Nat :=
  (Finset.range (sy * 8) ×ˢ Finset.range (sx * 8)).image
    (fun p => fill_offset x y p.1 p.2 + plane)

/-- A transformation of a memory that only stores fixed values at fixed cells:
for every cell it is decided, independently of the memory, whether the cell is
overwritten and with which value. -/
def constant_stores (T : (Nat → Nat) → (Nat → Nat)) : Prop :=
  ∃ f : Nat → Option Nat, ∀ (g : Nat → Nat) (a : Nat), T g a = (f a).getD (g a)

/-- Number of pixels the entry at word offset `offs` accounts for, as specified:
none when `attr` is 0, `64 * width_tiles * height_tiles` otherwise. -/
def entry_pixels (dma_ram : Nat → Nat) (offs : Nat) : Nat :=
  if entry_attr dma_ram offs = 0 then 0
  else 64 * entry_sx dma_ram offs * entry_sy dma_ram offs

/-- Entry `i` is the only entry of the bank whose `attr` word is not 0. -/
def only_entry (dma_ram : Nat → Nat) (i : Nat) : Prop :=
  i < c_dma_bank_words / 4
    ∧ ∀ i2, i2 < c_dma_bank_words / 4 → i2 ≠ i → entry_attr dma_ram (i2 * 4) = 0

/-- DMA RAM holding the command words `w0 w1 w2 w3` in entry 0 of bank 0 and
zero everywhere else. -/
def one_command_ram (w0 w1 w2 w3 : Nat) : Nat → Nat :=
  fun i => if i = 0 then w0 else if i = 1 then w1 else if i = 2 then w2
    else if i = 3 then w3 else 0

/-- A machine state in which bank 0, holding the single command `w0 w1 w2 w3`,
is the bank `exec_dma` replays (the CPU bank is 1). -/
def one_command_state (w0 w1 w2 w3 : Nat) (cha g : Nat → Nat) : mlanding_state :=
  { m_dma_ram := one_command_ram w0 w1 w2 w3
    m_dma_cpu_bank := 1
    m_dma_busy := 0
    m_g_ram := g
    m_cha_ram := cha
    dma_bank_entry := 1
    timer_requests := [] }

/-- DMA RAM holding the command words `w 0 .. w 3` in entry 0 and `v 0 .. v 3` in
entry 1 of bank 0, and zero everywhere else. -/
def two_command_ram (w v : Nat → Nat) : Nat → Nat :=
  fun i => if i < 4 then w i else if i < 8 then v (i - 4) else 0

/-- A machine state in which bank 0, holding the two commands `w` and `v`, is
the bank `exec_dma` replays (the CPU bank is 1). -/
def two_command_state (w v : Nat → Nat) (cha g : Nat → Nat) : mlanding_state :=
  { m_dma_ram := two_command_ram w v
    m_dma_cpu_bank := 1
    m_dma_busy := 0
    m_g_ram := g
    m_cha_ram := cha
    dma_bank_entry := 1
    timer_requests := [] }

/-- The words of a fill of the pixel plane with the byte `colour`, one tile wide
and high at `(0, 0)`: `attr = 0x2001`, `xword = yword = 0`. -/
def fill_words (colour : Nat) : Nat → Nat :=
  fun k => if k = 0 then 0x2001 else if k = 3 then colour else 0

/-! ## Completion timer and bank device -/

/-- `mlanding_state::dma_stop_w`: `m_dma_busy = 0; timer_set(attotime::never);`,
the timer identifier being left to its default, 0. -/
def dma_stop_w (st : mlanding_state) : mlanding_state :=
  { st with
    m_dma_busy := 0
    timer_requests := st.timer_requests ++ [⟨none, 0⟩] }

/-- `mlanding_state::device_timer`: `TIMER_DMA_COMPLETE` clears the busy flag, any
other identifier is the fatal `assert_always(false, ...)`, here `none`. -/
def device_timer (id : Nat) (st : mlanding_state) : Option mlanding_state :=
  if id = TIMER_DMA_COMPLETE then some { st with m_dma_busy := 0 } else none

/-- `mlanding_state::machine_reset`, for the video DMA part of the state:
`m_dma_cpu_bank = 0; m_dma_bank->set_entry(m_dma_cpu_bank);`. -/
def machine_reset_dma (st : mlanding_state) : mlanding_state :=
  { st with m_dma_cpu_bank := 0, dma_bank_entry := 0 }

/-- Modelled from the spec: the memory bank device of the emulator core, which is
not part of the driver file. `machine_start` configures entries 0 and 1 of the
bank `dma_ram` over `m_dma_ram` with a stride of `c_dma_bank_words * 2` bytes
(`configure_entries(0, 2, m_dma_ram.get(), c_dma_bank_words * 2)`), one of the
two fixed-size word arrays each: entry `e` exposes, at word offset `offs` of the
banked window, the 16-bit word of `m_dma_ram` of this index. -/
def bank_entry_word (e offs : Nat) : Nat := e * (c_dma_bank_words * 2) / 2 + offs

/-- Modelled from the spec: the scheduler of the emulator core behind
`timer_set`, which is not part of the driver file. The specification gives the
DMA engine a single outstanding timer handle, overwritten or cancelled by each
new request: the pending completion event is the one of the last `timer_set`
request, and nothing is pending when that request is `attotime::never` or when
no request was made. -/
def pending_event (requests : List timer_request) : Option timer_request :=
  match requests.getLast? with
  | some r =>
    match r.duration with
    | some _ => some r
    | none => none
  | none => none

/-! ## ADPCM playback -/

/-- A call made on one of the MSM5205 devices: `data_w`, `reset_w` or `vclk_w`
with its argument. -/
inductive msm_call where
  | data_w (v : Nat)
  | reset_w (v : Nat)
  | vclk_w (v : Nat)
deriving DecidableEq

/-- A device call with the device it is made on: `chip` 0 is `m_msm1`, `chip` 1
is `m_msm2`. -/
structure msm_event where
  chip : Nat
  call : msm_call
deriving DecidableEq

/-- The part of `mlanding_state` the ADPCM playback reads or writes. The arrays
`m_msm_pos`, `m_msm_reset` and `m_msm_nibble` are indexed by the chip;
`msm_calls` is the sequence of calls made on the two MSM5205 devices so far. -/
structure sound_state where
  m_msm_pos : Nat → Nat
  m_msm_reset : Nat → Nat
  m_msm_nibble : Nat → Nat
  m_msm2_vck : Nat
  m_msm2_vck2 : Nat
  m_msm1_rom : Nat → Nat
  m_msm2_rom : Nat → Nat
  msm_calls : List msm_event

/-- Length in bytes of the region `adpcm2` (`ROM_REGION( 0x2000, "adpcm2", 0 )`). -/
def adpcm2_bytes : Nat := 0x2000

/-- A call `msm->f(v)` on the device of `chip`. -/
def msm_emit (chip : Nat) (c : msm_call) (s : sound_state) : sound_state :=
  { s with msm_calls := s.msm_calls ++ [⟨chip, c⟩] }

/-- `mlanding_state::msm5205_update`. -/
def msm5205_update (chip : Nat) (s : sound_state) : sound_state :=
  if s.m_msm_reset chip ≠ 0 then s
  else
    let rom := if chip ≠ 0 then s.m_msm2_rom else s.m_msm1_rom
    let data := u8 (rom (s.m_msm_pos chip))
    let msm := if chip ≠ 0 then 1 else 0
    let s1 := msm_emit msm
      (msm_call.data_w ((if s.m_msm_nibble chip ≠ 0 then data else data >>> 4) &&& 0xf)) s
    let s2 :=
      if s1.m_msm_nibble chip ≠ 0 then
        { s1 with m_msm_pos := Function.update s1.m_msm_pos chip (u32 (s1.m_msm_pos chip + 1)) }
      else s1
    { s2 with
      m_msm_nibble := Function.update s2.m_msm_nibble chip (u8 (s2.m_msm_nibble chip ^^^ 1)) }

/-- `mlanding_state::msm5205_1_vck`: `msm5205_update(0);`. -/
def msm5205_1_vck (_state : Nat) (s : sound_state) : sound_state := msm5205_update 0 s

/-- `mlanding_state::z80ctc_to0`. -/
def z80ctc_to0 (state : Nat) (s : sound_state) : sound_state :=
  let s1 :=
    if s.m_msm2_vck2 ≠ 0 ∧ state = 0 then
      let s2 :=
        if s.m_msm2_vck ≠ 0 then msm_emit 1 (msm_call.vclk_w 1) s
        else
          let s3 := msm5205_update 1 s
          if s3.m_msm_pos 1 = 0x2000 then
            msm_emit 1 (msm_call.reset_w 0)
              (msm_emit 1 (msm_call.vclk_w 0)
                (msm_emit 1 (msm_call.reset_w 1)
                  { s3 with m_msm_pos := Function.update s3.m_msm_pos 1 0 }))
          else msm_emit 1 (msm_call.vclk_w 0) s3
      { s2 with m_msm2_vck := u8 (s2.m_msm2_vck ^^^ 1) }
    else s
  { s1 with m_msm2_vck2 := u8 state }

/-- `mlanding_state::msm5205_1_start_w`. -/
def msm5205_1_start_w (s : sound_state) : sound_state :=
  msm_emit 0 (msm_call.reset_w 0) { s with m_msm_reset := Function.update s.m_msm_reset 0 0 }

/-- `mlanding_state::msm5205_1_stop_w`; the `int` constant `~0xff` is
`0xffffff00` once converted to the `uint32_t` of `m_msm_pos`. -/
def msm5205_1_stop_w (s : sound_state) : sound_state :=
  msm_emit 0 (msm_call.reset_w 1)
    { s with
      m_msm_reset := Function.update s.m_msm_reset 0 1
      m_msm_nibble := Function.update s.m_msm_nibble 0 0
      m_msm_pos := Function.update s.m_msm_pos 0 (s.m_msm_pos 0 &&& 0xffffff00) }

/-- `mlanding_state::msm5205_1_addr_lo_w`, `data` being a `uint8_t`; `~0x0ff00`
is `0xffff00ff` as a `uint32_t`. -/
def msm5205_1_addr_lo_w (data : Nat) (s : sound_state) : sound_state :=
  { s with
    m_msm_pos := Function.update s.m_msm_pos 0
      (u32 ((s.m_msm_pos 0 &&& 0xffff00ff) ||| (u8 data <<< 8))) }

/-- `mlanding_state::msm5205_1_addr_hi_w`, `data` being a `uint8_t`; `~0x70000`
is `0xfff8ffff` as a `uint32_t`. -/
def msm5205_1_addr_hi_w (data : Nat) (s : sound_state) : sound_state :=
  { s with
    m_msm_pos := Function.update s.m_msm_pos 0
      (u32 ((s.m_msm_pos 0 &&& 0xfff8ffff) ||| ((u8 data &&& 7) <<< 16))) }

/-- `mlanding_state::msm5205_2_start_w`. -/
def msm5205_2_start_w (s : sound_state) : sound_state :=
  msm_emit 1 (msm_call.reset_w 0) { s with m_msm_reset := Function.update s.m_msm_reset 1 0 }

/-- `mlanding_state::msm5205_2_stop_w`. -/
def msm5205_2_stop_w (s : sound_state) : sound_state :=
  msm_emit 1 (msm_call.reset_w 1)
    { s with
      m_msm_reset := Function.update s.m_msm_reset 1 1
      m_msm_nibble := Function.update s.m_msm_nibble 1 0 }

/-- The values sent with `data_w` to the device of `chip`, in order. -/
def data_trace (chip : Nat) (calls : List msm_event) : List Nat :=
  calls.filterMap (fun e =>
    match e.call with
    | msm_call.data_w v => if e.chip = chip then some v else none
    | _ => none)

/-- The values sent with `vclk_w` to the device of `chip`, in order. -/
def vclk_trace (chip : Nat) (calls : List msm_event) : List Nat :=
  calls.filterMap (fun e =>
    match e.call with
    | msm_call.vclk_w v => if e.chip = chip then some v else none
    | _ => none)

/-- `n` successive calls of `msm5205_update(chip)`. -/
def advance_times (chip : Nat) : Nat → sound_state → sound_state
  | 0, s => s
  | n + 1, s => msm5205_update chip (advance_times chip n s)

/-- The two nibbles of the bytes `rom[p], ..., rom[p + n - 1]`, the high nibble of
each byte first. -/
def nibbles_of (rom : Nat → Nat) (p : Nat) : Nat → List Nat
  | 0 => []
  | n + 1 => nibbles_of rom p n ++ [(u8 (rom (p + n)) >>> 4) &&& 0xf, u8 (rom (p + n)) &&& 0xf]

/-- The calls `z80ctc_to0(x)` for the successive values `x` of a signal. -/
def z80ctc_run : List Nat → sound_state → sound_state
  | [], s => s
  | x :: xs, s => z80ctc_run xs (z80ctc_to0 x s)

/-- Number of falling edges (previous value non-zero, new value 0) of a signal
whose value before the sequence is `prev`. -/
def falling_edges : Nat → List Nat → Nat
  | _, [] => 0
  | prev, x :: xs => (if prev ≠ 0 ∧ x = 0 then 1 else 0) + falling_edges (u8 x) xs

/-- A sound state with the given channel registers and ROM contents, the clock
divider bits low and no device call made yet. -/
def sound_example (pos reset nibble : Nat → Nat) (rom1 rom2 : Nat → Nat) : sound_state :=
  { m_msm_pos := pos
    m_msm_reset := reset
    m_msm_nibble := nibble
    m_msm2_vck := 0
    m_msm2_vck2 := 0
    m_msm1_rom := rom1
    m_msm2_rom := rom2
    msm_calls := [] }

/-- The values sent with `reset_w` to the device of `chip`, in order. -/
def reset_trace (chip : Nat) (calls : List msm_event) : List Nat :=
  calls.filterMap (fun e =>
    match e.call with
    | msm_call.reset_w v => if e.chip = chip then some v else none
    | _ => none)

/-- One period of the half-rate divider: the CTC output goes high, low, high,
low, which is the four calls `z80ctc_to0(1)`, `z80ctc_to0(0)`, `z80ctc_to0(1)`,
`z80ctc_to0(0)`. -/
def ctc_cycle (s : sound_state) : sound_state :=
  z80ctc_to0 0 (z80ctc_to0 1 (z80ctc_to0 0 (z80ctc_to0 1 s)))

/-- `n` successive periods of the half-rate divider. -/
def ctc_cycles : Nat → sound_state → sound_state
  | 0, s => s
  | n + 1, s => ctc_cycle (ctc_cycles n s)

/-- The values seen on the reset line over `k` pulses: `1, 0` for each. -/
def reset_pulses : Nat → List Nat
  | 0 => []
  | k + 1 => reset_pulses k ++ [1, 0]

/-- Channel 1 after `n` advances from pointer 0 and nibble phase 0, `calls`
being the device calls made before them: it is not held, the pointer counts the
pairs of advances modulo `0x2000`, and each wrap has pulsed the reset line. -/
def loop_count_inv (calls : List msm_event) (n : Nat) (t : sound_state) : Prop :=
  t.m_msm_reset 1 = 0
    ∧ t.m_msm_pos 1 = n / 2 % 0x2000
    ∧ t.m_msm_nibble 1 = n % 2
    ∧ (data_trace 1 t.msm_calls).length = (data_trace 1 calls).length + n
    ∧ reset_trace 1 t.msm_calls = reset_trace 1 calls ++ reset_pulses (n / 0x4000)

/-- The handlers of the sound CPU that touch the ADPCM state: the CTC output
callback, the VCK callback of the first MSM5205, and the port writes. -/
inductive sound_op where
  | ctc_to0 (state : Nat)
  | vck_1 (state : Nat)
  | start_1
  | stop_1
  | addr_lo_1 (data : Nat)
  | addr_hi_1 (data : Nat)
  | start_2
  | stop_2

/-- The handler an operation stands for. -/
def apply_op : sound_op → sound_state → sound_state
  | sound_op.ctc_to0 state, s => z80ctc_to0 state s
  | sound_op.vck_1 state, s => msm5205_1_vck state s
  | sound_op.start_1, s => msm5205_1_start_w s
  | sound_op.stop_1, s => msm5205_1_stop_w s
  | sound_op.addr_lo_1 data, s => msm5205_1_addr_lo_w data s
  | sound_op.addr_hi_1 data, s => msm5205_1_addr_hi_w data s
  | sound_op.start_2, s => msm5205_2_start_w s
  | sound_op.stop_2, s => msm5205_2_stop_w s

/-- A sequence of handler calls, in order. -/
def run_ops : List sound_op → sound_state → sound_state
  | [], s => s
  | op :: ops, s => run_ops ops (apply_op op s)

/-! ## Frame-buffer effect of one bank entry -/

/-- Frame-buffer effect of the entry at word offset `offs` in closed form: none
when `attr` is 0, the normal draw when `(attr & 0x2000) == 0`, the fill
otherwise. -/
def entry_effect (dma_ram cha_ram : Nat → Nat) (offs : Nat) (g : Nat → Nat) : Nat → Nat :=
  if entry_attr dma_ram offs = 0 then g
  else if entry_attr dma_ram offs &&& 0x2000 = 0 then
    draw_spec cha_ram (entry_attr dma_ram offs) (entry_x dma_ram offs) (entry_y dma_ram offs)
      (entry_sx dma_ram offs) (entry_sy dma_ram offs) (u8 (entry_colour dma_ram offs <<< 4))
      (entry_code dma_ram offs) g
  else
    fill_spec (entry_attr dma_ram offs) (entry_x dma_ram offs) (entry_y dma_ram offs)
      (entry_sx dma_ram offs) (entry_sy dma_ram offs) (entry_colour dma_ram offs) g

/-- Word index of `m_cha_ram` read as `src[0]` for row `y1` of the tile of index
`code`: `code * 2 * 8 + y1 * 2`. -/
def tile_src_index (code y1 : Nat) : Nat := (code * 2 * 8) + y1 * 2

/-- Number of 16-bit words of the tile memory `cha_ram`. -/
def cha_ram_words : Nat := cha_ram_bytes / 2

/-! ## Loops -/

theorem forLoop_succ {σ : Type} (n : Nat) (body : Nat → σ → σ) (s : σ) :
    forLoop (n + 1) body s = body n (forLoop n body s) := rfl

/-- Loop invariant rule. -/
theorem forLoop_inv {σ : Type} (Inv : Nat → σ → Prop) (n : Nat) (body : Nat → σ → σ)
    (s : σ) (h0 : Inv 0 s)
    (hstep : ∀ i, i < n → ∀ t, Inv i t → Inv (i + 1) (body i t)) :
    Inv n (forLoop n body s) := by
  induction n with
  | zero => exact h0
  | succ m ih =>
    rw [forLoop_succ]
    exact hstep m (Nat.lt_succ_self m) _
      (ih (fun i hi t ht => hstep i (Nat.lt_succ_of_lt hi) t ht))

theorem forLoop_congr {σ : Type} (n : Nat) (body body2 : Nat → σ → σ) (s : σ)
    (h : ∀ i, i < n → ∀ t, body i t = body2 i t) :
    forLoop n body s = forLoop n body2 s := by
  induction n with
  | zero => rfl
  | succ m ih =>
    rw [forLoop_succ, forLoop_succ, ih (fun i hi t => h i (Nat.lt_succ_of_lt hi) t),
      h m (Nat.lt_succ_self m)]

/-- A loop none of whose iterations changes cell `a` does not change it. -/
theorem forLoop_frame {α β : Type} (n : Nat) (body : Nat → (α → β) → (α → β))
    (g : α → β) (a : α) (h : ∀ i, i < n → ∀ t, body i t a = t a) :
    forLoop n body g a = g a :=
  forLoop_inv (fun _ t => t a = g a) n body g rfl
    (fun i hi t ht => (h i hi t).trans ht)

/-- A property set by iteration `i0` and kept by the later ones holds at exit. -/
theorem forLoop_establish {σ : Type} (Q : σ → Prop) (n i0 : Nat) (body : Nat → σ → σ)
    (s : σ) (hi0 : i0 < n) (hset : ∀ t, Q (body i0 t))
    (hkeep : ∀ i, i < n → i0 < i → ∀ t, Q t → Q (body i t)) :
    Q (forLoop n body s) := by
  have key := forLoop_inv (fun i t => i0 < i → Q t) n body s
    (fun h => absurd h (Nat.not_lt_zero i0))
    (fun i hi t ht hlt => by
      rcases Nat.lt_or_ge i0 i with h | h
      · exact hkeep i hi h t (ht h)
      · have : i = i0 := by omega
        subst this
        exact hset t)
  exact key hi0

/-- Two loops whose bodies agree on the states an invariant allows are equal. -/
theorem forLoop_congr_inv {σ : Type} (Inv : Nat → σ → Prop) (n : Nat)
    (body body2 : Nat → σ → σ) (s : σ) (h0 : Inv 0 s)
    (hstep : ∀ i, i < n → ∀ t, Inv i t → body i t = body2 i t ∧ Inv (i + 1) (body i t)) :
    forLoop n body s = forLoop n body2 s ∧ Inv n (forLoop n body s) := by
  induction n with
  | zero => exact ⟨rfl, h0⟩
  | succ m ih =>
    obtain ⟨e, hinv⟩ := ih (fun i hi t ht => hstep i (Nat.lt_succ_of_lt hi) t ht)
    obtain ⟨e2, hinv2⟩ := hstep m (Nat.lt_succ_self m) _ hinv
    rw [forLoop_succ, forLoop_succ]
    exact ⟨by rw [e2, e], hinv2⟩

/-! ## From the running variables of the source to the closed forms -/

theorem u8_lt (n : Nat) : u8 n < 256 := Nat.mod_lt n (by norm_num)

theorem u16_lt (n : Nat) : u16 n < 65536 := Nat.mod_lt n (by norm_num)

theorem u32_lt (n : Nat) : u32 n < 4294967296 := Nat.mod_lt n (by norm_num)

theorem gram_mask_eq : gram_mask = 2 ^ 19 - 1 := by decide

theorem and_gram_mask (b : Nat) : b &&& gram_mask = b % 0x80000 := by
  rw [gram_mask_eq, Nat.and_pow_two_sub_one_eq_mod]

/-- The "Draw 8 pixels" loop, run for `n` pixels. -/
theorem draw_pixel_loop (attr basepix : Nat) (p : Nat × Nat × Nat × Nat) (n : Nat)
    (s : dma_vars) (hb : s.byteaddr < 4294967296) :
    (forLoop n (draw_pixel attr basepix p) s).g_ram
        = forLoop n (fun x1 g => put_pixel attr basepix (decode_pix p x1)
            ((s.byteaddr + 2 * x1) % 0x80000) g) s.g_ram
      ∧ (forLoop n (draw_pixel attr basepix p) s).byteaddr
        = (s.byteaddr + 2 * n) % 4294967296
      ∧ (s.pixcnt < 4294967296 →
          (forLoop n (draw_pixel attr basepix p) s).pixcnt = (s.pixcnt + n) % 4294967296)
      ∧ (forLoop n (draw_pixel attr basepix p) s).code = s.code := by
  induction n with
  | zero =>
    refine ⟨rfl, ?_, fun hp => ?_, rfl⟩
    · show s.byteaddr = _
      omega
    · show s.pixcnt = _
      omega
  | succ m ih =>
    obtain ⟨h1, h2, h3, h4⟩ := ih
    rw [forLoop_succ, forLoop_succ]
    refine ⟨?_, ?_, fun hp => ?_, ?_⟩
    · show put_pixel _ _ _ (_ &&& gram_mask) _ = _
      rw [h1, h2, and_gram_mask]
      have e : (s.byteaddr + 2 * m) % 4294967296 % 0x80000 = (s.byteaddr + 2 * m) % 0x80000 := by
        omega
      rw [e]
    · show u32 (_ + 2) = _
      rw [h2]
      unfold u32
      omega
    · show u32 (_ + 1) = _
      rw [h3 hp]
      unfold u32
      omega
    · exact h4

/-- One tile row: the source's running `byteaddr` visits the specified offsets. -/
theorem draw_row_eq (cha_ram : Nat → Nat) (attr x y basepix j k y1 : Nat) (s : dma_vars) :
    (draw_row cha_ram attr x y basepix j k y1 s).g_ram
        = row_spec cha_ram attr x y basepix s.code j k y1 s.g_ram
      ∧ (s.pixcnt < 4294967296 →
          (draw_row cha_ram attr x y basepix j k y1 s).pixcnt = (s.pixcnt + 8) % 4294967296)
      ∧ (draw_row cha_ram attr x y basepix j k y1 s).code = s.code := by
  have hb : u32 (((y + k * 8 + y1) * 512 + (j * 8 + x)) * 2) < 4294967296 := u32_lt _
  obtain ⟨h1, _, h3, h4⟩ := draw_pixel_loop attr basepix (tile_planes cha_ram s.code y1) 8
    { s with byteaddr := u32 (((y + k * 8 + y1) * 512 + (j * 8 + x)) * 2) } hb
  refine ⟨?_, h3, h4⟩
  unfold draw_row
  rw [h1]
  unfold row_spec
  apply forLoop_congr
  intro x1 _ g
  have e : (u32 (((y + k * 8 + y1) * 512 + (j * 8 + x)) * 2) + 2 * x1) % 0x80000
      = dest_offset x y j k y1 x1 := by
    unfold u32 dest_offset
    omega
  show put_pixel _ _ (tile_pixel cha_ram s.code y1 x1) _ _ = _
  rw [← e]

/-- One tile: eight rows of the tile of index `s.code`, then `++code`. -/
theorem draw_tile_eq (cha_ram : Nat → Nat) (attr x y basepix j k : Nat) (s : dma_vars) :
    (draw_tile cha_ram attr x y basepix j k s).g_ram
        = tile_spec cha_ram attr x y basepix s.code j k s.g_ram
      ∧ (s.pixcnt < 4294967296 →
          (draw_tile cha_ram attr x y basepix j k s).pixcnt = (s.pixcnt + 64) % 4294967296)
      ∧ (draw_tile cha_ram attr x y basepix j k s).code = u16 (s.code + 1) := by
  have key := forLoop_inv
    (fun n t => t.g_ram = forLoop n
        (fun y1 g => row_spec cha_ram attr x y basepix s.code j k y1 g) s.g_ram
      ∧ (s.pixcnt < 4294967296 → t.pixcnt = (s.pixcnt + 8 * n) % 4294967296)
      ∧ t.code = s.code)
    8 (draw_row cha_ram attr x y basepix j k) s
    ⟨rfl, fun hp => by omega, rfl⟩
    (fun i _ t ht => by
      obtain ⟨h1, h2, h3⟩ := ht
      obtain ⟨r1, r2, r3⟩ := draw_row_eq cha_ram attr x y basepix j k i t
      refine ⟨?_, fun hp => ?_, ?_⟩
      · rw [r1, forLoop_succ, h1, h3]
      · have h2 := h2 hp
        rw [r2 (by omega), h2]
        omega
      · rw [r3, h3])
  obtain ⟨k1, k2, k3⟩ := key
  refine ⟨k1, fun hp => ?_, ?_⟩
  · show (forLoop 8 (draw_row cha_ram attr x y basepix j k) s).pixcnt = _
    rw [k2 hp]
  · show u16 ((forLoop 8 (draw_row cha_ram attr x y basepix j k) s).code + 1) = _
    rw [k3]

/-- One column of `sy` tiles: the running `code` is `s.code + k` at tile `k`. -/
theorem draw_column_eq (cha_ram : Nat → Nat) (attr x y sy basepix j : Nat) (s : dma_vars)
    (hc : s.code < 65536) :
    (draw_column cha_ram attr x y sy basepix j s).g_ram
        = forLoop sy (fun k g =>
            tile_spec cha_ram attr x y basepix (u16 (s.code + k)) j k g) s.g_ram
      ∧ (s.pixcnt < 4294967296 →
          (draw_column cha_ram attr x y sy basepix j s).pixcnt
            = (s.pixcnt + 64 * sy) % 4294967296)
      ∧ (draw_column cha_ram attr x y sy basepix j s).code = u16 (s.code + sy) := by
  exact forLoop_inv
    (fun n t => t.g_ram = forLoop n (fun k g =>
          tile_spec cha_ram attr x y basepix (u16 (s.code + k)) j k g) s.g_ram
      ∧ (s.pixcnt < 4294967296 → t.pixcnt = (s.pixcnt + 64 * n) % 4294967296)
      ∧ t.code = u16 (s.code + n))
    sy (draw_tile cha_ram attr x y basepix j) s
    ⟨rfl, fun hp => by omega, by unfold u16; omega⟩
    (fun i _ t ht => by
      obtain ⟨h1, h2, h3⟩ := ht
      obtain ⟨r1, r2, r3⟩ := draw_tile_eq cha_ram attr x y basepix j i t
      refine ⟨?_, fun hp => ?_, ?_⟩
      · rw [r1, forLoop_succ, h1, h3]
      · have h2 := h2 hp
        rw [r2 (by omega), h2]
        omega
      · rw [r3, h3]
        unfold u16
        omega)

/-- The tile loops of a normal draw, with the `uint16_t` wrap of `code` kept. -/
theorem draw_columns_eq (cha_ram : Nat → Nat) (attr x y sx sy basepix : Nat) (s : dma_vars)
    (hc : s.code < 65536) :
    (forLoop sx (draw_column cha_ram attr x y sy basepix) s).g_ram
        = forLoop sx (fun j g => forLoop sy (fun k g =>
            tile_spec cha_ram attr x y basepix (u16 (s.code + j * sy + k)) j k g) g) s.g_ram
      ∧ (s.pixcnt < 4294967296 →
          (forLoop sx (draw_column cha_ram attr x y sy basepix) s).pixcnt
            = (s.pixcnt + 64 * (sx * sy)) % 4294967296)
      ∧ (forLoop sx (draw_column cha_ram attr x y sy basepix) s).code
        = u16 (s.code + sx * sy) := by
  exact forLoop_inv
    (fun n t => t.g_ram = forLoop n (fun j g => forLoop sy (fun k g =>
          tile_spec cha_ram attr x y basepix (u16 (s.code + j * sy + k)) j k g) g) s.g_ram
      ∧ (s.pixcnt < 4294967296 → t.pixcnt = (s.pixcnt + 64 * (n * sy)) % 4294967296)
      ∧ t.code = u16 (s.code + n * sy))
    sx (draw_column cha_ram attr x y sy basepix) s
    ⟨rfl, fun hp => by omega, by unfold u16; omega⟩
    (fun i _ t ht => by
      obtain ⟨h1, h2, h3⟩ := ht
      have hct : t.code < 65536 := by
        rw [h3]
        exact u16_lt _
      obtain ⟨r1, r2, r3⟩ := draw_column_eq cha_ram attr x y sy basepix i t hct
      have hmul : (i + 1) * sy = i * sy + sy := Nat.succ_mul i sy
      refine ⟨?_, fun hp => ?_, ?_⟩
      · rw [r1, forLoop_succ, h1]
        apply forLoop_congr
        intro k _ g
        have e : u16 (t.code + k) = u16 (s.code + i * sy + k) := by
          rw [h3]
          unfold u16
          omega
        rw [e]
      · have h2 := h2 hp
        rw [r2 (by omega), h2, hmul]
        omega
      · rw [r3, h3, hmul]
        unfold u16
        omega)

/-- The pixel loop of the fill mode, run for `n` pixels. -/
theorem fill_pixel_loop (attr colour n : Nat) (s : dma_vars)
    (hb : s.byteaddr < 4294967296) :
    (forLoop n (fill_pixel attr colour) s).g_ram
        = forLoop n (fun x1 g => put_fill attr colour ((s.byteaddr + 2 * x1) % 0x80000) g)
            s.g_ram
      ∧ (forLoop n (fill_pixel attr colour) s).byteaddr = (s.byteaddr + 2 * n) % 4294967296
      ∧ (s.pixcnt < 4294967296 →
          (forLoop n (fill_pixel attr colour) s).pixcnt = (s.pixcnt + n) % 4294967296)
      ∧ (forLoop n (fill_pixel attr colour) s).code = s.code := by
  induction n with
  | zero =>
    refine ⟨rfl, ?_, fun hp => ?_, rfl⟩
    · show s.byteaddr = _
      omega
    · show s.pixcnt = _
      omega
  | succ m ih =>
    obtain ⟨h1, h2, h3, h4⟩ := ih
    rw [forLoop_succ, forLoop_succ]
    refine ⟨?_, ?_, fun hp => ?_, ?_⟩
    · show (if attr &&& 0x4000 = 0 then pixdata_put _ (_ &&& gram_mask) colour
        else paldata_put _ (_ &&& gram_mask) colour) = _
      rw [h1, h2, and_gram_mask]
      have e : (s.byteaddr + 2 * m) % 4294967296 % 0x80000 = (s.byteaddr + 2 * m) % 0x80000 := by
        omega
      rw [e]
      rfl
    · show u32 (_ + 2) = _
      rw [h2]
      unfold u32
      omega
    · show u32 (_ + 1) = _
      rw [h3 hp]
      unfold u32
      omega
    · exact h4

/-- One row of a fill. -/
theorem fill_row_eq (attr x y sx colour y1 : Nat) (s : dma_vars) :
    (fill_row attr x y sx colour y1 s).g_ram
        = forLoop (sx * 8) (fun x1 g => put_fill attr colour (fill_offset x y y1 x1) g) s.g_ram
      ∧ (s.pixcnt < 4294967296 →
          (fill_row attr x y sx colour y1 s).pixcnt = (s.pixcnt + sx * 8) % 4294967296)
      ∧ (fill_row attr x y sx colour y1 s).code = s.code := by
  have hb : u32 ((((y + y1) * 512) + x) * 2) < 4294967296 := u32_lt _
  obtain ⟨h1, _, h3, h4⟩ := fill_pixel_loop attr colour (sx * 8)
    { s with byteaddr := u32 ((((y + y1) * 512) + x) * 2) } hb
  refine ⟨?_, h3, h4⟩
  unfold fill_row
  rw [h1]
  apply forLoop_congr
  intro x1 _ g
  have e : (u32 ((((y + y1) * 512) + x) * 2) + 2 * x1) % 0x80000 = fill_offset x y y1 x1 := by
    unfold u32 fill_offset
    omega
  show put_fill _ _ _ _ = _
  rw [← e]

/-- The row loop of a fill. -/
theorem fill_rows_eq (attr x y sx sy colour : Nat) (s : dma_vars) :
    (forLoop (sy * 8) (fill_row attr x y sx colour) s).g_ram
        = fill_spec attr x y sx sy colour s.g_ram
      ∧ (s.pixcnt < 4294967296 →
          (forLoop (sy * 8) (fill_row attr x y sx colour) s).pixcnt
            = (s.pixcnt + 64 * (sx * sy)) % 4294967296)
      ∧ (forLoop (sy * 8) (fill_row attr x y sx colour) s).code = s.code := by
  have key := forLoop_inv
    (fun n t => t.g_ram = forLoop n (fun y1 g =>
          forLoop (sx * 8) (fun x1 g => put_fill attr colour (fill_offset x y y1 x1) g) g)
          s.g_ram
      ∧ (s.pixcnt < 4294967296 → t.pixcnt = (s.pixcnt + n * (sx * 8)) % 4294967296)
      ∧ t.code = s.code)
    (sy * 8) (fill_row attr x y sx colour) s
    ⟨rfl, fun hp => by omega, rfl⟩
    (fun i _ t ht => by
      obtain ⟨h1, h2, h3⟩ := ht
      obtain ⟨r1, r2, r3⟩ := fill_row_eq attr x y sx colour i t
      have hmul : (i + 1) * (sx * 8) = i * (sx * 8) + sx * 8 := Nat.succ_mul i (sx * 8)
      refine ⟨?_, fun hp => ?_, ?_⟩
      · rw [r1, forLoop_succ, h1]
      · have h2 := h2 hp
        rw [r2 (by omega), h2, hmul]
        omega
      · rw [r3, h3])
  obtain ⟨k1, k2, k3⟩ := key
  refine ⟨k1, fun hp => ?_, k3⟩
  rw [k2 hp]
  have e : sy * 8 * (sx * 8) = 64 * (sx * sy) := by ring
  rw [e]

/-- A normal draw whose tile indices do not leave the `uint16_t` range is the
specified draw; it counts `64 * sx * sy` pixels. -/
theorem exec_command_draw (cha_ram : Nat → Nat) (attr code x y sx sy colour : Nat)
    (s : dma_vars) (hmode : attr &&& 0x2000 = 0)
    (hc0 : code < 65536) (hc : code + sx * sy ≤ 65536) :
    (exec_command cha_ram attr code x y sx sy colour s).g_ram
        = draw_spec cha_ram attr x y sx sy (u8 (colour <<< 4)) code s.g_ram
      ∧ (s.pixcnt < 4294967296 →
          (exec_command cha_ram attr code x y sx sy colour s).pixcnt
            = (s.pixcnt + 64 * (sx * sy)) % 4294967296) := by
  unfold exec_command
  rw [if_pos hmode]
  obtain ⟨h1, h2, _⟩ := draw_columns_eq cha_ram attr x y sx sy (u8 (colour <<< 4))
    { s with code := code } hc0
  refine ⟨?_, h2⟩
  rw [h1]
  unfold draw_spec
  apply forLoop_congr
  intro j hj g
  apply forLoop_congr
  intro k hk g2
  have hlt : j * sy + k < sx * sy := by
    have h1 : (j + 1) * sy ≤ sx * sy := Nat.mul_le_mul_right sy hj
    have h2 : (j + 1) * sy = j * sy + sy := Nat.succ_mul j sy
    omega
  have e : u16 (code + j * sy + k) = code + j * sy + k := by
    unfold u16
    show (code + j * sy + k) % 65536 = _
    omega
  show tile_spec cha_ram attr x y (u8 (colour <<< 4)) (u16 (code + j * sy + k)) j k g2 = _
  rw [e]

/-- A fill is the specified fill; it counts `64 * sx * sy` pixels. -/
theorem exec_command_fill (cha_ram : Nat → Nat) (attr code x y sx sy colour : Nat)
    (s : dma_vars) (hmode : attr &&& 0x2000 ≠ 0) :
    (exec_command cha_ram attr code x y sx sy colour s).g_ram
        = fill_spec attr x y sx sy colour s.g_ram
      ∧ (s.pixcnt < 4294967296 →
          (exec_command cha_ram attr code x y sx sy colour s).pixcnt
            = (s.pixcnt + 64 * (sx * sy)) % 4294967296) := by
  unfold exec_command
  rw [if_neg hmode]
  obtain ⟨h1, h2, _⟩ := fill_rows_eq attr x y sx sy colour s
  exact ⟨h1, h2⟩

/-! ## Decoded command words -/

theorem entry_attr_lt (dma_ram : Nat → Nat) (offs : Nat) : entry_attr dma_ram offs < 65536 :=
  u16_lt _

theorem entry_code_lt (dma_ram : Nat → Nat) (offs : Nat) : entry_code dma_ram offs < 0x2000 := by
  unfold entry_code u16
  rw [show (0x1fff : Nat) = 2 ^ 13 - 1 from rfl, Nat.and_pow_two_sub_one_eq_mod]
  omega

theorem entry_x_lt (dma_ram : Nat → Nat) (offs : Nat) : entry_x dma_ram offs < 512 := by
  unfold entry_x u16
  rw [show (0x1ff : Nat) = 2 ^ 9 - 1 from rfl, Nat.and_pow_two_sub_one_eq_mod]
  omega

theorem entry_y_lt (dma_ram : Nat → Nat) (offs : Nat) : entry_y dma_ram offs < 512 := by
  unfold entry_y u16
  rw [show (0x1ff : Nat) = 2 ^ 9 - 1 from rfl, Nat.and_pow_two_sub_one_eq_mod]
  omega

theorem entry_sx_bounds (dma_ram : Nat → Nat) (offs : Nat) :
    1 ≤ entry_sx dma_ram offs ∧ entry_sx dma_ram offs ≤ 32 := by
  unfold entry_sx u16
  rw [show (0x1f : Nat) = 2 ^ 5 - 1 from rfl, Nat.and_pow_two_sub_one_eq_mod]
  omega

theorem entry_sy_bounds (dma_ram : Nat → Nat) (offs : Nat) :
    1 ≤ entry_sy dma_ram offs ∧ entry_sy dma_ram offs ≤ 32 := by
  unfold entry_sy u16
  rw [show (0x1f : Nat) = 2 ^ 5 - 1 from rfl, Nat.and_pow_two_sub_one_eq_mod]
  omega

theorem entry_colour_lt (dma_ram : Nat → Nat) (offs : Nat) :
    entry_colour dma_ram offs < 256 := u8_lt _

/-- Width times height of a command is between 1 and 1024 tiles. -/
theorem entry_tiles_bounds (dma_ram : Nat → Nat) (offs : Nat) :
    1 ≤ entry_sx dma_ram offs * entry_sy dma_ram offs
      ∧ entry_sx dma_ram offs * entry_sy dma_ram offs ≤ 1024 := by
  obtain ⟨hx1, hx2⟩ := entry_sx_bounds dma_ram offs
  obtain ⟨hy1, hy2⟩ := entry_sy_bounds dma_ram offs
  constructor
  · exact Nat.mul_pos hx1 hy1
  · exact Nat.mul_le_mul hx2 hy2

theorem entry_pixels_le (dma_ram : Nat → Nat) (offs : Nat) :
    entry_pixels dma_ram offs ≤ 65536 := by
  unfold entry_pixels
  split
  · omega
  · have h := (entry_tiles_bounds dma_ram offs).2
    rw [Nat.mul_assoc]
    omega

/-! ## One entry and the scan of a bank -/

theorem exec_entry_skip (dma_ram cha_ram : Nat → Nat) (offs : Nat) (s : dma_vars)
    (h : entry_attr dma_ram offs = 0) : exec_entry dma_ram cha_ram offs s = s := by
  unfold exec_entry
  rw [if_pos h]

theorem exec_entry_run (dma_ram cha_ram : Nat → Nat) (offs : Nat) (s : dma_vars)
    (h : entry_attr dma_ram offs ≠ 0) :
    exec_entry dma_ram cha_ram offs s
      = exec_command cha_ram (entry_attr dma_ram offs) (entry_code dma_ram offs)
          (entry_x dma_ram offs) (entry_y dma_ram offs) (entry_sx dma_ram offs)
          (entry_sy dma_ram offs) (entry_colour dma_ram offs) s := by
  unfold exec_entry
  rw [if_neg h]

/-- Pixel count of a command, whatever its mode. -/
theorem exec_command_pixcnt (cha_ram : Nat → Nat) (attr code x y sx sy colour : Nat)
    (s : dma_vars) (hp : s.pixcnt < 4294967296) (hc0 : code < 65536)
    (hc : code + sx * sy ≤ 65536) :
    (exec_command cha_ram attr code x y sx sy colour s).pixcnt
      = (s.pixcnt + 64 * (sx * sy)) % 4294967296 := by
  by_cases hmode : attr &&& 0x2000 = 0
  · exact (exec_command_draw cha_ram attr code x y sx sy colour s hmode hc0 hc).2 hp
  · exact (exec_command_fill cha_ram attr code x y sx sy colour s hmode).2 hp

/-- The tile indices of a decoded entry stay below `0x2000 + 1024`. -/
theorem entry_code_room (dma_ram : Nat → Nat) (offs : Nat) :
    entry_code dma_ram offs < 65536
      ∧ entry_code dma_ram offs + entry_sx dma_ram offs * entry_sy dma_ram offs ≤ 65536 := by
  have h1 := entry_code_lt dma_ram offs
  have h2 := (entry_tiles_bounds dma_ram offs).2
  constructor <;> omega

/-- Pixel count of one entry. -/
theorem exec_entry_pixcnt (dma_ram cha_ram : Nat → Nat) (offs : Nat) (s : dma_vars)
    (hp : s.pixcnt < 4294967296) :
    (exec_entry dma_ram cha_ram offs s).pixcnt
      = (s.pixcnt + entry_pixels dma_ram offs) % 4294967296 := by
  unfold entry_pixels
  by_cases h : entry_attr dma_ram offs = 0
  · rw [exec_entry_skip dma_ram cha_ram offs s h, if_pos h]
    omega
  · rw [exec_entry_run dma_ram cha_ram offs s h, if_neg h,
      exec_command_pixcnt cha_ram _ _ _ _ _ _ _ s hp (entry_code_room dma_ram offs).1
        (entry_code_room dma_ram offs).2, Nat.mul_assoc]

/-- Sum of the specified pixel counts of the first `n` entries of a bank. -/
theorem sum_entry_pixels_le (dma_ram : Nat → Nat) (n : Nat) :
    Finset.sum (Finset.range n) (fun i => entry_pixels dma_ram (i * 4)) ≤ n * 65536 := by
  induction n with
  | zero => simp
  | succ m ih =>
    rw [Finset.sum_range_succ]
    have h := entry_pixels_le dma_ram (m * 4)
    have e : (m + 1) * 65536 = m * 65536 + 65536 := Nat.succ_mul m 65536
    omega

/-- Pixel count after the scan of the first `n` entries. -/
theorem exec_dma_loop_pixcnt (dma_ram cha_ram : Nat → Nat) (n : Nat) (s : dma_vars)
    (hp : s.pixcnt < 4294967296) :
    (exec_dma_loop dma_ram cha_ram n s).pixcnt
      = (s.pixcnt + Finset.sum (Finset.range n) (fun i => entry_pixels dma_ram (i * 4)))
          % 4294967296 := by
  unfold exec_dma_loop
  exact forLoop_inv
    (fun m t => t.pixcnt
      = (s.pixcnt + Finset.sum (Finset.range m) (fun i => entry_pixels dma_ram (i * 4)))
          % 4294967296)
    n (fun i s => exec_entry dma_ram cha_ram (i * 4) s) s
    (by
      show s.pixcnt = _
      rw [Finset.sum_range_zero]
      omega)
    (fun i _ t ht => by
      have hpt : t.pixcnt < 4294967296 := by omega
      show (exec_entry dma_ram cha_ram (i * 4) t).pixcnt = _
      rw [exec_entry_pixcnt dma_ram cha_ram (i * 4) t hpt, ht, Finset.sum_range_succ]
      omega)

/-- A scan in which only entry `i` has a non-zero `attr` is that entry alone. -/
theorem exec_dma_loop_single (dma_ram cha_ram : Nat → Nat) (n i : Nat) (s : dma_vars)
    (hi : i < n)
    (hz : ∀ i2, i2 < n → i2 ≠ i → entry_attr dma_ram (i2 * 4) = 0) :
    exec_dma_loop dma_ram cha_ram n s = exec_entry dma_ram cha_ram (i * 4) s := by
  unfold exec_dma_loop
  have key := forLoop_inv
    (fun m t => (m ≤ i → t = s) ∧ (i < m → t = exec_entry dma_ram cha_ram (i * 4) s))
    n (fun i s => exec_entry dma_ram cha_ram (i * 4) s) s
    ⟨fun _ => rfl, fun h => absurd h (Nat.not_lt_zero i)⟩
    (fun m hm t ht => by
      obtain ⟨h1, h2⟩ := ht
      constructor
      · intro hle
        have hne : m ≠ i := by omega
        show exec_entry dma_ram cha_ram (m * 4) t = s
        rw [exec_entry_skip dma_ram cha_ram (m * 4) t (hz m hm hne)]
        exact h1 (by omega)
      · intro hlt
        show exec_entry dma_ram cha_ram (m * 4) t = _
        rcases Nat.lt_or_ge i m with h | h
        · have hne : m ≠ i := by omega
          rw [exec_entry_skip dma_ram cha_ram (m * 4) t (hz m hm hne)]
          exact h2 h
        · have e : m = i := by omega
          subst e
          rw [h1 (Nat.le_refl m)])
  exact key.2 hi

/-- A scan of entries that all have `attr == 0` changes nothing. -/
theorem exec_dma_loop_zero (dma_ram cha_ram : Nat → Nat) (n : Nat) (s : dma_vars)
    (hz : ∀ i, i < n → entry_attr dma_ram (i * 4) = 0) :
    exec_dma_loop dma_ram cha_ram n s = s := by
  unfold exec_dma_loop
  exact forLoop_inv (fun _ t => t = s) n (fun i s => exec_entry dma_ram cha_ram (i * 4) s) s rfl
    (fun i hi t ht => by
      show exec_entry dma_ram cha_ram (i * 4) t = s
      rw [exec_entry_skip dma_ram cha_ram (i * 4) t (hz i hi)]
      exact ht)

/-! ## Frame-buffer contents after a specified draw or fill -/

theorem pixdata_put_same (g : Nat → Nat) (addr v : Nat) :
    pixdata_put g addr v (addr + 1) = u8 v := by
  unfold pixdata_put BYTE_XOR_BE
  rw [Nat.add_comm 1 addr, Function.update_same]

theorem pixdata_put_other (g : Nat → Nat) (addr v a : Nat) (h : a ≠ addr + 1) :
    pixdata_put g addr v a = g a := by
  unfold pixdata_put BYTE_XOR_BE
  rw [Nat.add_comm 1 addr, Function.update_noteq h]

theorem paldata_put_same (g : Nat → Nat) (addr v : Nat) :
    paldata_put g addr v addr = u8 v := by
  unfold paldata_put BYTE_XOR_BE
  rw [Nat.zero_add, Function.update_same]

theorem paldata_put_other (g : Nat → Nat) (addr v a : Nat) (h : a ≠ addr) :
    paldata_put g addr v a = g a := by
  unfold paldata_put BYTE_XOR_BE
  rw [Nat.zero_add, Function.update_noteq h]

theorem put_pixel_other (attr basepix pix addr : Nat) (g : Nat → Nat) (a : Nat)
    (h : a ≠ addr + 1) : put_pixel attr basepix pix addr g a = g a := by
  unfold put_pixel
  split
  · split
    · exact pixdata_put_other g addr _ a h
    · rfl
  · exact pixdata_put_other g addr _ a h

theorem put_pixel_zero (attr basepix addr : Nat) (g : Nat → Nat)
    (ht : attr &&& 0x8000 = 0) : put_pixel attr basepix 0 addr g = g := by
  unfold put_pixel
  rw [if_pos ht, if_neg (fun h => h rfl)]

theorem put_pixel_same (attr basepix pix addr : Nat) (g : Nat → Nat)
    (h : attr &&& 0x8000 ≠ 0 ∨ pix ≠ 0) :
    put_pixel attr basepix pix addr g (addr + 1) = u8 (basepix ||| pix) := by
  unfold put_pixel
  split
  · rename_i ht
    rcases h with h | h
    · exact absurd ht h
    · rw [if_pos h]
      exact pixdata_put_same g addr _
  · exact pixdata_put_same g addr _

/-- Within one command two pixel positions never share a destination. -/
theorem dest_offset_inj (x y j k y1 x1 j2 k2 y2 x2 : Nat)
    (hj : j < 32) (hk : k < 32) (hy1 : y1 < 8) (hx1 : x1 < 8)
    (hj2 : j2 < 32) (hk2 : k2 < 32) (hy2 : y2 < 8) (hx2 : x2 < 8)
    (h : dest_offset x y j k y1 x1 = dest_offset x y j2 k2 y2 x2) :
    j = j2 ∧ k = k2 ∧ y1 = y2 ∧ x1 = x2 := by
  unfold dest_offset at h
  omega

/-- A byte that no pixel store of the draw changes keeps its value. -/
theorem draw_spec_frame (cha_ram : Nat → Nat) (attr x y sx sy basepix code : Nat)
    (g : Nat → Nat) (a : Nat)
    (h : ∀ j, j < sx → ∀ k, k < sy → ∀ y1, y1 < 8 → ∀ x1, x1 < 8 → ∀ t : Nat → Nat,
      put_pixel attr basepix (tile_pixel cha_ram (code + j * sy + k) y1 x1)
        (dest_offset x y j k y1 x1) t a = t a) :
    draw_spec cha_ram attr x y sx sy basepix code g a = g a := by
  unfold draw_spec
  refine forLoop_frame sx _ g a (fun j hj t => ?_)
  refine forLoop_frame sy _ t a (fun k hk t2 => ?_)
  unfold tile_spec
  refine forLoop_frame 8 _ t2 a (fun y1 hy1 t3 => ?_)
  unfold row_spec
  exact forLoop_frame 8 _ t3 a (fun x1 hx1 t4 => h j hj k hk y1 hy1 x1 hx1 t4)

/-- A byte outside the footprint of a draw keeps its value. -/
theorem draw_spec_outside (cha_ram : Nat → Nat) (attr x y sx sy basepix code : Nat)
    (g : Nat → Nat) (a : Nat)
    (h : ∀ j, j < sx → ∀ k, k < sy → ∀ y1, y1 < 8 → ∀ x1, x1 < 8 →
      a ≠ dest_offset x y j k y1 x1 + 1) :
    draw_spec cha_ram attr x y sx sy basepix code g a = g a :=
  draw_spec_frame cha_ram attr x y sx sy basepix code g a
    (fun j hj k hk y1 hy1 x1 hx1 t =>
      put_pixel_other _ _ _ _ t a (h j hj k hk y1 hy1 x1 hx1))

/-- The byte of a footprint position whose store is effective (opaque mode, or a
non-zero pixel) holds that pixel after the draw. -/
theorem draw_spec_at (cha_ram : Nat → Nat) (attr x y sx sy basepix code : Nat)
    (g : Nat → Nat) (j0 k0 y0 x0 : Nat)
    (hsx : sx ≤ 32) (hsy : sy ≤ 32) (hj : j0 < sx) (hk : k0 < sy) (hy0 : y0 < 8)
    (hx0 : x0 < 8)
    (heff : attr &&& 0x8000 ≠ 0 ∨ tile_pixel cha_ram (code + j0 * sy + k0) y0 x0 ≠ 0) :
    draw_spec cha_ram attr x y sx sy basepix code g (dest_offset x y j0 k0 y0 x0 + 1)
      = u8 (basepix ||| tile_pixel cha_ram (code + j0 * sy + k0) y0 x0) := by
  have other : ∀ j k y1 x1, j < sx → k < sy → y1 < 8 → x1 < 8 →
      (j ≠ j0 ∨ k ≠ k0 ∨ y1 ≠ y0 ∨ x1 ≠ x0) → ∀ (pix : Nat) (t : Nat → Nat),
      put_pixel attr basepix pix (dest_offset x y j k y1 x1) t
        (dest_offset x y j0 k0 y0 x0 + 1) = t (dest_offset x y j0 k0 y0 x0 + 1) := by
    intro j k y1 x1 h1 h2 h3 h4 hne pix t
    apply put_pixel_other
    intro heq
    have := dest_offset_inj x y j0 k0 y0 x0 j k y1 x1 (by omega) (by omega) hy0 hx0
      (by omega) (by omega) h3 h4 (by omega)
    omega
  unfold draw_spec
  refine forLoop_establish
    (fun t => t (dest_offset x y j0 k0 y0 x0 + 1)
      = u8 (basepix ||| tile_pixel cha_ram (code + j0 * sy + k0) y0 x0))
    sx j0 _ g hj (fun t => ?_) (fun j hj2 hlt t ht => ?_)
  · refine forLoop_establish
      (fun t => t (dest_offset x y j0 k0 y0 x0 + 1)
        = u8 (basepix ||| tile_pixel cha_ram (code + j0 * sy + k0) y0 x0))
      sy k0 _ t hk (fun t => ?_) (fun k hk2 hlt t ht => ?_)
    · unfold tile_spec
      refine forLoop_establish
        (fun t => t (dest_offset x y j0 k0 y0 x0 + 1)
          = u8 (basepix ||| tile_pixel cha_ram (code + j0 * sy + k0) y0 x0))
        8 y0 _ t hy0 (fun t => ?_) (fun y1 hy1 hlt t ht => ?_)
      · unfold row_spec
        refine forLoop_establish
          (fun t => t (dest_offset x y j0 k0 y0 x0 + 1)
            = u8 (basepix ||| tile_pixel cha_ram (code + j0 * sy + k0) y0 x0))
          8 x0 _ t hx0 (fun t => ?_) (fun x1 hx1 hlt t ht => ?_)
        · exact put_pixel_same _ _ _ _ t heff
        · show put_pixel _ _ _ _ t _ = _
          rw [other j0 k0 y0 x1 hj hk hy0 hx1 (by omega)]
          exact ht
      · show row_spec _ _ _ _ _ _ _ _ _ t _ = _
        unfold row_spec
        rw [forLoop_frame 8 _ t _ (fun x1 hx1 t2 =>
          other j0 k0 y1 x1 hj hk hy1 hx1 (by omega) _ t2)]
        exact ht
    · show tile_spec _ _ _ _ _ _ _ _ t _ = _
      unfold tile_spec
      rw [forLoop_frame 8 _ t _ (fun y1 hy1 t2 => by
        unfold row_spec
        exact forLoop_frame 8 _ t2 _ (fun x1 hx1 t3 =>
          other j0 k y1 x1 hj hk2 hy1 hx1 (by omega) _ t3))]
      exact ht
  · show forLoop sy _ t _ = _
    rw [forLoop_frame sy _ t _ (fun k hk2 t2 => by
      unfold tile_spec
      exact forLoop_frame 8 _ t2 _ (fun y1 hy1 t3 => by
        unfold row_spec
        exact forLoop_frame 8 _ t3 _ (fun x1 hx1 t4 =>
          other j k y1 x1 hj2 hk2 hy1 hx1 (by omega) _ t4)))]
    exact ht

/-- The byte of a footprint position whose pixel is 0 keeps its value in a
transparent draw. -/
theorem draw_spec_keep (cha_ram : Nat → Nat) (attr x y sx sy basepix code : Nat)
    (g : Nat → Nat) (j0 k0 y0 x0 : Nat)
    (hsx : sx ≤ 32) (hsy : sy ≤ 32) (hj : j0 < sx) (hk : k0 < sy) (hy0 : y0 < 8)
    (hx0 : x0 < 8) (ht : attr &&& 0x8000 = 0)
    (hz : tile_pixel cha_ram (code + j0 * sy + k0) y0 x0 = 0) :
    draw_spec cha_ram attr x y sx sy basepix code g (dest_offset x y j0 k0 y0 x0 + 1)
      = g (dest_offset x y j0 k0 y0 x0 + 1) := by
  apply draw_spec_frame
  intro j hj2 k hk2 y1 hy1 x1 hx1 t
  by_cases heq : dest_offset x y j k y1 x1 = dest_offset x y j0 k0 y0 x0
  · obtain ⟨e1, e2, e3, e4⟩ := dest_offset_inj x y j k y1 x1 j0 k0 y0 x0 (by omega)
      (by omega) hy1 hx1 (by omega) (by omega) hy0 hx0 heq
    subst e1 e2 e3 e4
    rw [hz, put_pixel_zero attr basepix _ t ht]
  · apply put_pixel_other
    omega

theorem put_fill_other (attr colour addr : Nat) (g : Nat → Nat) (a : Nat)
    (h : a ≠ addr + (if attr &&& 0x4000 = 0 then 1 else 0)) :
    put_fill attr colour addr g a = g a := by
  unfold put_fill
  split
  · rename_i hm
    rw [if_pos hm] at h
    exact pixdata_put_other g addr colour a h
  · rename_i hm
    rw [if_neg hm] at h
    exact paldata_put_other g addr colour a h

theorem put_fill_same (attr colour addr : Nat) (g : Nat → Nat) :
    put_fill attr colour addr g (addr + (if attr &&& 0x4000 = 0 then 1 else 0))
      = u8 colour := by
  unfold put_fill
  split
  · exact pixdata_put_same g addr colour
  · exact paldata_put_same g addr colour

/-- A store of the fill byte never undoes an earlier store of it. -/
theorem put_fill_keep (attr colour addr : Nat) (g : Nat → Nat) (a : Nat)
    (h : g a = u8 colour) : put_fill attr colour addr g a = u8 colour := by
  by_cases e : a = addr + (if attr &&& 0x4000 = 0 then 1 else 0)
  · rw [e]
    exact put_fill_same attr colour addr g
  · rw [put_fill_other attr colour addr g a e]
    exact h

/-- Every position of the footprint of a fill holds the fill byte afterwards, in
the plane `attr` selects. -/
theorem fill_spec_at (attr x y sx sy colour : Nat) (g : Nat → Nat) (y0 x0 : Nat)
    (hy0 : y0 < sy * 8) (hx0 : x0 < sx * 8) :
    fill_spec attr x y sx sy colour g
        (fill_offset x y y0 x0 + (if attr &&& 0x4000 = 0 then 1 else 0))
      = u8 colour := by
  unfold fill_spec
  refine forLoop_establish
    (fun t => t (fill_offset x y y0 x0 + (if attr &&& 0x4000 = 0 then 1 else 0)) = u8 colour)
    (sy * 8) y0 _ g hy0 (fun t => ?_) (fun y1 _ _ t ht => ?_)
  · refine forLoop_establish
      (fun t => t (fill_offset x y y0 x0 + (if attr &&& 0x4000 = 0 then 1 else 0))
        = u8 colour)
      (sx * 8) x0 _ t hx0 (fun t => ?_) (fun x1 _ _ t ht => ?_)
    · exact put_fill_same attr colour _ t
    · exact put_fill_keep attr colour _ t _ ht
  · exact forLoop_inv
      (fun _ t => t (fill_offset x y y0 x0 + (if attr &&& 0x4000 = 0 then 1 else 0))
        = u8 colour)
      (sx * 8) _ t ht (fun x1 _ t2 ht2 => put_fill_keep attr colour _ t2 _ ht2)

/-- A byte that is not a position of the footprint, in the selected plane, keeps
its value in a fill. -/
theorem fill_spec_outside (attr x y sx sy colour : Nat) (g : Nat → Nat) (a : Nat)
    (h : ∀ y1, y1 < sy * 8 → ∀ x1, x1 < sx * 8 →
      a ≠ fill_offset x y y1 x1 + (if attr &&& 0x4000 = 0 then 1 else 0)) :
    fill_spec attr x y sx sy colour g a = g a := by
  unfold fill_spec
  refine forLoop_frame (sy * 8) _ g a (fun y1 hy1 t => ?_)
  exact forLoop_frame (sx * 8) _ t a (fun x1 hx1 t2 =>
    put_fill_other attr colour _ t2 a (h y1 hy1 x1 hx1))

/-! ## Pixel values -/

theorem BIT_le_one (x n : Nat) : BIT x n ≤ 1 := Nat.and_le_right

theorem decode_pix_lt (p : Nat × Nat × Nat × Nat) (x1 : Nat) : decode_pix p x1 < 16 := by
  unfold decode_pix u16
  have h4 := BIT_le_one p.2.2.2 x1
  have h3 := BIT_le_one p.2.2.1 x1
  have h2 := BIT_le_one p.2.1 x1
  have h1 := BIT_le_one p.1 x1
  have e4 : BIT p.2.2.2 x1 <<< 3 < 2 ^ 4 := by
    rw [Nat.shiftLeft_eq]
    omega
  have e3 : BIT p.2.2.1 x1 <<< 2 < 2 ^ 4 := by
    rw [Nat.shiftLeft_eq]
    omega
  have e2 : BIT p.2.1 x1 <<< 1 < 2 ^ 4 := by
    rw [Nat.shiftLeft_eq]
    omega
  have e1 : BIT p.1 x1 < 2 ^ 4 := by omega
  have h := Nat.or_lt_two_pow (Nat.or_lt_two_pow (Nat.or_lt_two_pow e4 e3) e2) e1
  exact Nat.lt_of_le_of_lt (Nat.mod_le _ _) h

theorem tile_pixel_lt (cha_ram : Nat → Nat) (code y1 x1 : Nat) :
    tile_pixel cha_ram code y1 x1 < 16 := decode_pix_lt _ _

/-- The planes of a tile row are read from two words of character RAM only. -/
theorem tile_planes_congr (cha cha2 : Nat → Nat) (code y1 : Nat)
    (h0 : rd16 cha2 (16 * code + 2 * y1) = rd16 cha (16 * code + 2 * y1))
    (h1 : rd16 cha2 (16 * code + 2 * y1 + 1) = rd16 cha (16 * code + 2 * y1 + 1)) :
    tile_planes cha2 code y1 = tile_planes cha code y1 := by
  have e : code * 2 * 8 + y1 * 2 = 16 * code + 2 * y1 := by omega
  unfold tile_planes
  simp only [e, h0, h1]

/-- A byte stored by a normal draw is `basepix | pix` itself. -/
theorem u8_basepix_or (colour pix : Nat) (h : pix < 16) :
    u8 (u8 (colour <<< 4) ||| pix) = u8 (colour <<< 4) ||| pix := by
  have h1 : u8 (colour <<< 4) < 2 ^ 8 := u8_lt _
  have h2 : pix < 2 ^ 8 := by omega
  exact Nat.mod_eq_of_lt (Nat.or_lt_two_pow h1 h2)

/-- All pixels of a tile made of zero words are 0. -/
theorem tile_pixel_zero (code y1 x1 : Nat) : tile_pixel (fun _ => 0) code y1 x1 = 0 := by
  simp [tile_pixel, tile_planes, decode_pix, BIT, rd16, u16, u8]

/-! ## A bank holding a single command -/

theorem exec_dma_single (st : mlanding_state) (i : Nat)
    (honly : only_entry (replay_bank st) i) :
    (exec_dma st).1.m_g_ram
        = (exec_entry (replay_bank st) st.m_cha_ram (i * 4) (start_vars st.m_g_ram)).g_ram
      ∧ (exec_dma st).2
        = (exec_entry (replay_bank st) st.m_cha_ram (i * 4) (start_vars st.m_g_ram)).pixcnt := by
  have h := exec_dma_loop_single (replay_bank st) st.m_cha_ram (c_dma_bank_words / 4) i
    (start_vars st.m_g_ram) honly.1 honly.2
  constructor
  · show (exec_dma_loop _ _ _ _).g_ram = _
    rw [h]
  · show (exec_dma_loop _ _ _ _).pixcnt = _
    rw [h]

/-- Pixel count of a bank holding a single command. -/
theorem exec_dma_single_count (st : mlanding_state) (i : Nat)
    (honly : only_entry (replay_bank st) i)
    (hattr : entry_attr (replay_bank st) (i * 4) ≠ 0) :
    (exec_dma st).2
      = 64 * (entry_sx (replay_bank st) (i * 4) * entry_sy (replay_bank st) (i * 4)) := by
  rw [(exec_dma_single st i honly).2,
    exec_entry_pixcnt _ _ _ (start_vars st.m_g_ram) (by show 0 < 4294967296; omega)]
  unfold entry_pixels
  rw [if_neg hattr, Nat.mul_assoc]
  have h := (entry_tiles_bounds (replay_bank st) (i * 4)).2
  show (0 + _) % 4294967296 = _
  omega

/-- Frame buffer after the replay of a bank holding a single normal draw. -/
theorem exec_dma_single_draw (st : mlanding_state) (i : Nat)
    (honly : only_entry (replay_bank st) i)
    (hattr : entry_attr (replay_bank st) (i * 4) ≠ 0)
    (hmode : entry_attr (replay_bank st) (i * 4) &&& 0x2000 = 0) :
    (exec_dma st).1.m_g_ram
      = draw_spec st.m_cha_ram (entry_attr (replay_bank st) (i * 4))
          (entry_x (replay_bank st) (i * 4)) (entry_y (replay_bank st) (i * 4))
          (entry_sx (replay_bank st) (i * 4)) (entry_sy (replay_bank st) (i * 4))
          (u8 (entry_colour (replay_bank st) (i * 4) <<< 4))
          (entry_code (replay_bank st) (i * 4)) st.m_g_ram := by
  rw [(exec_dma_single st i honly).1, exec_entry_run _ _ _ _ hattr]
  exact (exec_command_draw st.m_cha_ram _ _ _ _ _ _ _ (start_vars st.m_g_ram) hmode
    (entry_code_room _ _).1 (entry_code_room _ _).2).1

/-- Frame buffer after the replay of a bank holding a single fill. -/
theorem exec_dma_single_fill (st : mlanding_state) (i : Nat)
    (honly : only_entry (replay_bank st) i)
    (hmode : entry_attr (replay_bank st) (i * 4) &&& 0x2000 ≠ 0) :
    (exec_dma st).1.m_g_ram
      = fill_spec (entry_attr (replay_bank st) (i * 4))
          (entry_x (replay_bank st) (i * 4)) (entry_y (replay_bank st) (i * 4))
          (entry_sx (replay_bank st) (i * 4)) (entry_sy (replay_bank st) (i * 4))
          (entry_colour (replay_bank st) (i * 4)) st.m_g_ram := by
  have hattr : entry_attr (replay_bank st) (i * 4) ≠ 0 := by
    intro h
    rw [h] at hmode
    exact hmode (by decide)
  rw [(exec_dma_single st i honly).1, exec_entry_run _ _ _ _ hattr]
  exact (exec_command_fill st.m_cha_ram _ _ _ _ _ _ _ (start_vars st.m_g_ram) hmode).1

theorem replay_bank_one_command (w0 w1 w2 w3 : Nat) (cha g : Nat → Nat) :
    replay_bank (one_command_state w0 w1 w2 w3 cha g) = one_command_ram w0 w1 w2 w3 := by
  funext offs
  simp [replay_bank, one_command_state]

theorem only_entry_one_command (w0 w1 w2 w3 : Nat) :
    only_entry (one_command_ram w0 w1 w2 w3) 0 := by
  refine ⟨by decide, fun i2 _ hne => ?_⟩
  have h0 : i2 * 4 ≠ 0 := by omega
  have h1 : i2 * 4 ≠ 1 := by omega
  have h2 : i2 * 4 ≠ 2 := by omega
  have h3 : i2 * 4 ≠ 3 := by omega
  simp [entry_attr, rd16, one_command_ram, h0, h1, h2, h3, u16]

theorem entry_attr_one_command (w0 w1 w2 w3 : Nat) :
    entry_attr (one_command_ram w0 w1 w2 w3) (0 * 4) = u16 w0 := rfl

/-- The frame buffer after the replay of a single normal draw held in entry 0. -/
theorem exec_dma_one_command_draw (w0 w1 w2 w3 : Nat) (cha g : Nat → Nat)
    (hattr : u16 w0 ≠ 0) (hmode : u16 w0 &&& 0x2000 = 0) :
    (exec_dma (one_command_state w0 w1 w2 w3 cha g)).1.m_g_ram
      = draw_spec cha (u16 w0) (u16 (u16 w1 &&& 0x1ff)) (u16 (u16 w2 &&& 0x1ff))
          (u16 (((u16 w1 >>> 11) &&& 0x1f) + 1)) (u16 (((u16 w2 >>> 11) &&& 0x1f) + 1))
          (u8 (u8 (u16 w3 &&& 0xff) <<< 4)) (u16 (u16 w0 &&& 0x1fff)) g := by
  have h := exec_dma_single_draw (one_command_state w0 w1 w2 w3 cha g) 0
  rw [replay_bank_one_command] at h
  exact h (only_entry_one_command w0 w1 w2 w3) hattr hmode

/-! ## C1: the example command of the specification -/

/-- C1 (amended): over an all-zero frame buffer, the replay of a bank whose only
non-zero entry is `{attr, 0x0000, 0x0000, 0x0002}` returns 64 and changes at most
the 64 pixel-plane bytes of the 8x8 block at rows 0..7, columns 0..7. With
`attr = 0x8005` (bit 15 set: the opaque mode of the code) each of the 64 bytes
becomes `0x20 | pixel` of tile 5; with `attr = 0x0005` (bit 15 clear: the
transparency mode of the code) a byte becomes `0x20 | pixel` only where the pixel
of tile 5 is non-zero and stays 0 where it is zero. Every other frame-buffer byte
stays 0, and the pixels of tile 5 are read from source words 80..95 only. -/
theorem C1_example_tile5 (st : mlanding_state) (i attr : Nat)
    (hattr : attr = 0x0005 ∨ attr = 0x8005)
    (honly : only_entry (replay_bank st) i)
    (h0 : rd16 (replay_bank st) (i * 4) = attr)
    (h1 : rd16 (replay_bank st) (i * 4 + 1) = 0x0000)
    (h2 : rd16 (replay_bank st) (i * 4 + 2) = 0x0000)
    (h3 : rd16 (replay_bank st) (i * 4 + 3) = 0x0002)
    (hg : ∀ b, st.m_g_ram b = 0) :
    (exec_dma st).2 = 64
      ∧ (∀ r, r < 8 → ∀ c, c < 8 →
          (exec_dma st).1.m_g_ram ((r * 512 + c) * 2 + 1)
            = if attr = 0x8005 ∨ tile_pixel st.m_cha_ram 5 r c ≠ 0
              then 0x20 ||| tile_pixel st.m_cha_ram 5 r c else 0)
      ∧ (∀ b, (∀ r, r < 8 → ∀ c, c < 8 → b ≠ (r * 512 + c) * 2 + 1) →
          (exec_dma st).1.m_g_ram b = 0)
      ∧ (∀ cha2 : Nat → Nat, (∀ w, 80 ≤ w → w ≤ 95 → rd16 cha2 w = rd16 st.m_cha_ram w) →
          ∀ r, r < 8 → ∀ c, tile_pixel cha2 5 r c = tile_pixel st.m_cha_ram 5 r c) := by
  have ea : entry_attr (replay_bank st) (i * 4) = attr := h0
  have ex : entry_x (replay_bank st) (i * 4) = 0 := by
    unfold entry_x
    rw [h1]
    rfl
  have ey : entry_y (replay_bank st) (i * 4) = 0 := by
    unfold entry_y
    rw [h2]
    rfl
  have esx : entry_sx (replay_bank st) (i * 4) = 1 := by
    unfold entry_sx
    rw [h1]
    rfl
  have esy : entry_sy (replay_bank st) (i * 4) = 1 := by
    unfold entry_sy
    rw [h2]
    rfl
  have ecol : u8 (entry_colour (replay_bank st) (i * 4) <<< 4) = 0x20 := by
    unfold entry_colour
    rw [h3]
    rfl
  have ecode : entry_code (replay_bank st) (i * 4) = 5 := by
    unfold entry_code
    rw [ea]
    rcases hattr with h | h <;> subst h <;> rfl
  have hne : entry_attr (replay_bank st) (i * 4) ≠ 0 := by
    rw [ea]
    rcases hattr with h | h <;> subst h <;> decide
  have hmode : entry_attr (replay_bank st) (i * 4) &&& 0x2000 = 0 := by
    rw [ea]
    rcases hattr with h | h <;> subst h <;> decide
  have hcnt := exec_dma_single_count st i honly hne
  have hdraw := exec_dma_single_draw st i honly hne hmode
  rw [ea, ex, ey, esx, esy, ecol, ecode] at hdraw
  rw [esx, esy] at hcnt
  have hpos : ∀ r c, r < 8 → c < 8 → dest_offset 0 0 0 0 r c + 1 = (r * 512 + c) * 2 + 1 := by
    intro r c hr hc
    unfold dest_offset
    omega
  have hval : ∀ pix, pix < 16 → u8 (0x20 ||| pix) = 0x20 ||| pix := by
    intro pix hpix
    have h1 : (0x20 : Nat) < 2 ^ 8 := by norm_num
    have h2 : pix < 2 ^ 8 := by omega
    exact Nat.mod_eq_of_lt (Nat.or_lt_two_pow h1 h2)
  refine ⟨hcnt, ?_, ?_, ?_⟩
  · intro r hr c hc
    rw [hdraw, ← hpos r c hr hc]
    by_cases heff : attr = 0x8005 ∨ tile_pixel st.m_cha_ram 5 r c ≠ 0
    · rw [if_pos heff]
      have heff2 : attr &&& 0x8000 ≠ 0 ∨ tile_pixel st.m_cha_ram (5 + 0 * 1 + 0) r c ≠ 0 := by
        rcases heff with h | h
        · left
          subst h
          decide
        · right
          exact h
      rw [draw_spec_at st.m_cha_ram attr 0 0 1 1 0x20 5 st.m_g_ram 0 0 r c (by omega) (by omega)
        (by omega) (by omega) hr hc heff2]
      exact hval _ (tile_pixel_lt _ _ _ _)
    · rw [if_neg heff]
      have hnot : attr ≠ 0x8005 := fun h => heff (Or.inl h)
      have hz : tile_pixel st.m_cha_ram (5 + 0 * 1 + 0) r c = 0 := by
        by_contra h
        exact heff (Or.inr h)
      have ht : attr &&& 0x8000 = 0 := by
        rcases hattr with h | h
        · subst h
          decide
        · exact absurd h hnot
      rw [draw_spec_keep st.m_cha_ram attr 0 0 1 1 0x20 5 st.m_g_ram 0 0 r c (by omega)
        (by omega) (by omega) (by omega) hr hc ht hz]
      exact hg _
  · intro b hb
    rw [hdraw, draw_spec_outside st.m_cha_ram attr 0 0 1 1 0x20 5 st.m_g_ram b
      (fun j hj k hk y1 hy1 x1 hx1 => by
        have ej : j = 0 := by omega
        have ek : k = 0 := by omega
        subst ej ek
        rw [hpos y1 x1 hy1 hx1]
        exact hb y1 hy1 x1 hx1)]
    exact hg b
  · intro cha2 hcha r hr c
    unfold tile_pixel
    rw [tile_planes_congr st.m_cha_ram cha2 5 r (hcha _ (by omega) (by omega))
      (hcha _ (by omega) (by omega))]

/-- C1 witness: the example command in entry 0, tile words all `0xffff`. -/
theorem C1_example_tile5_witness :
    (exec_dma (one_command_state 0x0005 0x0000 0x0000 0x0002 (fun _ => 0xffff)
        (fun _ => 0))).2 = 64 :=
  (C1_example_tile5
    (one_command_state 0x0005 0x0000 0x0000 0x0002 (fun _ => 0xffff) (fun _ => 0)) 0 0x0005
    (Or.inl rfl)
    (by
      rw [replay_bank_one_command]
      exact only_entry_one_command _ _ _ _)
    (by
      rw [replay_bank_one_command]
      rfl)
    (by
      rw [replay_bank_one_command]
      rfl)
    (by
      rw [replay_bank_one_command]
      rfl)
    (by
      rw [replay_bank_one_command]
      rfl)
    (fun _ => rfl)).1

/-- C1 counterexample: with the command `{0x0005, 0, 0, 0x0002}` of the claim, a
tile source of zero words and a zero frame buffer, the pixel-plane byte of row 0,
column 0 is still 0 after the replay, whereas `0x20 | pixel` is `0x20`. -/
theorem C1_counterexample :
    (exec_dma (one_command_state 0x0005 0x0000 0x0000 0x0002 (fun _ => 0)
        (fun _ => 0))).1.m_g_ram ((0 * 512 + 0) * 2 + 1) = 0
      ∧ (0x20 ||| tile_pixel (fun _ => 0) 5 0 0) = 0x20 := by
  constructor
  · rw [exec_dma_one_command_draw 0x0005 0 0 2 (fun _ => 0) (fun _ => 0) (by decide)
      (by decide)]
    exact draw_spec_frame _ _ _ _ _ _ _ _ _ _ (fun j _ k _ y1 _ x1 _ t => by
      rw [tile_pixel_zero]
      exact congrFun (put_pixel_zero _ _ _ t (by decide)) _)
  · rw [tile_pixel_zero]
    rfl

/-! ## C2: which value of bit 15 is the transparency mode -/

/-- C2 (amended): for every normal-draw command (`attr` bit `0x2000` clear), when
bit 15 (`0x8000`) of `attr` is clear (the transparency mode of the code) a
destination pixel is stored only if its decoded source pixel is non-zero, a zero
source pixel leaving the destination byte unchanged; when bit 15 is set (the
opaque mode of the code) every destination pixel is stored whatever its source
value. This holds of each step of the pixel loop and of the bytes of the
footprint after the whole command. -/
theorem C2_transparency_polarity (cha_ram : Nat → Nat) (attr code x y sx sy colour : Nat)
    (s : dma_vars) (hmode : attr &&& 0x2000 = 0) (hcode : code < 0x2000)
    (hsx : sx ≤ 32) (hsy : sy ≤ 32) :
    (∀ (p : Nat × Nat × Nat × Nat) (x1 : Nat) (t : dma_vars),
        (attr &&& 0x8000 = 0 → decode_pix p x1 = 0 →
          (draw_pixel attr (u8 (colour <<< 4)) p x1 t).g_ram = t.g_ram)
        ∧ (attr &&& 0x8000 ≠ 0 ∨ decode_pix p x1 ≠ 0 →
          (draw_pixel attr (u8 (colour <<< 4)) p x1 t).g_ram
            = pixdata_put t.g_ram (t.byteaddr &&& gram_mask)
                (u8 (colour <<< 4) ||| decode_pix p x1)))
      ∧ (∀ j, j < sx → ∀ k, k < sy → ∀ y1, y1 < 8 → ∀ x1, x1 < 8 →
        (attr &&& 0x8000 = 0 → tile_pixel cha_ram (code + j * sy + k) y1 x1 = 0 →
          (exec_command cha_ram attr code x y sx sy colour s).g_ram
              (dest_offset x y j k y1 x1 + 1)
            = s.g_ram (dest_offset x y j k y1 x1 + 1))
        ∧ (attr &&& 0x8000 ≠ 0 ∨ tile_pixel cha_ram (code + j * sy + k) y1 x1 ≠ 0 →
          (exec_command cha_ram attr code x y sx sy colour s).g_ram
              (dest_offset x y j k y1 x1 + 1)
            = u8 (colour <<< 4) ||| tile_pixel cha_ram (code + j * sy + k) y1 x1)) := by
  have hroom : code + sx * sy ≤ 65536 := by
    have h := Nat.mul_le_mul hsx hsy
    omega
  have hdraw := (exec_command_draw cha_ram attr code x y sx sy colour s hmode (by omega)
    hroom).1
  refine ⟨fun p x1 t => ⟨fun ht hz => ?_, fun heff => ?_⟩,
    fun j hj k hk y1 hy1 x1 hx1 => ⟨fun ht hz => ?_, fun heff => ?_⟩⟩
  · show put_pixel _ _ _ _ _ = _
    rw [hz]
    exact put_pixel_zero _ _ _ _ ht
  · show put_pixel _ _ _ _ _ = _
    unfold put_pixel
    split
    · rename_i ht
      rcases heff with h | h
      · exact absurd ht h
      · rw [if_pos h]
    · rfl
  · rw [hdraw]
    exact draw_spec_keep cha_ram attr x y sx sy _ code s.g_ram j k y1 x1 hsx hsy hj hk hy1
      hx1 ht hz
  · rw [hdraw, draw_spec_at cha_ram attr x y sx sy _ code s.g_ram j k y1 x1 hsx hsy hj hk
      hy1 hx1 heff]
    exact u8_basepix_or colour _ (tile_pixel_lt _ _ _ _)

/-- C2 witness: a transparent single-tile command at `(0, 0)`, tile words all
`0xffff`, so that every pixel is 15 and is stored. -/
theorem C2_transparency_polarity_witness :
    (exec_command (fun _ => 0xffff) 0x0005 5 0 0 1 1 2 (start_vars (fun _ => 0))).g_ram
        (dest_offset 0 0 0 0 0 0 + 1)
      = u8 (2 <<< 4) ||| tile_pixel (fun _ => 0xffff) (5 + 0 * 1 + 0) 0 0 :=
  ((C2_transparency_polarity (fun _ => 0xffff) 0x0005 5 0 0 1 1 2 (start_vars (fun _ => 0))
    (by decide) (by decide) (by decide) (by decide)).2 0 (by decide) 0 (by decide) 0 (by decide)
    0 (by decide)).2 (Or.inr (by decide))

/-- C2 counterexample: with bit 15 clear (`attr = 0x0005`, the mode the claim
calls opaque) a zero source pixel is not stored, the destination byte keeps
`0xaa`; with bit 15 set (`attr = 0x8005`, the mode the claim calls transparent)
the zero source pixel is stored and the byte becomes `0x20`. -/
theorem C2_counterexample :
    (exec_dma (one_command_state 0x0005 0x0000 0x0000 0x0002 (fun _ => 0)
        (fun _ => 0xaa))).1.m_g_ram 1 = 0xaa
      ∧ (exec_dma (one_command_state 0x8005 0x0000 0x0000 0x0002 (fun _ => 0)
        (fun _ => 0xaa))).1.m_g_ram 1 = 0x20
      ∧ tile_pixel (fun _ => 0) 5 0 0 = 0 := by
  refine ⟨?_, ?_, tile_pixel_zero 5 0 0⟩
  · rw [exec_dma_one_command_draw 0x0005 0 0 2 (fun _ => 0) (fun _ => 0xaa) (by decide)
      (by decide)]
    exact draw_spec_frame _ _ _ _ _ _ _ _ _ _ (fun j _ k _ y1 _ x1 _ t => by
      rw [tile_pixel_zero]
      exact congrFun (put_pixel_zero _ _ _ t (by decide)) _)
  · rw [exec_dma_one_command_draw 0x8005 0 0 2 (fun _ => 0) (fun _ => 0xaa) (by decide)
      (by decide)]
    have h := draw_spec_at (fun _ => 0) (u16 0x8005) (u16 (u16 0 &&& 0x1ff))
      (u16 (u16 0 &&& 0x1ff)) (u16 (((u16 0 >>> 11) &&& 0x1f) + 1))
      (u16 (((u16 0 >>> 11) &&& 0x1f) + 1)) (u8 (u8 (u16 2 &&& 0xff) <<< 4))
      (u16 (u16 0x8005 &&& 0x1fff)) (fun _ => 0xaa) 0 0 0 0 (by decide) (by decide)
      (by decide) (by decide) (by decide) (by decide) (Or.inl (by decide))
    rw [tile_pixel_zero] at h
    exact h

/-! ## C3: the two behaviours bit 15 selects -/

/-- C3: for a bank holding a single normal-draw command (bit `0x2000` of `attr`
clear), any tile source and any initial frame buffer, bit `0x8000` of `attr`
selects between two behaviours of `exec_dma`. When it is set (opaque mode) every
pixel-plane byte of the footprint is overwritten with `basepix | pixel` whatever
the pixel; when it is clear (transparent mode) a footprint byte whose source
pixel is 0 keeps its previous value and one whose source pixel is non-zero is
overwritten. The footprint is made of `64 * sx * sy` distinct bytes, that many
pixels are counted, and no byte outside it changes. -/
theorem C3_opaque_or_transparent (st : mlanding_state) (i attr code x y sx sy colour : Nat)
    (honly : only_entry (replay_bank st) i)
    (hattr : attr = entry_attr (replay_bank st) (i * 4))
    (hcode : code = entry_code (replay_bank st) (i * 4))
    (hx : x = entry_x (replay_bank st) (i * 4))
    (hy : y = entry_y (replay_bank st) (i * 4))
    (hsx : sx = entry_sx (replay_bank st) (i * 4))
    (hsy : sy = entry_sy (replay_bank st) (i * 4))
    (hcolour : colour = entry_colour (replay_bank st) (i * 4))
    (hne : attr ≠ 0) (hmode : attr &&& 0x2000 = 0) :
    (exec_dma st).2 = 64 * (sx * sy)
      ∧ (∀ j, j < sx → ∀ k, k < sy → ∀ y1, y1 < 8 → ∀ x1, x1 < 8 →
        (attr &&& 0x8000 ≠ 0 →
          (exec_dma st).1.m_g_ram (dest_offset x y j k y1 x1 + 1)
            = u8 (colour <<< 4) ||| tile_pixel st.m_cha_ram (code + j * sy + k) y1 x1)
        ∧ (attr &&& 0x8000 = 0 → tile_pixel st.m_cha_ram (code + j * sy + k) y1 x1 = 0 →
          (exec_dma st).1.m_g_ram (dest_offset x y j k y1 x1 + 1)
            = st.m_g_ram (dest_offset x y j k y1 x1 + 1))
        ∧ (attr &&& 0x8000 = 0 → tile_pixel st.m_cha_ram (code + j * sy + k) y1 x1 ≠ 0 →
          (exec_dma st).1.m_g_ram (dest_offset x y j k y1 x1 + 1)
            = u8 (colour <<< 4) ||| tile_pixel st.m_cha_ram (code + j * sy + k) y1 x1))
      ∧ (∀ j, j < sx → ∀ k, k < sy → ∀ y1, y1 < 8 → ∀ x1, x1 < 8 →
        ∀ j2, j2 < sx → ∀ k2, k2 < sy → ∀ y2, y2 < 8 → ∀ x2, x2 < 8 →
        dest_offset x y j k y1 x1 = dest_offset x y j2 k2 y2 x2 →
        j = j2 ∧ k = k2 ∧ y1 = y2 ∧ x1 = x2)
      ∧ (∀ b, (∀ j, j < sx → ∀ k, k < sy → ∀ y1, y1 < 8 → ∀ x1, x1 < 8 →
          b ≠ dest_offset x y j k y1 x1 + 1) →
        (exec_dma st).1.m_g_ram b = st.m_g_ram b) := by
  subst hattr hcode hx hy hsx hsy hcolour
  have hsx := (entry_sx_bounds (replay_bank st) (i * 4)).2
  have hsy := (entry_sy_bounds (replay_bank st) (i * 4)).2
  have hdraw := exec_dma_single_draw st i honly hne hmode
  refine ⟨exec_dma_single_count st i honly hne, ?_, ?_, ?_⟩
  · intro j hj k hk y1 hy1 x1 hx1
    refine ⟨fun hop => ?_, fun ht hz => ?_, fun _ hnz => ?_⟩
    · rw [hdraw, draw_spec_at _ _ _ _ _ _ _ _ _ j k y1 x1 hsx hsy hj hk hy1 hx1 (Or.inl hop)]
      exact u8_basepix_or _ _ (tile_pixel_lt _ _ _ _)
    · rw [hdraw]
      exact draw_spec_keep _ _ _ _ _ _ _ _ _ j k y1 x1 hsx hsy hj hk hy1 hx1 ht hz
    · rw [hdraw, draw_spec_at _ _ _ _ _ _ _ _ _ j k y1 x1 hsx hsy hj hk hy1 hx1 (Or.inr hnz)]
      exact u8_basepix_or _ _ (tile_pixel_lt _ _ _ _)
  · intro j hj k hk y1 hy1 x1 hx1 j2 hj2 k2 hk2 y2 hy2 x2 hx2 heq
    exact dest_offset_inj _ _ j k y1 x1 j2 k2 y2 x2 (by omega) (by omega) hy1 hx1 (by omega)
      (by omega) hy2 hx2 heq
  · intro b hb
    rw [hdraw]
    exact draw_spec_outside _ _ _ _ _ _ _ _ _ b hb

/-- C3 witness: the opaque single-tile command `{0x8005, 0, 0, 2}` over a frame
buffer of `0xaa` bytes. -/
theorem C3_opaque_or_transparent_witness :
    (exec_dma (one_command_state 0x8005 0x0000 0x0000 0x0002 (fun _ => 0)
        (fun _ => 0xaa))).2 = 64 * (1 * 1) :=
  (C3_opaque_or_transparent
    (one_command_state 0x8005 0x0000 0x0000 0x0002 (fun _ => 0) (fun _ => 0xaa))
    0 0x8005 5 0 0 1 1 2
    (by
      rw [replay_bank_one_command]
      exact only_entry_one_command _ _ _ _)
    (by
      rw [replay_bank_one_command]
      rfl)
    (by
      rw [replay_bank_one_command]
      rfl)
    (by
      rw [replay_bank_one_command]
      rfl)
    (by
      rw [replay_bank_one_command]
      rfl)
    (by
      rw [replay_bank_one_command]
      rfl)
    (by
      rw [replay_bank_one_command]
      rfl)
    (by
      rw [replay_bank_one_command]
      rfl)
    (by decide) (by decide)).1

/-! ## C4: the tile indices a normal draw consumes -/

/-- One column of tiles with the tile index made explicit at every tile. -/
theorem draw_column_indices (cha_ram : Nat → Nat) (attr x y sy basepix j c0 : Nat)
    (t0 : dma_vars) (hc : t0.code = c0) (hroom : c0 + sy < 65536) :
    draw_column cha_ram attr x y sy basepix j t0
        = forLoop sy (fun k t =>
            draw_tile cha_ram attr x y basepix j k { t with code := c0 + k }) t0
      ∧ (draw_column cha_ram attr x y sy basepix j t0).code = c0 + sy := by
  unfold draw_column
  refine forLoop_congr_inv (fun k t => t.code = c0 + k) sy _ _ t0 hc (fun k hk t ht => ?_)
  have e : ({ t with code := c0 + k } : dma_vars) = t := by
    rw [← ht]
  constructor
  · show _ = draw_tile cha_ram attr x y basepix j k { t with code := c0 + k }
    rw [e]
  · show (draw_tile cha_ram attr x y basepix j k t).code = c0 + (k + 1)
    have ht2 : t.code = c0 + k := ht
    rw [(draw_tile_eq cha_ram attr x y basepix j k t).2.2, ht2]
    unfold u16
    omega

/-- The tile loops of a normal draw with the tile index made explicit. -/
theorem draw_columns_indices (cha_ram : Nat → Nat) (attr x y sx sy basepix code : Nat)
    (s0 : dma_vars) (hc : s0.code = code) (hroom : code + sx * sy < 65536) :
    forLoop sx (draw_column cha_ram attr x y sy basepix) s0
        = forLoop sx (fun j t => forLoop sy (fun k t =>
            draw_tile cha_ram attr x y basepix j k { t with code := code + j * sy + k }) t) s0
      ∧ (forLoop sx (draw_column cha_ram attr x y sy basepix) s0).code = code + sx * sy := by
  refine forLoop_congr_inv (fun j t => t.code = code + j * sy) sx _ _ s0 (by omega)
    (fun j hj t ht => ?_)
  have h1 : (j + 1) * sy ≤ sx * sy := Nat.mul_le_mul_right sy hj
  have h2 : (j + 1) * sy = j * sy + sy := Nat.succ_mul j sy
  obtain ⟨e, hcode⟩ := draw_column_indices cha_ram attr x y sy basepix j (code + j * sy) t ht
    (by omega)
  constructor
  · exact e
  · show (draw_column cha_ram attr x y sy basepix j t).code = code + (j + 1) * sy
    rw [hcode, h2]
    omega

/-- A tile of index `c` is drawn from the source words `16 * c .. 16 * c + 15`. -/
theorem draw_tile_reads (cha cha2 : Nat → Nat) (attr x y basepix j k c : Nat) (t : dma_vars)
    (h : ∀ w, 16 * c ≤ w → w ≤ 16 * c + 15 → rd16 cha2 w = rd16 cha w) :
    draw_tile cha2 attr x y basepix j k { t with code := c }
      = draw_tile cha attr x y basepix j k { t with code := c } := by
  unfold draw_tile
  have key := forLoop_congr_inv (fun _ (u : dma_vars) => u.code = c) 8
    (draw_row cha2 attr x y basepix j k) (draw_row cha attr x y basepix j k)
    { t with code := c } rfl
    (fun y1 hy1 u hu => by
      constructor
      · unfold draw_row
        rw [hu, tile_planes_congr cha cha2 c y1 (h _ (by omega) (by omega))
          (h _ (by omega) (by omega))]
      · show (draw_row cha2 attr x y basepix j k y1 u).code = c
        rw [(draw_row_eq cha2 attr x y basepix j k y1 u).2.2]
        exact hu)
  rw [key.1]

/-- C4: a normal-draw command with start index `code = attr & 0x1fff` and
`(sx, sy)` in `[1,32] x [1,32]` consumes exactly `sx * sy` consecutive tile
indices `code, code + 1, ...` column-major: the tile drawn at horizontal tile
position `j` and vertical tile position `k` is the tile of index
`code + j * sy + k`, read from source words `16 * index .. 16 * index + 15`, and
`code` has advanced by `sx * sy` at the end of the command. -/
theorem C4_tile_index_sequence (cha_ram : Nat → Nat) (attr code x y sx sy colour : Nat)
    (s : dma_vars) (hmode : attr &&& 0x2000 = 0) (hcode : code = attr &&& 0x1fff)
    (hsx : 1 ≤ sx ∧ sx ≤ 32) (hsy : 1 ≤ sy ∧ sy ≤ 32) :
    exec_command cha_ram attr code x y sx sy colour s
        = forLoop sx (fun j t => forLoop sy (fun k t =>
            draw_tile cha_ram attr x y (u8 (colour <<< 4)) j k
              { t with code := code + j * sy + k }) t) { s with code := code }
      ∧ (exec_command cha_ram attr code x y sx sy colour s).code = code + sx * sy
      ∧ (∀ n, n < sx * sy → n / sy < sx ∧ n % sy < sy ∧ n / sy * sy + n % sy = n)
      ∧ (∀ j k j2 k2, k < sy → k2 < sy → j * sy + k = j2 * sy + k2 → j = j2 ∧ k = k2)
      ∧ (∀ (cha2 : Nat → Nat) (c j k : Nat) (t : dma_vars),
          (∀ w, 16 * c ≤ w → w ≤ 16 * c + 15 → rd16 cha2 w = rd16 cha_ram w) →
          draw_tile cha2 attr x y (u8 (colour <<< 4)) j k { t with code := c }
            = draw_tile cha_ram attr x y (u8 (colour <<< 4)) j k { t with code := c }) := by
  have hc : code < 0x2000 := by
    rw [hcode, show (0x1fff : Nat) = 2 ^ 13 - 1 from rfl, Nat.and_pow_two_sub_one_eq_mod]
    exact Nat.mod_lt _ (by norm_num)
  have hroom : code + sx * sy < 65536 := by
    have h := Nat.mul_le_mul hsx.2 hsy.2
    omega
  have key := draw_columns_indices cha_ram attr x y sx sy (u8 (colour <<< 4)) code
    { s with code := code } rfl hroom
  have hexec : exec_command cha_ram attr code x y sx sy colour s
      = forLoop sx (draw_column cha_ram attr x y sy (u8 (colour <<< 4)))
          { s with code := code } := by
    unfold exec_command
    rw [if_pos hmode]
  refine ⟨?_, ?_, ?_, ?_, ?_⟩
  · rw [hexec]
    exact key.1
  · rw [hexec]
    exact key.2
  · intro n hn
    refine ⟨?_, Nat.mod_lt _ (by omega), Nat.div_add_mod' n sy⟩
    exact (Nat.div_lt_iff_lt_mul (by omega)).mpr hn
  · intro j k j2 k2 hk hk2 heq
    have hj : j = j2 := by
      have e1 : (j * sy + k) / sy = j := by
        rw [Nat.mul_comm, Nat.mul_add_div (by omega), Nat.div_eq_of_lt hk, Nat.add_zero]
      have e2 : (j2 * sy + k2) / sy = j2 := by
        rw [Nat.mul_comm, Nat.mul_add_div (by omega), Nat.div_eq_of_lt hk2, Nat.add_zero]
      rw [heq, e2] at e1
      exact e1.symm
    subst hj
    exact ⟨rfl, by omega⟩
  · intro cha2 c j k t h
    exact draw_tile_reads cha_ram cha2 attr x y _ j k c t h

/-- C4 witness: a 2 x 3 block of tiles starting at tile 5. -/
theorem C4_tile_index_sequence_witness :
    (exec_command (fun w => w) 0x8005 5 0 0 2 3 2 (start_vars (fun _ => 0))).code
      = 5 + 2 * 3 :=
  (C4_tile_index_sequence (fun w => w) 0x8005 5 0 0 2 3 2 (start_vars (fun _ => 0))
    (by decide) (by decide) (by decide) (by decide)).2.1

/-! ## C5: the destination of a pixel -/

/-- C5: in a normal draw at `(x, y)`, pixel column `x1` of row `y1` of the tile at
tile position `(j, k)` is stored at pixel-plane byte offset
`(((y + 8k + y1) * 512 + (8j + x) + x1) * 2) mod 0x80000`, which is the low byte
(big-endian byte `2w + 1`) of the frame-buffer word
`w = ((y + 8k + y1) * 512 + 8j + x + x1) mod 0x40000`. -/
theorem C5_destination_address (cha_ram : Nat → Nat) (attr x y basepix j k y1 : Nat)
    (s : dma_vars) :
    (draw_row cha_ram attr x y basepix j k y1 s).g_ram
        = forLoop 8 (fun x1 g => put_pixel attr basepix (tile_pixel cha_ram s.code y1 x1)
            ((((y + 8 * k + y1) * 512 + (8 * j + x) + x1) * 2) % 0x80000) g) s.g_ram
      ∧ (∀ (x1 v : Nat) (g : Nat → Nat),
          pixdata_put g ((((y + 8 * k + y1) * 512 + (8 * j + x) + x1) * 2) % 0x80000) v
            = Function.update g
                (2 * (((y + 8 * k + y1) * 512 + 8 * j + x + x1) % 0x40000) + 1) (u8 v)) := by
  refine ⟨(draw_row_eq cha_ram attr x y basepix j k y1 s).1, fun x1 v g => ?_⟩
  unfold pixdata_put BYTE_XOR_BE
  have e : 1 + (((y + 8 * k + y1) * 512 + (8 * j + x) + x1) * 2) % 0x80000
      = 2 * (((y + 8 * k + y1) * 512 + 8 * j + x + x1) % 0x40000) + 1 := by
    omega
  rw [e]

/-! ## C6: blits wrap around the frame buffer -/

/-- C6: blits wrap instead of being dropped. For a command at `(x, y)` with
`y < 512`, the pixel of logical row `r >= 512` and logical column `c < 512` of a
normal draw (`r = y + 8k + y1`, `c = x + 8j + x1`) or of a fill (`r = y + y1`,
`c = x + x1`) is stored in frame-buffer word `(r - 512) * 512 + c`, in the low
addresses of the frame buffer; the number of pixels counted does not depend on
the position of the blit. -/
theorem C6_wraparound (cha_ram : Nat → Nat) (attr code x y sx sy colour : Nat)
    (s : dma_vars) (hp : s.pixcnt < 4294967296) (hcode : code < 0x2000) (hy : y < 512)
    (hsx : sx ≤ 32) (hsy : sy ≤ 32) (hcol : colour < 256) :
    (attr &&& 0x2000 = 0 → ∀ j, j < sx → ∀ k, k < sy → ∀ y1, y1 < 8 → ∀ x1, x1 < 8 →
        512 ≤ y + 8 * k + y1 → x + 8 * j + x1 < 512 →
        (attr &&& 0x8000 ≠ 0 ∨ tile_pixel cha_ram (code + j * sy + k) y1 x1 ≠ 0) →
        (exec_command cha_ram attr code x y sx sy colour s).g_ram
            (2 * ((y + 8 * k + y1 - 512) * 512 + (x + 8 * j + x1)) + 1)
          = u8 (colour <<< 4) ||| tile_pixel cha_ram (code + j * sy + k) y1 x1)
      ∧ (attr &&& 0x2000 ≠ 0 → ∀ y1, y1 < sy * 8 → ∀ x1, x1 < sx * 8 →
        512 ≤ y + y1 → x + x1 < 512 →
        (exec_command cha_ram attr code x y sx sy colour s).g_ram
            (2 * ((y + y1 - 512) * 512 + (x + x1)) + (if attr &&& 0x4000 = 0 then 1 else 0))
          = colour)
      ∧ (exec_command cha_ram attr code x y sx sy colour s).pixcnt
          = (s.pixcnt + 64 * (sx * sy)) % 4294967296
      ∧ (∀ (x2 y2 : Nat) (s2 : dma_vars), s2.pixcnt = s.pixcnt →
        (exec_command cha_ram attr code x2 y2 sx sy colour s2).pixcnt
          = (exec_command cha_ram attr code x y sx sy colour s).pixcnt) := by
  have hroom : code + sx * sy ≤ 65536 := by
    have h := Nat.mul_le_mul hsx hsy
    omega
  have hcnt : ∀ (x2 y2 : Nat) (s2 : dma_vars), s2.pixcnt = s.pixcnt →
      (exec_command cha_ram attr code x2 y2 sx sy colour s2).pixcnt
        = (s.pixcnt + 64 * (sx * sy)) % 4294967296 := by
    intro x2 y2 s2 h2
    rw [exec_command_pixcnt cha_ram attr code x2 y2 sx sy colour s2 (by omega) (by omega) hroom,
      h2]
  refine ⟨fun hmode j hj k hk y1 hy1 x1 hx1 hr hc heff => ?_,
    fun hmode y1 hy1 x1 hx1 hr hc => ?_, hcnt x y s rfl, fun x2 y2 s2 h2 => ?_⟩
  · have e : 2 * ((y + 8 * k + y1 - 512) * 512 + (x + 8 * j + x1)) + 1
        = dest_offset x y j k y1 x1 + 1 := by
      unfold dest_offset
      omega
    rw [e, (exec_command_draw cha_ram attr code x y sx sy colour s hmode (by omega) hroom).1,
      draw_spec_at cha_ram attr x y sx sy _ code s.g_ram j k y1 x1 hsx hsy hj hk hy1 hx1 heff]
    exact u8_basepix_or colour _ (tile_pixel_lt _ _ _ _)
  · have e : 2 * ((y + y1 - 512) * 512 + (x + x1))
        = fill_offset x y y1 x1 := by
      unfold fill_offset
      omega
    rw [e, (exec_command_fill cha_ram attr code x y sx sy colour s hmode).1,
      fill_spec_at attr x y sx sy colour s.g_ram y1 x1 hy1 hx1]
    exact Nat.mod_eq_of_lt hcol
  · rw [hcnt x2 y2 s2 h2, hcnt x y s rfl]

/-- C6 witness: a one-tile opaque draw at `y = 508`, whose rows 4..7 are the
logical rows 512..515 and land in rows 0..3 of the frame buffer. -/
theorem C6_wraparound_witness :
    (exec_command (fun _ => 0xffff) 0x8005 5 0 508 1 1 2 (start_vars (fun _ => 0))).g_ram
        (2 * ((508 + 8 * 0 + 4 - 512) * 512 + (0 + 8 * 0 + 0)) + 1)
      = u8 (2 <<< 4) ||| tile_pixel (fun _ => 0xffff) (5 + 0 * 1 + 0) 4 0 :=
  (C6_wraparound (fun _ => 0xffff) 0x8005 5 0 508 1 1 2 (start_vars (fun _ => 0))
    (by decide) (by decide) (by decide) (by decide) (by decide) (by decide)).1
    (by decide) 0 (by decide) 0 (by decide) 4 (by decide) 0 (by decide) (by decide)
    (by decide) (Or.inl (by decide))

/-! ## C7: the fill mode -/

/-- Bit `i` of `a` is clear exactly when `a / 2 ^ i` is even. -/
theorem and_two_pow_eq_zero (a i : Nat) : a &&& 2 ^ i = 0 ↔ a / 2 ^ i % 2 = 0 := by
  rw [Nat.and_two_pow, Nat.testBit_to_div_mod]
  rcases Nat.mod_two_eq_zero_or_one (a / 2 ^ i) with h | h
  · simp [h]
  · simp [h]

/-- The fill mode looks at bits `0x2000` and `0x4000` of `attr` only. -/
theorem fill_bits_congr (attr attr2 : Nat) (h : attr2 / 0x2000 = attr / 0x2000) :
    (attr2 &&& 0x2000 = 0 ↔ attr &&& 0x2000 = 0)
      ∧ (attr2 &&& 0x4000 = 0 ↔ attr &&& 0x4000 = 0) := by
  have e1 := and_two_pow_eq_zero attr 13
  have e2 := and_two_pow_eq_zero attr2 13
  have e3 := and_two_pow_eq_zero attr 14
  have e4 := and_two_pow_eq_zero attr2 14
  norm_num at e1 e2 e3 e4
  constructor
  · rw [e1, e2]
    omega
  · rw [e3, e4]
    omega

/-- C7: for every command with the clear-mode bit (`attr` `0x2000`) set,
`exec_dma` stores the full 8-bit fill byte `colour = word3 & 0xff` at each of the
`(8 * sy) x (8 * sx)` positions, at masked word index
`((y + y1) * 512 + x + x1) mod 0x40000`, in the pixel plane (low byte, offset 1)
when the clear-target flag (`attr` `0x4000`) is clear and in the palette plane
(high byte, offset 0) when it is set; nothing else changes, `64 * sx * sy` pixels
are counted, the tile source is not read and the tile index bits of `attr` have
no effect. -/
theorem C7_fill_mode (dma_ram cha_ram : Nat → Nat) (offs : Nat) (s : dma_vars)
    (attr x y sx sy colour : Nat)
    (hattr : attr = entry_attr dma_ram offs)
    (hx : x = entry_x dma_ram offs) (hy : y = entry_y dma_ram offs)
    (hsx : sx = entry_sx dma_ram offs) (hsy : sy = entry_sy dma_ram offs)
    (hcolour : colour = rd16 dma_ram (offs + 3) &&& 0xff)
    (hmode : attr &&& 0x2000 ≠ 0) :
    (∀ y1, y1 < 8 * sy → ∀ x1, x1 < 8 * sx →
        (exec_entry dma_ram cha_ram offs s).g_ram
            (2 * (((y + y1) * 512 + x + x1) % 0x40000)
              + (if attr &&& 0x4000 = 0 then 1 else 0))
          = colour)
      ∧ (∀ b, (∀ y1, y1 < 8 * sy → ∀ x1, x1 < 8 * sx →
          b ≠ 2 * (((y + y1) * 512 + x + x1) % 0x40000)
            + (if attr &&& 0x4000 = 0 then 1 else 0)) →
        (exec_entry dma_ram cha_ram offs s).g_ram b = s.g_ram b)
      ∧ (s.pixcnt < 4294967296 →
        (exec_entry dma_ram cha_ram offs s).pixcnt
          = (s.pixcnt + 64 * (sx * sy)) % 4294967296)
      ∧ (∀ cha2 : Nat → Nat,
        exec_entry dma_ram cha2 offs s = exec_entry dma_ram cha_ram offs s)
      ∧ (∀ dma2 : Nat → Nat, entry_attr dma2 offs / 0x2000 = attr / 0x2000 →
        (∀ n, 1 ≤ n → n ≤ 3 → rd16 dma2 (offs + n) = rd16 dma_ram (offs + n)) →
        exec_entry dma2 cha_ram offs s = exec_entry dma_ram cha_ram offs s) := by
  have hne : entry_attr dma_ram offs ≠ 0 := by
    intro h
    rw [hattr, h] at hmode
    exact hmode (by decide)
  have hcol : entry_colour dma_ram offs = colour := by
    unfold entry_colour u8
    rw [← hcolour]
    have h : colour < 256 := by
      rw [hcolour, show (0xff : Nat) = 2 ^ 8 - 1 from rfl, Nat.and_pow_two_sub_one_eq_mod]
      exact Nat.mod_lt _ (by norm_num)
    exact Nat.mod_eq_of_lt h
  have hlt : colour < 256 := by
    rw [← hcol]
    exact entry_colour_lt _ _
  have hplain : ∀ cha : Nat → Nat, exec_entry dma_ram cha offs s
      = forLoop (sy * 8) (fill_row attr x y sx colour) s := by
    intro cha
    rw [exec_entry_run _ _ _ _ hne]
    unfold exec_command
    rw [← hattr, if_neg hmode, ← hx, ← hy, ← hsx, ← hsy, hcol]
  have hrun := hplain cha_ram
  obtain ⟨hg, hpc, _⟩ := fill_rows_eq attr x y sx sy colour s
  have haddr : ∀ y1 x1, 2 * (((y + y1) * 512 + x + x1) % 0x40000)
      = fill_offset x y y1 x1 := by
    intro y1 x1
    unfold fill_offset
    omega
  refine ⟨fun y1 hy1 x1 hx1 => ?_, fun b hb => ?_, fun hp => ?_, fun cha2 => ?_,
    fun dma2 hbits hwords => ?_⟩
  · rw [hrun, hg, haddr, fill_spec_at attr x y sx sy colour s.g_ram y1 x1 (by omega)
      (by omega)]
    exact Nat.mod_eq_of_lt hlt
  · rw [hrun, hg]
    exact fill_spec_outside attr x y sx sy colour s.g_ram b (fun y1 hy1 x1 hx1 => by
      rw [← haddr]
      exact hb y1 (by omega) x1 (by omega))
  · rw [hrun]
    exact hpc hp
  · rw [hplain cha2, hrun]
  · obtain ⟨hb1, hb2⟩ := fill_bits_congr attr (entry_attr dma2 offs) hbits
    have hmode2 : entry_attr dma2 offs &&& 0x2000 ≠ 0 := fun h => hmode (hb1.mp h)
    have hne2 : entry_attr dma2 offs ≠ 0 := by
      intro h
      rw [h] at hmode2
      exact hmode2 (by decide)
    have hx2 : entry_x dma2 offs = x := by
      unfold entry_x
      rw [hwords 1 (by omega) (by omega), hx]
      rfl
    have hy2 : entry_y dma2 offs = y := by
      unfold entry_y
      rw [hwords 2 (by omega) (by omega), hy]
      rfl
    have hsx2 : entry_sx dma2 offs = sx := by
      unfold entry_sx
      rw [hwords 1 (by omega) (by omega), hsx]
      rfl
    have hsy2 : entry_sy dma2 offs = sy := by
      unfold entry_sy
      rw [hwords 2 (by omega) (by omega), hsy]
      rfl
    have hcol2 : entry_colour dma2 offs = colour := by
      unfold entry_colour
      rw [hwords 3 (by omega) (by omega), ← hcol]
      rfl
    rw [hrun, exec_entry_run _ _ _ _ hne2]
    unfold exec_command
    rw [if_neg hmode2, hx2, hy2, hsx2, hsy2, hcol2]
    apply forLoop_congr
    intro y1 _ t
    unfold fill_row
    apply forLoop_congr
    intro x1 _ u
    unfold fill_pixel
    by_cases h4 : attr &&& 0x4000 = 0
    · rw [if_pos h4, if_pos (hb2.mpr h4)]
    · rw [if_neg h4, if_neg (fun h => h4 (hb2.mp h))]

/-- C7 witness: the palette-plane fill `{0x6000, 0x0800, 0x0000, 0x01ab}`, two
tiles wide and one tile high at `(0, 0)`, over a zero frame buffer. -/
theorem C7_fill_mode_witness :
    (exec_entry (one_command_ram 0x6000 0x0800 0x0000 0x01ab) (fun _ => 0) 0
        (start_vars (fun _ => 0))).g_ram
        (2 * (((0 + 7) * 512 + 0 + 15) % 0x40000)
          + (if 0x6000 &&& 0x4000 = 0 then 1 else 0))
      = 0xab :=
  (C7_fill_mode (one_command_ram 0x6000 0x0800 0x0000 0x01ab) (fun _ => 0) 0
    (start_vars (fun _ => 0)) 0x6000 0 0 2 1 0xab rfl rfl rfl rfl rfl (by decide)
    (by decide)).1 7 (by decide) 15 (by decide)

/-! ## C8: the returned pixel count -/

theorem exec_dma_count_eq_sum (st : mlanding_state) :
    (exec_dma st).2
      = Finset.sum (Finset.range (c_dma_bank_words / 4))
          (fun i => entry_pixels (replay_bank st) (i * 4)) := by
  show (exec_dma_loop _ _ _ _).pixcnt = _
  rw [exec_dma_loop_pixcnt _ _ _ (start_vars st.m_g_ram) (by show 0 < 4294967296; omega)]
  have h := sum_entry_pixels_le (replay_bank st) (c_dma_bank_words / 4)
  have e : c_dma_bank_words / 4 * 65536 = 134217728 := by decide
  rw [e] at h
  show (0 + _) % 4294967296 = _
  omega

theorem entry_pixels_eq_zero (dma_ram : Nat → Nat) (offs : Nat) :
    entry_pixels dma_ram offs = 0 ↔ entry_attr dma_ram offs = 0 := by
  unfold entry_pixels
  constructor
  · intro h
    by_contra hne
    rw [if_neg hne, Nat.mul_assoc] at h
    have hb := (entry_tiles_bounds dma_ram offs).1
    omega
  · intro h
    rw [if_pos h]

theorem entry_pixels_ge (dma_ram : Nat → Nat) (offs : Nat)
    (h : entry_attr dma_ram offs ≠ 0) : 64 ≤ entry_pixels dma_ram offs := by
  unfold entry_pixels
  rw [if_neg h, Nat.mul_assoc]
  have hb := (entry_tiles_bounds dma_ram offs).1
  omega

/-- C8: for every bank, `exec_dma` returns the sum, over the `0x800` four-word
slots whose `attr` word is non-zero, of `64 * sx * sy` with
`sx = ((word1 >> 11) & 0x1f) + 1` and `sy = ((word2 >> 11) & 0x1f) + 1`, both in
`1..32`. The result depends on the bank through these numbers only (not on the
mode bits, the tile data or the frame buffer), and it is 0 if and only if every
slot has `attr` 0. -/
theorem C8_pixel_count (st : mlanding_state) :
    (exec_dma st).2
        = Finset.sum (Finset.range 0x800) (fun i =>
            if rd16 (replay_bank st) (i * 4) = 0 then 0
            else 64 * (((rd16 (replay_bank st) (i * 4 + 1) >>> 11) &&& 0x1f) + 1)
              * (((rd16 (replay_bank st) (i * 4 + 2) >>> 11) &&& 0x1f) + 1))
      ∧ (∀ w : Nat, 1 ≤ ((w >>> 11) &&& 0x1f) + 1 ∧ ((w >>> 11) &&& 0x1f) + 1 ≤ 32)
      ∧ (∀ st2 : mlanding_state,
          (∀ i, i < 0x800 →
            entry_pixels (replay_bank st2) (i * 4) = entry_pixels (replay_bank st) (i * 4)) →
          (exec_dma st2).2 = (exec_dma st).2)
      ∧ ((exec_dma st).2 = 0 ↔ ∀ i, i < 0x800 → rd16 (replay_bank st) (i * 4) = 0) := by
  have hw : ∀ w : Nat, ((w >>> 11) &&& 0x1f) + 1 ≤ 32 := by
    intro w
    rw [show (0x1f : Nat) = 2 ^ 5 - 1 from rfl, Nat.and_pow_two_sub_one_eq_mod]
    omega
  have hn : c_dma_bank_words / 4 = 0x800 := by decide
  refine ⟨?_, fun w => ⟨by omega, hw w⟩, fun st2 h => ?_, ?_⟩
  · rw [exec_dma_count_eq_sum, hn]
    apply Finset.sum_congr rfl
    intro i _
    unfold entry_pixels entry_attr entry_sx entry_sy u16
    have h1 := hw (rd16 (replay_bank st) (i * 4 + 1))
    have h2 := hw (rd16 (replay_bank st) (i * 4 + 2))
    rw [Nat.mod_eq_of_lt (by omega), Nat.mod_eq_of_lt (by omega)]
  · rw [exec_dma_count_eq_sum, exec_dma_count_eq_sum, hn]
    exact Finset.sum_congr rfl (fun i hi => h i (Finset.mem_range.mp hi))
  · rw [exec_dma_count_eq_sum, hn, Finset.sum_eq_zero_iff]
    constructor
    · intro h i hi
      exact (entry_pixels_eq_zero _ _).mp (h i (Finset.mem_range.mpr hi))
    · intro h i hi
      exact (entry_pixels_eq_zero _ _).mpr (h i (Finset.mem_range.mp hi))

/-! ## C9: every slot is scanned -/

/-- C9: `exec_dma` scans all `0x800` slots of the replayed bank with no early
termination. A slot whose `attr` word is 0 is skipped whatever its other words
hold; a command in slot `i` preceded only by slots with `attr` 0 is executed on
the untouched initial state, and the pixels of a non-zero command are counted
wherever it sits; a bank in which slot `i` is the only non-zero one replays to
that command alone; an all-zero bank returns 0 and leaves the frame buffer
unchanged. -/
theorem C9_full_scan (st : mlanding_state) :
    c_dma_bank_words / 4 = 0x800
      ∧ (∀ (dma_ram cha_ram : Nat → Nat) (offs : Nat) (s : dma_vars),
          rd16 dma_ram offs = 0 → exec_entry dma_ram cha_ram offs s = s)
      ∧ (∀ i, i < 0x800 → (∀ i2, i2 < i → rd16 (replay_bank st) (i2 * 4) = 0) →
          exec_dma_loop (replay_bank st) st.m_cha_ram (i + 1) (start_vars st.m_g_ram)
            = exec_entry (replay_bank st) st.m_cha_ram (i * 4) (start_vars st.m_g_ram))
      ∧ (∀ i, i < 0x800 → rd16 (replay_bank st) (i * 4) ≠ 0 → 64 ≤ (exec_dma st).2)
      ∧ (∀ i, only_entry (replay_bank st) i → rd16 (replay_bank st) (i * 4) ≠ 0 →
          (exec_dma st).1.m_g_ram
              = (exec_command st.m_cha_ram (entry_attr (replay_bank st) (i * 4))
                  (entry_code (replay_bank st) (i * 4)) (entry_x (replay_bank st) (i * 4))
                  (entry_y (replay_bank st) (i * 4)) (entry_sx (replay_bank st) (i * 4))
                  (entry_sy (replay_bank st) (i * 4)) (entry_colour (replay_bank st) (i * 4))
                  (start_vars st.m_g_ram)).g_ram
            ∧ (exec_dma st).2
              = 64 * (entry_sx (replay_bank st) (i * 4) * entry_sy (replay_bank st) (i * 4)))
      ∧ ((∀ i, i < 0x800 → rd16 (replay_bank st) (i * 4) = 0) →
          (exec_dma st).2 = 0 ∧ (exec_dma st).1.m_g_ram = st.m_g_ram) := by
  have hn : c_dma_bank_words / 4 = 0x800 := by decide
  refine ⟨hn, fun dma_ram cha_ram offs s h => exec_entry_skip dma_ram cha_ram offs s h,
    fun i _ hz => ?_, fun i hi hne => ?_, fun i honly hne => ?_, fun hz => ?_⟩
  · exact exec_dma_loop_single (replay_bank st) st.m_cha_ram (i + 1) i (start_vars st.m_g_ram)
      (Nat.lt_succ_self i) (fun i2 h2 hne => hz i2 (by omega))
  · rw [exec_dma_count_eq_sum, hn]
    have h1 := entry_pixels_ge (replay_bank st) (i * 4) hne
    have h2 := Finset.single_le_sum
      (f := fun i => entry_pixels (replay_bank st) (i * 4))
      (fun j _ => Nat.zero_le _) (Finset.mem_range.mpr hi)
    exact Nat.le_trans h1 h2
  · refine ⟨?_, exec_dma_single_count st i honly hne⟩
    rw [(exec_dma_single st i honly).1, exec_entry_run _ _ _ _ hne]
  · have h := exec_dma_loop_zero (replay_bank st) st.m_cha_ram (c_dma_bank_words / 4)
      (start_vars st.m_g_ram) (fun i hi => hz i (by omega))
    constructor
    · show (exec_dma_loop _ _ _ _).pixcnt = 0
      rw [h]
      rfl
    · show (exec_dma_loop _ _ _ _).g_ram = _
      rw [h]
      rfl

/-! ## C10: the replay does not read the CPU bank -/

theorem xor_one_ne (n : Nat) : n ^^^ 1 ≠ n := by
  intro h
  have h2 : (n ^^^ 1) ^^^ n = n ^^^ n := by rw [h]
  rw [Nat.xor_comm n 1, Nat.xor_assoc, Nat.xor_self, Nat.xor_zero] at h2
  exact absurd h2 (by decide)

/-- An entry is decoded from its own four words. -/
theorem exec_entry_congr (d1 d2 cha_ram : Nat → Nat) (offs : Nat) (s : dma_vars)
    (h : ∀ n, n < 4 → d1 (offs + n) = d2 (offs + n)) :
    exec_entry d1 cha_ram offs s = exec_entry d2 cha_ram offs s := by
  have h0 : d1 offs = d2 offs := h 0 (by omega)
  have h1 := h 1 (by omega)
  have h2 := h 2 (by omega)
  have h3 := h 3 (by omega)
  unfold exec_entry entry_attr entry_code entry_x entry_y entry_sx entry_sy entry_colour
    entry_attr rd16
  rw [h0, h1, h2, h3]

/-- The scan of `n` entries reads the first `4 * n` words of the bank only. -/
theorem exec_dma_loop_congr (d1 d2 cha_ram : Nat → Nat) (n : Nat) (s : dma_vars)
    (h : ∀ offs, offs < 4 * n → d1 offs = d2 offs) :
    exec_dma_loop d1 cha_ram n s = exec_dma_loop d2 cha_ram n s := by
  unfold exec_dma_loop
  apply forLoop_congr
  intro i hi t
  exact exec_entry_congr d1 d2 cha_ram (i * 4) t (fun k hk => h _ (by omega))

/-- C10: bank double-buffering as non-interference. Two machine states that
differ only in the contents of the DMA bank that is CPU-active after the swap
(the `0x2000` words of bank `m_dma_cpu_bank ^ 1`) give, under `dma_start_w`, the
same frame buffer, the same pixel count, the same busy flag and the same timer
requests; the replay reads only words of the other bank. -/
theorem C10_bank_noninterference (st : mlanding_state) (ram2 : Nat → Nat)
    (hram : ∀ w,
      (w < u8 (st.m_dma_cpu_bank ^^^ 1) * c_dma_bank_words
        ∨ u8 (st.m_dma_cpu_bank ^^^ 1) * c_dma_bank_words + c_dma_bank_words ≤ w) →
      ram2 w = st.m_dma_ram w) :
    (dma_start_w { st with m_dma_ram := ram2 }).m_g_ram = (dma_start_w st).m_g_ram
      ∧ (exec_dma (dma_bank_swap { st with m_dma_ram := ram2 })).2
        = (exec_dma (dma_bank_swap st)).2
      ∧ (dma_start_w { st with m_dma_ram := ram2 }).m_dma_busy = (dma_start_w st).m_dma_busy
      ∧ (dma_start_w { st with m_dma_ram := ram2 }).timer_requests
        = (dma_start_w st).timer_requests
      ∧ (dma_start_w { st with m_dma_ram := ram2 }).m_dma_cpu_bank
        = (dma_start_w st).m_dma_cpu_bank
      ∧ (∀ offs, offs < c_dma_bank_words →
          ¬ (u8 (st.m_dma_cpu_bank ^^^ 1) * c_dma_bank_words
              ≤ (u8 (st.m_dma_cpu_bank ^^^ 1) ^^^ 1) * c_dma_bank_words + offs
            ∧ (u8 (st.m_dma_cpu_bank ^^^ 1) ^^^ 1) * c_dma_bank_words + offs
              < u8 (st.m_dma_cpu_bank ^^^ 1) * c_dma_bank_words + c_dma_bank_words)) := by
  have hw : c_dma_bank_words = 8192 := rfl
  have hdisj : ∀ offs, offs < c_dma_bank_words →
      ((u8 (st.m_dma_cpu_bank ^^^ 1) ^^^ 1) * c_dma_bank_words + offs
          < u8 (st.m_dma_cpu_bank ^^^ 1) * c_dma_bank_words
        ∨ u8 (st.m_dma_cpu_bank ^^^ 1) * c_dma_bank_words + c_dma_bank_words
          ≤ (u8 (st.m_dma_cpu_bank ^^^ 1) ^^^ 1) * c_dma_bank_words + offs) := by
    intro offs hoffs
    have hne := xor_one_ne (u8 (st.m_dma_cpu_bank ^^^ 1))
    rw [hw] at hoffs ⊢
    omega
  have hloop : exec_dma_loop (replay_bank (dma_bank_swap { st with m_dma_ram := ram2 }))
        st.m_cha_ram (c_dma_bank_words / 4) (start_vars st.m_g_ram)
      = exec_dma_loop (replay_bank (dma_bank_swap st)) st.m_cha_ram (c_dma_bank_words / 4)
          (start_vars st.m_g_ram) := by
    apply exec_dma_loop_congr
    intro offs hoffs
    have hlt : offs < c_dma_bank_words := by
      rw [hw] at hoffs ⊢
      omega
    exact hram _ (hdisj offs hlt)
  have hcount : (exec_dma (dma_bank_swap { st with m_dma_ram := ram2 })).2
      = (exec_dma (dma_bank_swap st)).2 := by
    show (exec_dma_loop _ _ _ _).pixcnt = (exec_dma_loop _ _ _ _).pixcnt
    exact congrArg dma_vars.pixcnt hloop
  have hgram : (exec_dma (dma_bank_swap { st with m_dma_ram := ram2 })).1.m_g_ram
      = (exec_dma (dma_bank_swap st)).1.m_g_ram := by
    show (exec_dma_loop _ _ _ _).g_ram = (exec_dma_loop _ _ _ _).g_ram
    exact congrArg dma_vars.g_ram hloop
  refine ⟨?_, hcount, ?_, ?_, ?_, fun offs hoffs hin => ?_⟩
  · unfold dma_start_w
    simp only [hcount]
    split
    · exact hgram
    · exact hgram
  · unfold dma_start_w
    simp only [hcount]
    split <;> rfl
  · unfold dma_start_w
    simp only [hcount]
    split <;> rfl
  · unfold dma_start_w
    simp only [hcount]
    split <;> rfl
  · rcases hdisj offs hoffs with h | h <;> omega

/-- C10 witness: bank 0 holds the command `{0x8005, 0, 0, 2}` and is the bank
replayed (the CPU bank is 0 before the trigger, 1 after it); the second state
has every word of bank 1 replaced by `0xffff`. -/
theorem C10_bank_noninterference_witness :
    (dma_start_w { (one_command_state 0x8005 0 0 2 (fun _ => 0xffff) (fun _ => 0)) with
        m_dma_cpu_bank := 0
        m_dma_ram := fun w => if 0x2000 ≤ w ∧ w < 0x4000 then 0xffff
          else one_command_ram 0x8005 0 0 2 w }).m_dma_busy
      = (dma_start_w { (one_command_state 0x8005 0 0 2 (fun _ => 0xffff) (fun _ => 0)) with
        m_dma_cpu_bank := 0 }).m_dma_busy :=
  (C10_bank_noninterference
    { (one_command_state 0x8005 0 0 2 (fun _ => 0xffff) (fun _ => 0)) with m_dma_cpu_bank := 0 }
    (fun w => if 0x2000 ≤ w ∧ w < 0x4000 then 0xffff else one_command_ram 0x8005 0 0 2 w)
    (fun w hw => by
      have e : u8 (0 ^^^ 1) * c_dma_bank_words = 0x2000 := by decide
      have e2 : u8 (0 ^^^ 1) * c_dma_bank_words + c_dma_bank_words = 0x4000 := by decide
      have hout : ¬ (0x2000 ≤ w ∧ w < 0x4000) := by
        rcases hw with h | h
        · have h2 : w < 0x2000 := Nat.lt_of_lt_of_eq h e
          omega
        · have h2 : 0x4000 ≤ w := Nat.le_trans (Nat.le_of_eq e2.symm) h
          omega
      show (if 0x2000 ≤ w ∧ w < 0x4000 then 0xffff else one_command_ram 0x8005 0 0 2 w)
        = one_command_ram 0x8005 0 0 2 w
      rw [if_neg hout])).2.2.1

/-! ## The trigger, the stop and the completion timer -/

theorem dma_start_w_bank (st : mlanding_state) :
    (dma_start_w st).m_dma_cpu_bank = u8 (st.m_dma_cpu_bank ^^^ 1) := by
  unfold dma_start_w
  simp only
  split <;> rfl

theorem dma_start_w_entry (st : mlanding_state) :
    (dma_start_w st).dma_bank_entry = u8 (st.m_dma_cpu_bank ^^^ 1) := by
  unfold dma_start_w
  simp only
  split <;> rfl

theorem dma_start_w_ram (st : mlanding_state) :
    (dma_start_w st).m_dma_ram = st.m_dma_ram := by
  unfold dma_start_w
  simp only
  split <;> rfl

theorem dma_start_w_g_ram (st : mlanding_state) :
    (dma_start_w st).m_g_ram = (exec_dma (dma_bank_swap st)).1.m_g_ram := by
  unfold dma_start_w
  simp only
  split <;> rfl

/-- After a replay that counted pixels: busy, and one more timer request. -/
theorem dma_start_w_counted (st : mlanding_state)
    (h : (exec_dma (dma_bank_swap st)).2 ≠ 0) :
    (dma_start_w st).m_dma_busy = 1
      ∧ (dma_start_w st).timer_requests
        = st.timer_requests
          ++ [⟨periods_of_hz 16000000 (exec_dma (dma_bank_swap st)).2, TIMER_DMA_COMPLETE⟩] := by
  unfold dma_start_w
  simp only
  rw [if_pos h]
  exact ⟨rfl, rfl⟩

/-- After a replay that counted no pixel: busy and the timer requests are as
before the trigger. -/
theorem dma_start_w_empty (st : mlanding_state)
    (h : (exec_dma (dma_bank_swap st)).2 = 0) :
    (dma_start_w st).m_dma_busy = st.m_dma_busy
      ∧ (dma_start_w st).timer_requests = st.timer_requests := by
  unfold dma_start_w
  simp only
  rw [if_neg (fun hne => hne h)]
  exact ⟨rfl, rfl⟩

theorem xor_one_of_le_one (b : Nat) (h : b ≤ 1) :
    b ^^^ 1 = 1 - b ∧ u8 (b ^^^ 1) = 1 - b ∧ u8 (b ^^^ 1) ^^^ 1 = b := by
  have hb : b = 0 ∨ b = 1 := by omega
  rcases hb with hb | hb <;> subst hb <;> decide

/-- The replay of a trigger reads the bank that was the CPU bank before it. -/
theorem replay_bank_swap (st : mlanding_state) (hold : st.m_dma_cpu_bank ≤ 1) (offs : Nat) :
    replay_bank (dma_bank_swap st) offs
      = st.m_dma_ram (st.m_dma_cpu_bank * 0x2000 + offs) := by
  show st.m_dma_ram ((u8 (st.m_dma_cpu_bank ^^^ 1) ^^^ 1) * c_dma_bank_words + offs) = _
  rw [(xor_one_of_le_one _ hold).2.2]
  rfl

/-- The count returned by the replay of a trigger depends on the replayed window
of DMA RAM only, and so does the frame buffer. -/
theorem exec_dma_swap_congr (st : mlanding_state) (ram2 : Nat → Nat)
    (hold : st.m_dma_cpu_bank ≤ 1)
    (h : ∀ w, st.m_dma_cpu_bank * 0x2000 ≤ w → w < st.m_dma_cpu_bank * 0x2000 + 0x2000 →
      ram2 w = st.m_dma_ram w) :
    (exec_dma (dma_bank_swap { st with m_dma_ram := ram2 })).2
        = (exec_dma (dma_bank_swap st)).2
      ∧ (exec_dma (dma_bank_swap { st with m_dma_ram := ram2 })).1.m_g_ram
        = (exec_dma (dma_bank_swap st)).1.m_g_ram := by
  have hloop : exec_dma_loop (replay_bank (dma_bank_swap { st with m_dma_ram := ram2 }))
        st.m_cha_ram (c_dma_bank_words / 4) (start_vars st.m_g_ram)
      = exec_dma_loop (replay_bank (dma_bank_swap st)) st.m_cha_ram (c_dma_bank_words / 4)
          (start_vars st.m_g_ram) := by
    apply exec_dma_loop_congr
    intro offs hoffs
    have hw : c_dma_bank_words = 8192 := rfl
    rw [hw] at hoffs
    rw [replay_bank_swap { st with m_dma_ram := ram2 } hold offs, replay_bank_swap st hold offs]
    show ram2 (st.m_dma_cpu_bank * 0x2000 + offs) = st.m_dma_ram (st.m_dma_cpu_bank * 0x2000 + offs)
    exact h _ (by omega) (by omega)
  constructor
  · show (exec_dma_loop _ _ _ _).pixcnt = (exec_dma_loop _ _ _ _).pixcnt
    exact congrArg dma_vars.pixcnt hloop
  · show (exec_dma_loop _ _ _ _).g_ram = (exec_dma_loop _ _ _ _).g_ram
    exact congrArg dma_vars.g_ram hloop

/-- From CPU bank 0 the trigger replays bank 0. -/
theorem replay_bank_after_reset (w0 w1 w2 w3 : Nat) (cha g : Nat → Nat) :
    replay_bank (dma_bank_swap (machine_reset_dma (one_command_state w0 w1 w2 w3 cha g)))
      = one_command_ram w0 w1 w2 w3 := by
  funext offs
  rw [replay_bank_swap _ (by show 0 ≤ 1; omega)]
  show one_command_ram w0 w1 w2 w3 (0 * 0x2000 + offs) = _
  rw [Nat.zero_mul, Nat.zero_add]

/-- Pixel count of the trigger, from CPU bank 0, on a bank holding one command. -/
theorem exec_dma_after_reset_count (w0 w1 w2 w3 : Nat) (cha g : Nat → Nat)
    (hattr : u16 w0 ≠ 0) :
    (exec_dma (dma_bank_swap (machine_reset_dma (one_command_state w0 w1 w2 w3 cha g)))).2
      = 64 * (u16 (((u16 w1 >>> 11) &&& 0x1f) + 1) * u16 (((u16 w2 >>> 11) &&& 0x1f) + 1)) := by
  have h := exec_dma_single_count
    (dma_bank_swap (machine_reset_dma (one_command_state w0 w1 w2 w3 cha g))) 0
  rw [replay_bank_after_reset] at h
  exact h (only_entry_one_command w0 w1 w2 w3) hattr

/-! ## C11: the trigger flips the bank and replays the previous one -/

/-- C11: `dma_start_w` flips the active bank, `m_dma_cpu_bank` becoming
`old xor 1` and staying in `{0, 1}`, selects it on the bank device, and replays
the previous bank: `exec_dma` reads its commands from the words
`[old * 0x2000, old * 0x2000 + 0x2000)` of DMA RAM only, which are the words the
bank device exposed as entry `old`, the CPU-writable bank before the trigger. -/
theorem C11_swap_replays_previous (st : mlanding_state) (hold : st.m_dma_cpu_bank ≤ 1)
    (hentry : st.dma_bank_entry = st.m_dma_cpu_bank) :
    (dma_start_w st).m_dma_cpu_bank = st.m_dma_cpu_bank ^^^ 1
      ∧ (dma_start_w st).m_dma_cpu_bank ≤ 1
      ∧ (dma_start_w st).dma_bank_entry = (dma_start_w st).m_dma_cpu_bank
      ∧ (dma_start_w st).m_dma_ram = st.m_dma_ram
      ∧ (∀ offs, replay_bank (dma_bank_swap st) offs
          = st.m_dma_ram (st.m_dma_cpu_bank * 0x2000 + offs))
      ∧ (∀ offs, bank_entry_word st.dma_bank_entry offs = st.m_dma_cpu_bank * 0x2000 + offs)
      ∧ (∀ ram2 : Nat → Nat,
          (∀ w, st.m_dma_cpu_bank * 0x2000 ≤ w → w < st.m_dma_cpu_bank * 0x2000 + 0x2000 →
            ram2 w = st.m_dma_ram w) →
          (exec_dma (dma_bank_swap { st with m_dma_ram := ram2 })).2
              = (exec_dma (dma_bank_swap st)).2
            ∧ (dma_start_w { st with m_dma_ram := ram2 }).m_g_ram = (dma_start_w st).m_g_ram) := by
  obtain ⟨x1, x2, _⟩ := xor_one_of_le_one st.m_dma_cpu_bank hold
  refine ⟨?_, ?_, ?_, dma_start_w_ram st, fun offs => replay_bank_swap st hold offs,
    fun offs => ?_, fun ram2 h => ?_⟩
  · rw [dma_start_w_bank, x2, x1]
  · rw [dma_start_w_bank, x2]
    omega
  · rw [dma_start_w_entry, dma_start_w_bank]
  · rw [hentry]
    unfold bank_entry_word
    have hw : c_dma_bank_words = 8192 := rfl
    rw [hw]
    omega
  · obtain ⟨h1, h2⟩ := exec_dma_swap_congr st ram2 hold h
    refine ⟨h1, ?_⟩
    rw [dma_start_w_g_ram, dma_start_w_g_ram]
    exact h2

/-- C11 witness: the state after reset-like conditions (CPU bank 0, entry 0
selected), bank 0 holding the command `{0x8005, 0, 0, 2}`. -/
theorem C11_swap_replays_previous_witness :
    (dma_start_w (machine_reset_dma
        (one_command_state 0x8005 0 0 2 (fun _ => 0) (fun _ => 0)))).m_dma_cpu_bank
      = 0 ^^^ 1 :=
  (C11_swap_replays_previous
    (machine_reset_dma (one_command_state 0x8005 0 0 2 (fun _ => 0) (fun _ => 0)))
    (by decide) rfl).1

/-! ## C12: busy flag and completion timer of a non-empty replay -/

/-- C12: when the replay invoked by `dma_start_w` returns a pixel count `p > 0`,
`dma_start_w` sets busy to 1 and issues exactly one timer request, with
identifier `TIMER_DMA_COMPLETE` and a duration of `p` periods of a 16 MHz clock,
that is `62500000000 * p` attoseconds, exactly `p / 16000000` seconds; the
delivery of that event (`device_timer` with `TIMER_DMA_COMPLETE`) sets busy to 0
and changes nothing else. -/
theorem C12_busy_and_completion (st : mlanding_state) (p : Nat)
    (hp : (exec_dma (dma_bank_swap st)).2 = p) (hpos : 0 < p) :
    (dma_start_w st).m_dma_busy = 1
      ∧ (dma_start_w st).timer_requests
        = st.timer_requests ++ [⟨some (62500000000 * p), TIMER_DMA_COMPLETE⟩]
      ∧ 62500000000 * p * 16000000 = p * 1000000000000000000
      ∧ device_timer TIMER_DMA_COMPLETE (dma_start_w st)
        = some { dma_start_w st with m_dma_busy := 0 }
      ∧ (∀ id, id ≠ TIMER_DMA_COMPLETE → device_timer id (dma_start_w st) = none) := by
  have hne : (exec_dma (dma_bank_swap st)).2 ≠ 0 := by omega
  obtain ⟨h1, h2⟩ := dma_start_w_counted st hne
  refine ⟨h1, ?_, by omega, ?_, fun id hid => ?_⟩
  · rw [h2, hp]
    rfl
  · unfold device_timer
    rw [if_pos rfl]
  · unfold device_timer
    rw [if_neg hid]

/-- C12 witness: the one-tile command `{0x8005, 0, 0, 2}` held by bank 0, the CPU
bank being 0 before the trigger: 64 pixels, 4 microseconds. -/
theorem C12_busy_and_completion_witness :
    (dma_start_w (machine_reset_dma
        (one_command_state 0x8005 0 0 2 (fun _ => 0) (fun _ => 0)))).timer_requests
      = [] ++ [⟨some (62500000000 * 64), TIMER_DMA_COMPLETE⟩] :=
  (C12_busy_and_completion
    (machine_reset_dma (one_command_state 0x8005 0 0 2 (fun _ => 0) (fun _ => 0))) 64
    (exec_dma_after_reset_count 0x8005 0 0 2 (fun _ => 0) (fun _ => 0) (by decide))
    (by decide)).2.1

/-! ## C13: a replay that counts no pixel -/

/-- The replay of a bank whose entries all have `attr == 0`. -/
theorem exec_dma_zero_bank (st : mlanding_state)
    (hz : ∀ i, i < c_dma_bank_words / 4 → entry_attr (replay_bank st) (i * 4) = 0) :
    (exec_dma st).2 = 0 ∧ (exec_dma st).1.m_g_ram = st.m_g_ram := by
  have h := exec_dma_loop_zero (replay_bank st) st.m_cha_ram (c_dma_bank_words / 4)
    (start_vars st.m_g_ram) hz
  constructor
  · show (exec_dma_loop _ _ _ _).pixcnt = 0
    rw [h]
    rfl
  · show (exec_dma_loop _ _ _ _).g_ram = _
    rw [h]
    rfl

/-- The replay counts no pixel exactly when every entry has `attr == 0`. -/
theorem exec_dma_count_zero_iff (st : mlanding_state) :
    (exec_dma st).2 = 0
      ↔ ∀ i, i < c_dma_bank_words / 4 → entry_attr (replay_bank st) (i * 4) = 0 := by
  rw [exec_dma_count_eq_sum, Finset.sum_eq_zero_iff]
  constructor
  · intro h i hi
    exact (entry_pixels_eq_zero _ _).mp (h i (Finset.mem_range.mpr hi))
  · intro h i hi
    exact (entry_pixels_eq_zero _ _).mpr (h i (Finset.mem_range.mp hi))

theorem one_command_ram_zero (w : Nat) : one_command_ram 0 0 0 0 w = 0 := by
  unfold one_command_ram
  split
  · rfl
  · split
    · rfl
    · split
      · rfl
      · split <;> rfl

/-- C13 (amended): when the replay invoked by `dma_start_w` returns a pixel count
of 0, which happens exactly when every slot of the replayed bank has `attr` 0,
the busy flag keeps the value it had before the trigger (it stays false if it
was false and is not cleared if it was set), no timer request is made and the
frame buffer is unchanged. -/
theorem C13_empty_replay (st : mlanding_state)
    (hp : (exec_dma (dma_bank_swap st)).2 = 0) :
    (∀ i, i < 0x800 → rd16 (replay_bank (dma_bank_swap st)) (i * 4) = 0)
      ∧ (dma_start_w st).m_dma_busy = st.m_dma_busy
      ∧ (st.m_dma_busy = 0 → (dma_start_w st).m_dma_busy = 0)
      ∧ (dma_start_w st).timer_requests = st.timer_requests
      ∧ (dma_start_w st).m_g_ram = st.m_g_ram := by
  have hz := (exec_dma_count_zero_iff (dma_bank_swap st)).mp hp
  obtain ⟨h1, h2⟩ := dma_start_w_empty st hp
  refine ⟨fun i hi => hz i hi, h1, fun h0 => by rw [h1, h0], h2, ?_⟩
  rw [dma_start_w_g_ram]
  exact (exec_dma_zero_bank (dma_bank_swap st) hz).2

/-- C13 witness: an all-zero DMA RAM, busy clear before the trigger. -/
theorem C13_empty_replay_witness :
    (dma_start_w (machine_reset_dma
        (one_command_state 0 0 0 0 (fun _ => 0) (fun _ => 0)))).m_dma_busy
      = (machine_reset_dma (one_command_state 0 0 0 0 (fun _ => 0) (fun _ => 0))).m_dma_busy :=
  (C13_empty_replay (machine_reset_dma (one_command_state 0 0 0 0 (fun _ => 0) (fun _ => 0)))
    ((exec_dma_count_zero_iff _).mpr (fun i _ => by
      rw [replay_bank_after_reset]
      show u16 (one_command_ram 0 0 0 0 (i * 4)) = 0
      rw [one_command_ram_zero]
      rfl))).2.1

/-- C13 counterexample: DMA RAM is all zero, so the replay returns 0, and the
busy flag is 1 before the trigger (an earlier blit is still in progress): the
busy flag is still 1 after `dma_start_w`, not false. -/
theorem C13_counterexample :
    (exec_dma (dma_bank_swap
        { machine_reset_dma (one_command_state 0 0 0 0 (fun _ => 0) (fun _ => 0)) with
          m_dma_busy := 1 })).2 = 0
      ∧ (dma_start_w
        { machine_reset_dma (one_command_state 0 0 0 0 (fun _ => 0) (fun _ => 0)) with
          m_dma_busy := 1 }).m_dma_busy = 1 := by
  have hp : (exec_dma (dma_bank_swap
      { machine_reset_dma (one_command_state 0 0 0 0 (fun _ => 0) (fun _ => 0)) with
        m_dma_busy := 1 })).2 = 0 := by
    refine (exec_dma_count_zero_iff _).mpr (fun i _ => ?_)
    show u16 (one_command_ram 0 0 0 0 (_ + i * 4)) = 0
    rw [one_command_ram_zero]
    rfl
  exact ⟨hp, (dma_start_w_empty _ hp).1⟩

/-! ## C14: the stop register -/

theorem pending_event_concat (l : List timer_request) (r : timer_request) :
    pending_event (l ++ [r])
      = match r.duration with
        | some _ => some r
        | none => none := by
  unfold pending_event
  rw [List.getLast?_concat]

/-- C14: `dma_stop_w` forces busy to 0 and requests `timer_set(attotime::never)`;
with the single timer handle the specification gives the engine, no completion
event is pending after a stop, whatever an earlier `dma_start_w` scheduled, and
after a later trigger the only pending event is that trigger's own. The stop
changes nothing else: active bank, selected bank entry, DMA RAM, frame buffer and
tile source are as before. -/
theorem C14_stop_cancels (st : mlanding_state) :
    (dma_stop_w st).m_dma_busy = 0
      ∧ (dma_stop_w st).timer_requests = st.timer_requests ++ [⟨none, 0⟩]
      ∧ pending_event (dma_stop_w st).timer_requests = none
      ∧ (dma_stop_w st).m_dma_cpu_bank = st.m_dma_cpu_bank
      ∧ (dma_stop_w st).dma_bank_entry = st.dma_bank_entry
      ∧ (dma_stop_w st).m_dma_ram = st.m_dma_ram
      ∧ (dma_stop_w st).m_g_ram = st.m_g_ram
      ∧ (dma_stop_w st).m_cha_ram = st.m_cha_ram
      ∧ (∀ p, 0 < p → (exec_dma (dma_bank_swap (dma_stop_w st))).2 = p →
          pending_event (dma_start_w (dma_stop_w st)).timer_requests
            = some ⟨periods_of_hz 16000000 p, TIMER_DMA_COMPLETE⟩) := by
  refine ⟨rfl, rfl, ?_, rfl, rfl, rfl, rfl, rfl, fun p hpos hp => ?_⟩
  · show pending_event (st.timer_requests ++ [⟨none, 0⟩]) = none
    rw [pending_event_concat]
  · have hne : (exec_dma (dma_bank_swap (dma_stop_w st))).2 ≠ 0 := by omega
    rw [(dma_start_w_counted (dma_stop_w st) hne).2, pending_event_concat, hp]
    rfl

/-! ## ADPCM playback: one advance -/

theorem msm5205_update_held (chip : Nat) (s : sound_state) (h : s.m_msm_reset chip ≠ 0) :
    msm5205_update chip s = s := by
  unfold msm5205_update
  rw [if_pos h]

/-- An advance of a channel that is not held, written out. -/
theorem msm5205_update_active (chip : Nat) (s : sound_state) (h : s.m_msm_reset chip = 0) :
    msm5205_update chip s
      = { s with
          msm_calls := s.msm_calls ++
            [⟨if chip ≠ 0 then 1 else 0,
              msm_call.data_w
                ((if s.m_msm_nibble chip ≠ 0
                    then u8 ((if chip ≠ 0 then s.m_msm2_rom else s.m_msm1_rom) (s.m_msm_pos chip))
                    else u8 ((if chip ≠ 0 then s.m_msm2_rom else s.m_msm1_rom)
                      (s.m_msm_pos chip)) >>> 4) &&& 0xf)⟩]
          m_msm_pos :=
            if s.m_msm_nibble chip ≠ 0
              then Function.update s.m_msm_pos chip (u32 (s.m_msm_pos chip + 1))
              else s.m_msm_pos
          m_msm_nibble :=
            Function.update s.m_msm_nibble chip (u8 (s.m_msm_nibble chip ^^^ 1)) } := by
  unfold msm5205_update msm_emit
  rw [if_neg (fun hne => hne h)]
  by_cases hn : s.m_msm_nibble chip ≠ 0
  · simp only [if_pos hn]
  · simp only [if_neg hn]

/-- Two advances from nibble phase 0: the high then the low nibble of one byte. -/
theorem advance_pair (chip : Nat) (t : sound_state) (h0 : t.m_msm_reset chip = 0)
    (hn : t.m_msm_nibble chip = 0) :
    (msm5205_update chip (msm5205_update chip t)).msm_calls
        = t.msm_calls ++
          [⟨if chip ≠ 0 then 1 else 0, msm_call.data_w
              ((u8 ((if chip ≠ 0 then t.m_msm2_rom else t.m_msm1_rom) (t.m_msm_pos chip)) >>> 4)
                &&& 0xf)⟩,
            ⟨if chip ≠ 0 then 1 else 0, msm_call.data_w
              (u8 ((if chip ≠ 0 then t.m_msm2_rom else t.m_msm1_rom) (t.m_msm_pos chip))
                &&& 0xf)⟩]
      ∧ (msm5205_update chip (msm5205_update chip t)).m_msm_pos chip
        = u32 (t.m_msm_pos chip + 1)
      ∧ (msm5205_update chip (msm5205_update chip t)).m_msm_nibble chip = 0
      ∧ (msm5205_update chip (msm5205_update chip t)).m_msm_reset = t.m_msm_reset
      ∧ (msm5205_update chip (msm5205_update chip t)).m_msm1_rom = t.m_msm1_rom
      ∧ (msm5205_update chip (msm5205_update chip t)).m_msm2_rom = t.m_msm2_rom := by
  have e1 := msm5205_update_active chip t h0
  rw [hn] at e1
  simp only [ne_eq, not_true_eq_false, if_false] at e1
  have h0b : (msm5205_update chip t).m_msm_reset chip = 0 := by
    rw [e1]
    exact h0
  have hnb : (msm5205_update chip t).m_msm_nibble chip = 1 := by
    rw [e1]
    show Function.update t.m_msm_nibble chip (u8 (0 ^^^ 1)) chip = 1
    rw [Function.update_same]
    rfl
  have e2 := msm5205_update_active chip (msm5205_update chip t) h0b
  rw [hnb] at e2
  simp only [ne_eq, one_ne_zero, not_false_eq_true, if_true] at e2
  rw [e2, e1]
  refine ⟨?_, ?_, ?_, rfl, rfl, rfl⟩
  · show (t.msm_calls ++ [_]) ++ [_] = _
    rw [List.append_assoc]
    rfl
  · show Function.update t.m_msm_pos chip (u32 (t.m_msm_pos chip + 1)) chip = _
    rw [Function.update_same]
  · show Function.update (Function.update t.m_msm_nibble chip (u8 (0 ^^^ 1))) chip
      (u8 (1 ^^^ 1)) chip = 0
    rw [Function.update_same]
    rfl

/-- `2 * n` advances from nibble phase 0 play `n` bytes. -/
theorem advance_times_bytes (chip : Nat) (s : sound_state) (n p : Nat)
    (h0 : s.m_msm_reset chip = 0) (hn : s.m_msm_nibble chip = 0)
    (hp : s.m_msm_pos chip = p) (hroom : p + n < 4294967296) :
    (advance_times chip (2 * n) s).msm_calls
        = s.msm_calls ++
          (nibbles_of (if chip ≠ 0 then s.m_msm2_rom else s.m_msm1_rom) p n).map
            (fun v => ⟨if chip ≠ 0 then 1 else 0, msm_call.data_w v⟩)
      ∧ (advance_times chip (2 * n) s).m_msm_pos chip = p + n
      ∧ (advance_times chip (2 * n) s).m_msm_nibble chip = 0
      ∧ (advance_times chip (2 * n) s).m_msm_reset = s.m_msm_reset
      ∧ (advance_times chip (2 * n) s).m_msm1_rom = s.m_msm1_rom
      ∧ (advance_times chip (2 * n) s).m_msm2_rom = s.m_msm2_rom := by
  induction n with
  | zero =>
    refine ⟨?_, hp, hn, rfl, rfl, rfl⟩
    show s.msm_calls = s.msm_calls ++ []
    rw [List.append_nil]
  | succ m ih =>
    obtain ⟨c1, c2, c3, c4, c5, c6⟩ := ih (by omega)
    have hstep : advance_times chip (2 * (m + 1)) s
        = msm5205_update chip (msm5205_update chip (advance_times chip (2 * m) s)) := rfl
    have h0t : (advance_times chip (2 * m) s).m_msm_reset chip = 0 := by
      rw [c4]
      exact h0
    obtain ⟨d1, d2, d3, d4, d5, d6⟩ := advance_pair chip (advance_times chip (2 * m) s) h0t c3
    rw [hstep]
    refine ⟨?_, ?_, d3, d4.trans c4, d5.trans c5, d6.trans c6⟩
    · rw [d1, c1, c2, c5, c6, List.append_assoc]
      show _ = s.msm_calls ++ List.map _ (nibbles_of _ p m ++ [_, _])
      rw [List.map_append]
      rfl
    · rw [d2, c2]
      unfold u32
      omega

/-! ## C15: the nibble advance -/

/-- C15: `msm5205_update(chip)` for `chip` in `{0, 1}`. A held channel
(`m_msm_reset[chip] != 0`) emits nothing and keeps its whole state. Otherwise
exactly one value below 16 is sent with `data_w` to the device of the channel:
the high nibble of `rom[rom_pointer]` when the nibble phase is 0, its low nibble
otherwise; the pointer increases by 1 only in the low-nibble case, the nibble
phase is toggled, and the other channel, the held flags, the clock-divider bits
and the ROMs are untouched. Consequently `2 * n` advances from phase 0 emit the
bytes `rom[p .. p + n - 1]` high nibble first and leave the pointer at `p + n`
with phase 0. -/
theorem C15_nibble_advance (chip : Nat) (s : sound_state) (hchip : chip ≤ 1) :
    (s.m_msm_reset chip ≠ 0 → msm5205_update chip s = s)
      ∧ (s.m_msm_reset chip = 0 →
        (msm5205_update chip s).msm_calls
            = s.msm_calls ++
              [⟨chip, msm_call.data_w
                (if s.m_msm_nibble chip = 0
                  then (u8 ((if chip ≠ 0 then s.m_msm2_rom else s.m_msm1_rom)
                    (s.m_msm_pos chip)) >>> 4) &&& 0xf
                  else u8 ((if chip ≠ 0 then s.m_msm2_rom else s.m_msm1_rom)
                    (s.m_msm_pos chip)) &&& 0xf)⟩]
          ∧ (msm5205_update chip s).m_msm_pos chip
            = (if s.m_msm_nibble chip = 0 then s.m_msm_pos chip
              else u32 (s.m_msm_pos chip + 1))
          ∧ (msm5205_update chip s).m_msm_nibble chip = u8 (s.m_msm_nibble chip ^^^ 1)
          ∧ (s.m_msm_nibble chip ≤ 1 →
            (msm5205_update chip s).m_msm_nibble chip = 1 - s.m_msm_nibble chip)
          ∧ (∀ c, c ≠ chip →
            (msm5205_update chip s).m_msm_pos c = s.m_msm_pos c
              ∧ (msm5205_update chip s).m_msm_nibble c = s.m_msm_nibble c)
          ∧ (msm5205_update chip s).m_msm_reset = s.m_msm_reset
          ∧ (msm5205_update chip s).m_msm2_vck = s.m_msm2_vck
          ∧ (msm5205_update chip s).m_msm2_vck2 = s.m_msm2_vck2
          ∧ (msm5205_update chip s).m_msm1_rom = s.m_msm1_rom
          ∧ (msm5205_update chip s).m_msm2_rom = s.m_msm2_rom)
      ∧ (∀ v : Nat, (u8 v >>> 4) &&& 0xf < 16 ∧ u8 v &&& 0xf < 16)
      ∧ (∀ n p, s.m_msm_reset chip = 0 → s.m_msm_nibble chip = 0 → s.m_msm_pos chip = p →
        p + n < 4294967296 →
        (advance_times chip (2 * n) s).msm_calls
            = s.msm_calls ++
              (nibbles_of (if chip ≠ 0 then s.m_msm2_rom else s.m_msm1_rom) p n).map
                (fun v => ⟨chip, msm_call.data_w v⟩)
          ∧ (advance_times chip (2 * n) s).m_msm_pos chip = p + n
          ∧ (advance_times chip (2 * n) s).m_msm_nibble chip = 0) := by
  have hdev : (if chip ≠ 0 then 1 else 0) = chip := by
    have hc : chip = 0 ∨ chip = 1 := by omega
    rcases hc with hc | hc <;> subst hc <;> rfl
  refine ⟨fun h => msm5205_update_held chip s h, fun h0 => ?_, fun v => ?_,
    fun n p h0 hn hp hroom => ?_⟩
  · have e := msm5205_update_active chip s h0
    rw [hdev] at e
    rw [e]
    refine ⟨?_, ?_, ?_, fun hle => ?_, fun c hc => ⟨?_, ?_⟩, rfl, rfl, rfl, rfl, rfl⟩
    · show s.msm_calls ++ [_] = s.msm_calls ++ [_]
      by_cases hn : s.m_msm_nibble chip = 0
      · rw [if_pos hn, if_neg (fun h => h hn)]
      · rw [if_neg hn, if_pos hn]
    · show (if s.m_msm_nibble chip ≠ 0
          then Function.update s.m_msm_pos chip (u32 (s.m_msm_pos chip + 1))
          else s.m_msm_pos) chip = _
      by_cases hn : s.m_msm_nibble chip = 0
      · rw [if_pos hn, if_neg (fun h => h hn)]
      · rw [if_neg hn, if_pos hn, Function.update_same]
    · show Function.update s.m_msm_nibble chip _ chip = _
      rw [Function.update_same]
    · show Function.update s.m_msm_nibble chip _ chip = _
      rw [Function.update_same, (xor_one_of_le_one _ hle).2.1]
    · show (if s.m_msm_nibble chip ≠ 0
          then Function.update s.m_msm_pos chip (u32 (s.m_msm_pos chip + 1))
          else s.m_msm_pos) c = _
      split
      · rw [Function.update_noteq hc]
      · rfl
    · show Function.update s.m_msm_nibble chip _ c = _
      rw [Function.update_noteq hc]
  · have h1 : (u8 v >>> 4) &&& 0xf ≤ 0xf := Nat.and_le_right
    have h2 : u8 v &&& 0xf ≤ 0xf := Nat.and_le_right
    omega
  · obtain ⟨c1, c2, c3, _⟩ := advance_times_bytes chip s n p h0 hn hp hroom
    rw [hdev] at c1
    exact ⟨c1, c2, c3⟩

/-- C15 witness: four advances of channel 0 from pointer 3, phase 0, over a ROM
whose byte `i` is `i`. -/
theorem C15_nibble_advance_witness :
    (advance_times 0 (2 * 2) (sound_example (fun _ => 3) (fun _ => 0) (fun _ => 0)
        (fun i => i) (fun _ => 0))).m_msm_pos 0 = 3 + 2 :=
  ((C15_nibble_advance 0
    (sound_example (fun _ => 3) (fun _ => 0) (fun _ => 0) (fun i => i) (fun _ => 0))
    (by decide)).2.2.2 2 3 rfl rfl rfl (by decide)).2.1

/-! ## C16: the pointer of channel 0 is not wrapped -/

theorem testBit_u32 (x i : Nat) : (u32 x).testBit i = (decide (i < 32) && x.testBit i) := by
  unfold u32
  rw [show (4294967296 : Nat) = 2 ^ 32 from by norm_num, Nat.testBit_mod_two_pow]

theorem testBit_u8 (x i : Nat) : (u8 x).testBit i = (decide (i < 8) && x.testBit i) := by
  unfold u8
  rw [show (256 : Nat) = 2 ^ 8 from by norm_num, Nat.testBit_mod_two_pow]

/-- A `uint32_t` value has no bit at position 32 or above. -/
theorem testBit_above_u32 (P i : Nat) (h : P < 4294967296) (hi : 32 ≤ i) :
    P.testBit i = false := by
  apply Nat.testBit_lt_two_pow
  have h2 : (2 : Nat) ^ 32 ≤ 2 ^ i := Nat.pow_le_pow_right (by norm_num) hi
  omega

/-- Bits of `~0xff` taken as a `uint32_t`. -/
theorem testBit_not_ff (i : Nat) :
    (0xffffff00 : Nat).testBit i = (decide (8 ≤ i) && decide (i < 32)) := by
  rw [show (0xffffff00 : Nat) = (2 ^ 24 - 1) <<< 8 from by decide, Nat.testBit_shiftLeft,
    Nat.testBit_two_pow_sub_one]
  by_cases h : 8 ≤ i
  · by_cases h2 : i < 32
    · have h3 : i - 8 < 24 := by omega
      simp [h, h2, h3]
    · have h3 : ¬ i - 8 < 24 := by omega
      simp [h, h2, h3]
  · have h2 : ¬ i ≥ 8 := h
    simp [h, h2]

/-- Bits of `~0x0ff00` taken as a `uint32_t`. -/
theorem testBit_not_ff00 (i : Nat) :
    (0xffff00ff : Nat).testBit i
      = (decide (i < 8) || (decide (16 ≤ i) && decide (i < 32))) := by
  rw [show (0xffff00ff : Nat) = (2 ^ 8 - 1) ||| ((2 ^ 16 - 1) <<< 16) from by decide,
    Nat.testBit_or, Nat.testBit_shiftLeft, Nat.testBit_two_pow_sub_one,
    Nat.testBit_two_pow_sub_one]
  by_cases h : 16 ≤ i
  · by_cases h2 : i < 32
    · have h3 : i - 16 < 16 := by omega
      have h4 : ¬ i < 8 := by omega
      simp [h, h2, h3, h4]
    · have h3 : ¬ i - 16 < 16 := by omega
      have h4 : ¬ i < 8 := by omega
      simp [h, h2, h3, h4]
  · have h2 : ¬ i ≥ 16 := h
    simp [h, h2]

/-- Bits of `~0x70000` taken as a `uint32_t`. -/
theorem testBit_not_70000 (i : Nat) :
    (0xfff8ffff : Nat).testBit i
      = (decide (i < 16) || (decide (19 ≤ i) && decide (i < 32))) := by
  rw [show (0xfff8ffff : Nat) = (2 ^ 16 - 1) ||| ((2 ^ 13 - 1) <<< 19) from by decide,
    Nat.testBit_or, Nat.testBit_shiftLeft, Nat.testBit_two_pow_sub_one,
    Nat.testBit_two_pow_sub_one]
  by_cases h : 19 ≤ i
  · by_cases h2 : i < 32
    · have h3 : i - 19 < 13 := by omega
      have h4 : ¬ i < 16 := by omega
      simp [h, h2, h3, h4]
    · have h3 : ¬ i - 19 < 13 := by omega
      have h4 : ¬ i < 16 := by omega
      simp [h, h2, h3, h4]
  · have h2 : ¬ i ≥ 19 := h
    simp [h, h2]

theorem testBit_seven (i : Nat) : (7 : Nat).testBit i = decide (i < 3) := by
  rw [show (7 : Nat) = 2 ^ 3 - 1 from by decide, Nat.testBit_two_pow_sub_one]

/-- On a `uint32_t`, `& ~0xff` clears the low byte and keeps the rest. -/
theorem and_not_ff (P : Nat) (h : P < 4294967296) : P &&& 0xffffff00 = P - P % 256 := by
  have e : P - P % 256 = (P >>> 8) <<< 8 := by
    rw [Nat.shiftRight_eq_div_pow, Nat.shiftLeft_eq]
    omega
  rw [e]
  apply Nat.eq_of_testBit_eq
  intro i
  rw [Nat.testBit_and, testBit_not_ff, Nat.testBit_shiftLeft, Nat.testBit_shiftRight]
  by_cases h8 : 8 ≤ i
  · have e2 : 8 + (i - 8) = i := by omega
    rw [e2]
    by_cases h32 : i < 32
    · have h3 : i ≥ 8 := h8
      simp [h8, h32]
    · have hf := testBit_above_u32 P i h (by omega)
      simp [hf]
  · have h2 : ¬ i ≥ 8 := h8
    simp [h8]

/-- Bits of the pointer after a write of its bits 8..15. -/
theorem testBit_addr_lo (P d i : Nat) (hP : P < 4294967296) :
    (u32 ((P &&& 0xffff00ff) ||| (u8 d <<< 8))).testBit i
      = if 8 ≤ i ∧ i < 16 then d.testBit (i - 8) else P.testBit i := by
  rw [testBit_u32, Nat.testBit_or, Nat.testBit_and, testBit_not_ff00, Nat.testBit_shiftLeft,
    testBit_u8]
  by_cases h8 : i < 8
  · have h1 : ¬ (8 ≤ i ∧ i < 16) := by omega
    have h2 : ¬ i ≥ 8 := by omega
    have h3 : i < 32 := by omega
    simp [h8, h1, h2, h3]
  · by_cases h16 : i < 16
    · have h1 : i - 8 < 8 := by omega
      have h2 : 8 ≤ i := by omega
      have h3 : i < 32 := by omega
      simp [h8, h16, h1, h2, h3]
    · by_cases h32 : i < 32
      · have h1 : ¬ (i - 8 < 8) := by omega
        have h2 : 16 ≤ i := by omega
        simp [h8, h16, h32, h1, h2]
      · have hf := testBit_above_u32 P i hP (by omega)
        simp [h8, h16, h32, hf]

/-- Bits of the pointer after a write of its bits 16..18. -/
theorem testBit_addr_hi (P d i : Nat) (hP : P < 4294967296) :
    (u32 ((P &&& 0xfff8ffff) ||| ((u8 d &&& 7) <<< 16))).testBit i
      = if 16 ≤ i ∧ i < 19 then d.testBit (i - 16) else P.testBit i := by
  rw [testBit_u32, Nat.testBit_or, Nat.testBit_and, testBit_not_70000, Nat.testBit_shiftLeft,
    Nat.testBit_and, testBit_u8, testBit_seven]
  by_cases h16 : i < 16
  · have h1 : ¬ (16 ≤ i ∧ i < 19) := by omega
    have h2 : ¬ i ≥ 16 := by omega
    have h3 : i < 32 := by omega
    simp [h16, h1, h2, h3]
  · by_cases h19 : i < 19
    · have h1 : i - 16 < 8 := by omega
      have h2 : 16 ≤ i := by omega
      have h3 : i < 32 := by omega
      have h4 : i - 16 < 3 := by omega
      simp [h16, h19, h1, h2, h3, h4]
    · by_cases h32 : i < 32
      · have h1 : ¬ (i - 16 < 3) := by omega
        have h2 : 19 ≤ i := by omega
        simp [h16, h19, h32, h1, h2]
      · have hf := testBit_above_u32 P i hP (by omega)
        simp [h16, h19, h32, hf]

/-- The two pointer patches commute as operations on the pointer. -/
theorem addr_patch_comm (P d d2 : Nat) :
    u32 ((u32 ((P &&& 0xfff8ffff) ||| ((u8 d2 &&& 7) <<< 16)) &&& 0xffff00ff) ||| (u8 d <<< 8))
      = u32 ((u32 ((P &&& 0xffff00ff) ||| (u8 d <<< 8)) &&& 0xfff8ffff)
          ||| ((u8 d2 &&& 7) <<< 16)) := by
  apply Nat.eq_of_testBit_eq
  intro i
  simp only [testBit_u32, Nat.testBit_or, Nat.testBit_and, testBit_not_ff00, testBit_not_70000,
    Nat.testBit_shiftLeft, testBit_u8, testBit_seven]
  by_cases h8 : i < 8
  · have h1 : i < 32 := by omega
    have h2 : i < 16 := by omega
    have h3 : ¬ (i ≥ 16) := by omega
    have h4 : ¬ (i ≥ 8) := by omega
    simp [h8, h1, h2, h3, h4]
  · by_cases h16 : i < 16
    · have h1 : i - 8 < 8 := by omega
      have h2 : i ≥ 8 := by omega
      have h3 : i < 32 := by omega
      have h4 : ¬ (i ≥ 16) := by omega
      have h5 : ¬ (16 ≤ i) := by omega
      simp [h8, h16, h1, h2, h3, h4, h5]
    · by_cases h19 : i < 19
      · have h1 : ¬ (i - 8 < 8) := by omega
        have h2 : i ≥ 8 := by omega
        have h3 : i ≥ 16 := by omega
        have h4 : 16 ≤ i := by omega
        have h5 : i < 32 := by omega
        have h6 : i - 16 < 8 := by omega
        have h7 : i - 16 < 3 := by omega
        have h9 : ¬ (19 ≤ i) := by omega
        simp [h8, h16, h19, h1, h2, h3, h4, h5, h6, h7, h9]
      · have h1 : ¬ (i - 8 < 8) := by omega
        have h2 : i ≥ 8 := by omega
        have h3 : i ≥ 16 := by omega
        have h4 : 16 ≤ i := by omega
        have h5 : 19 ≤ i := by omega
        have h6 : ¬ (i - 16 < 3) := by omega
        simp [h8, h16, h19, h1, h2, h3, h4, h5, h6]

/-! ## C17: the two stop registers -/

/-- C17: stop is asymmetric between the channels. `msm5205_1_stop_w` sets the
held flag of channel 0, sets its nibble phase to 0 and replaces its pointer `P`
by `P & ~0xff`: the low 8 bits are cleared and every higher bit is kept.
`msm5205_2_stop_w` sets the held flag of channel 1 and sets its nibble phase to
0 but leaves every pointer unchanged. Each asserts the reset line of its own
device, and neither touches the other channel or the clock-divider bits. -/
theorem C17_stop_asymmetry (s : sound_state) (hP : s.m_msm_pos 0 < 4294967296) :
    ((msm5205_1_stop_w s).m_msm_reset 0 = 1
        ∧ (msm5205_1_stop_w s).m_msm_nibble 0 = 0
        ∧ (msm5205_1_stop_w s).m_msm_pos 0 = s.m_msm_pos 0 &&& 0xffffff00
        ∧ (msm5205_1_stop_w s).m_msm_pos 0 = s.m_msm_pos 0 - s.m_msm_pos 0 % 256
        ∧ (∀ i, ((msm5205_1_stop_w s).m_msm_pos 0).testBit i
            = (decide (8 ≤ i) && (s.m_msm_pos 0).testBit i))
        ∧ (msm5205_1_stop_w s).m_msm_pos 1 = s.m_msm_pos 1
        ∧ (msm5205_1_stop_w s).m_msm_reset 1 = s.m_msm_reset 1
        ∧ (msm5205_1_stop_w s).m_msm_nibble 1 = s.m_msm_nibble 1
        ∧ (msm5205_1_stop_w s).m_msm2_vck = s.m_msm2_vck
        ∧ (msm5205_1_stop_w s).m_msm2_vck2 = s.m_msm2_vck2
        ∧ (msm5205_1_stop_w s).msm_calls = s.msm_calls ++ [⟨0, msm_call.reset_w 1⟩])
      ∧ ((msm5205_2_stop_w s).m_msm_reset 1 = 1
        ∧ (msm5205_2_stop_w s).m_msm_nibble 1 = 0
        ∧ (msm5205_2_stop_w s).m_msm_pos = s.m_msm_pos
        ∧ (msm5205_2_stop_w s).m_msm_reset 0 = s.m_msm_reset 0
        ∧ (msm5205_2_stop_w s).m_msm_nibble 0 = s.m_msm_nibble 0
        ∧ (msm5205_2_stop_w s).m_msm2_vck = s.m_msm2_vck
        ∧ (msm5205_2_stop_w s).m_msm2_vck2 = s.m_msm2_vck2
        ∧ (msm5205_2_stop_w s).msm_calls = s.msm_calls ++ [⟨1, msm_call.reset_w 1⟩]) := by
  have hpos : (msm5205_1_stop_w s).m_msm_pos 0 = s.m_msm_pos 0 &&& 0xffffff00 := by
    simp only [msm5205_1_stop_w, msm_emit, Function.update_same]
  have h10 : (1 : Nat) ≠ 0 := by decide
  refine ⟨⟨?_, ?_, hpos, ?_, fun i => ?_, ?_, ?_, ?_, rfl, rfl, rfl⟩,
    ⟨?_, ?_, rfl, ?_, ?_, rfl, rfl, rfl⟩⟩
  · simp only [msm5205_1_stop_w, msm_emit, Function.update_same]
  · simp only [msm5205_1_stop_w, msm_emit, Function.update_same]
  · rw [hpos, and_not_ff _ hP]
  · rw [hpos, Nat.testBit_and, testBit_not_ff]
    by_cases h8 : 8 ≤ i
    · by_cases h32 : i < 32
      · simp [h8, h32]
      · have hf := testBit_above_u32 _ i hP (by omega)
        simp [hf]
    · simp [h8]
  · simp only [msm5205_1_stop_w, msm_emit, Function.update_noteq h10]
  · simp only [msm5205_1_stop_w, msm_emit, Function.update_noteq h10]
  · simp only [msm5205_1_stop_w, msm_emit, Function.update_noteq h10]
  · simp only [msm5205_2_stop_w, msm_emit, Function.update_same]
  · simp only [msm5205_2_stop_w, msm_emit, Function.update_same]
  · simp only [msm5205_2_stop_w, msm_emit, Function.update_noteq h10.symm]
  · simp only [msm5205_2_stop_w, msm_emit, Function.update_noteq h10.symm]

/-- C17 witness: channel 0 at `0x12345` in its low-nibble phase, channel 1 at
`0x0123`. -/
theorem C17_stop_asymmetry_witness :
    (msm5205_1_stop_w (sound_example (fun c => if c = 0 then 0x12345 else 0x0123)
        (fun _ => 0) (fun _ => 1) (fun _ => 0) (fun _ => 0))).m_msm_pos 0
      = 0x12345 - 0x12345 % 256 :=
  (C17_stop_asymmetry
    (sound_example (fun c => if c = 0 then 0x12345 else 0x0123) (fun _ => 0) (fun _ => 1)
      (fun _ => 0) (fun _ => 0))
    (by decide)).1.2.2.2.1

/-! ## C18: stop, start, advance -/

/-- C18: for every channel-0 state with pointer `P` and any nibble phase, the
sequence `msm5205_1_stop_w; msm5205_1_start_w; msm5205_update(0)` asserts then
releases the reset line of the device and emits the high nibble of
`rom[P & ~0xff]`; afterwards the pointer is still `P & ~0xff` (`P` with its low
byte cleared) and the nibble phase is 1. Start only clears the held flag of
channel 0: pointers and nibble phases are unchanged by it. -/
theorem C18_stop_start_resume (s : sound_state) :
    (msm5205_update 0 (msm5205_1_start_w (msm5205_1_stop_w s))).msm_calls
        = s.msm_calls ++
          [⟨0, msm_call.reset_w 1⟩, ⟨0, msm_call.reset_w 0⟩,
            ⟨0, msm_call.data_w
              ((u8 (s.m_msm1_rom (s.m_msm_pos 0 &&& 0xffffff00)) >>> 4) &&& 0xf)⟩]
      ∧ (msm5205_update 0 (msm5205_1_start_w (msm5205_1_stop_w s))).m_msm_pos 0
        = s.m_msm_pos 0 &&& 0xffffff00
      ∧ (msm5205_update 0 (msm5205_1_start_w (msm5205_1_stop_w s))).m_msm_nibble 0 = 1
      ∧ (s.m_msm_pos 0 < 4294967296 →
          s.m_msm_pos 0 &&& 0xffffff00 = s.m_msm_pos 0 - s.m_msm_pos 0 % 256)
      ∧ (∀ t : sound_state,
          (msm5205_1_start_w t).m_msm_pos = t.m_msm_pos
            ∧ (msm5205_1_start_w t).m_msm_nibble = t.m_msm_nibble
            ∧ (msm5205_1_start_w t).m_msm_reset 0 = 0
            ∧ (msm5205_1_start_w t).m_msm_reset 1 = t.m_msm_reset 1
            ∧ (msm5205_1_start_w t).msm_calls = t.msm_calls ++ [⟨0, msm_call.reset_w 0⟩]) := by
  have h10 : (1 : Nat) ≠ 0 := by decide
  have hrun : (msm5205_1_start_w (msm5205_1_stop_w s)).m_msm_reset 0 = 0 := by
    simp only [msm5205_1_start_w, msm5205_1_stop_w, msm_emit, Function.update_same]
  have hnib : (msm5205_1_start_w (msm5205_1_stop_w s)).m_msm_nibble 0 = 0 := by
    simp only [msm5205_1_start_w, msm5205_1_stop_w, msm_emit, Function.update_same]
  have hpos : (msm5205_1_start_w (msm5205_1_stop_w s)).m_msm_pos 0
      = s.m_msm_pos 0 &&& 0xffffff00 := by
    simp only [msm5205_1_start_w, msm5205_1_stop_w, msm_emit, Function.update_same]
  have e := msm5205_update_active 0 (msm5205_1_start_w (msm5205_1_stop_w s)) hrun
  rw [hnib, hpos] at e
  simp only [ne_eq, not_true_eq_false, if_false] at e
  rw [e]
  refine ⟨?_, hpos, ?_, fun h => and_not_ff _ h, fun t => ⟨rfl, rfl, ?_, ?_, rfl⟩⟩
  · simp only [msm5205_1_start_w, msm5205_1_stop_w, msm_emit, List.append_assoc,
      List.singleton_append, List.cons_append, List.nil_append]
  · simp only [Function.update_same]
    rfl
  · simp only [msm5205_1_start_w, msm_emit, Function.update_same]
  · simp only [msm5205_1_start_w, msm_emit, Function.update_noteq h10]

/-! ## C19: the address registers of channel 0 -/

/-- C19: for every 8-bit `data` and every channel-0 pointer `P`,
`msm5205_1_addr_lo_w` yields `(P & ~0xff00) | (data << 8)`, bits 8..15 being
those of `data` and every other bit that of `P`; `msm5205_1_addr_hi_w` yields
`(P & ~0x70000) | ((data & 7) << 16)`, bits 16..18 being bits 0..2 of `data`,
every other bit that of `P`, bits 3..7 of `data` being ignored. Neither changes
the pointer of channel 1, the held flags, the nibble phases, the clock-divider
bits or the device calls, and a low write and a high write commute. -/
theorem C19_address_registers (data : Nat) (s : sound_state) (hdata : data < 256)
    (hP : s.m_msm_pos 0 < 4294967296) :
    (msm5205_1_addr_lo_w data s).m_msm_pos 0
        = (s.m_msm_pos 0 &&& 0xffff00ff) ||| (data <<< 8)
      ∧ (∀ i, ((msm5205_1_addr_lo_w data s).m_msm_pos 0).testBit i
          = if 8 ≤ i ∧ i < 16 then data.testBit (i - 8) else (s.m_msm_pos 0).testBit i)
      ∧ (msm5205_1_addr_hi_w data s).m_msm_pos 0
        = (s.m_msm_pos 0 &&& 0xfff8ffff) ||| ((data &&& 7) <<< 16)
      ∧ (∀ i, ((msm5205_1_addr_hi_w data s).m_msm_pos 0).testBit i
          = if 16 ≤ i ∧ i < 19 then data.testBit (i - 16) else (s.m_msm_pos 0).testBit i)
      ∧ ((msm5205_1_addr_lo_w data s).m_msm_pos 1 = s.m_msm_pos 1
        ∧ (msm5205_1_addr_lo_w data s).m_msm_reset = s.m_msm_reset
        ∧ (msm5205_1_addr_lo_w data s).m_msm_nibble = s.m_msm_nibble
        ∧ (msm5205_1_addr_lo_w data s).m_msm2_vck = s.m_msm2_vck
        ∧ (msm5205_1_addr_lo_w data s).m_msm2_vck2 = s.m_msm2_vck2
        ∧ (msm5205_1_addr_lo_w data s).msm_calls = s.msm_calls)
      ∧ ((msm5205_1_addr_hi_w data s).m_msm_pos 1 = s.m_msm_pos 1
        ∧ (msm5205_1_addr_hi_w data s).m_msm_reset = s.m_msm_reset
        ∧ (msm5205_1_addr_hi_w data s).m_msm_nibble = s.m_msm_nibble
        ∧ (msm5205_1_addr_hi_w data s).m_msm2_vck = s.m_msm2_vck
        ∧ (msm5205_1_addr_hi_w data s).m_msm2_vck2 = s.m_msm2_vck2
        ∧ (msm5205_1_addr_hi_w data s).msm_calls = s.msm_calls)
      ∧ (∀ d2 : Nat,
          msm5205_1_addr_lo_w data (msm5205_1_addr_hi_w d2 s)
            = msm5205_1_addr_hi_w d2 (msm5205_1_addr_lo_w data s)) := by
  have h10 : (1 : Nat) ≠ 0 := by decide
  have hd : u8 data = data := Nat.mod_eq_of_lt hdata
  have hlo : (msm5205_1_addr_lo_w data s).m_msm_pos 0
      = u32 ((s.m_msm_pos 0 &&& 0xffff00ff) ||| (u8 data <<< 8)) := by
    simp only [msm5205_1_addr_lo_w, Function.update_same]
  have hhi : (msm5205_1_addr_hi_w data s).m_msm_pos 0
      = u32 ((s.m_msm_pos 0 &&& 0xfff8ffff) ||| ((u8 data &&& 7) <<< 16)) := by
    simp only [msm5205_1_addr_hi_w, Function.update_same]
  refine ⟨?_, fun i => ?_, ?_, fun i => ?_, ⟨?_, rfl, rfl, rfl, rfl, rfl⟩,
    ⟨?_, rfl, rfl, rfl, rfl, rfl⟩, fun d2 => ?_⟩
  · rw [hlo, hd]
    have h1 : s.m_msm_pos 0 &&& 0xffff00ff < 2 ^ 32 :=
      Nat.lt_of_le_of_lt Nat.and_le_right (by norm_num)
    have h2 : data <<< 8 < 2 ^ 32 := by
      rw [Nat.shiftLeft_eq]
      omega
    exact Nat.mod_eq_of_lt (Nat.or_lt_two_pow h1 h2)
  · rw [hlo]
    exact testBit_addr_lo _ data i hP
  · rw [hhi, hd]
    have h1 : s.m_msm_pos 0 &&& 0xfff8ffff < 2 ^ 32 :=
      Nat.lt_of_le_of_lt Nat.and_le_right (by norm_num)
    have h2 : (data &&& 7) <<< 16 < 2 ^ 32 := by
      rw [Nat.shiftLeft_eq]
      have h3 : data &&& 7 ≤ 7 := Nat.and_le_right
      omega
    exact Nat.mod_eq_of_lt (Nat.or_lt_two_pow h1 h2)
  · rw [hhi]
    exact testBit_addr_hi _ data i hP
  · simp only [msm5205_1_addr_lo_w, Function.update_noteq h10]
  · simp only [msm5205_1_addr_hi_w, Function.update_noteq h10]
  · unfold msm5205_1_addr_lo_w msm5205_1_addr_hi_w
    simp only [Function.update_same, Function.update_idem]
    rw [addr_patch_comm]

/-- C19 witness: `data = 0xab` written to a pointer of `0x12345`. -/
theorem C19_address_registers_witness :
    (msm5205_1_addr_lo_w 0xab (sound_example (fun _ => 0x12345) (fun _ => 0) (fun _ => 0)
        (fun _ => 0) (fun _ => 0))).m_msm_pos 0
      = (0x12345 &&& 0xffff00ff) ||| (0xab <<< 8) :=
  (C19_address_registers 0xab
    (sound_example (fun _ => 0x12345) (fun _ => 0) (fun _ => 0) (fun _ => 0) (fun _ => 0))
    (by decide) (by decide)).1

/-! ## The clock divider of channel 1 -/

theorem vclk_trace_concat (chip : Nat) (l : List msm_event) (e : msm_event) :
    vclk_trace chip (l ++ [e])
      = vclk_trace chip l ++
        (match e.call with
          | msm_call.vclk_w v => if e.chip = chip then [v] else []
          | _ => []) := by
  unfold vclk_trace
  rw [List.filterMap_append]
  congr 1
  cases e with
  | mk c call =>
    cases call with
    | data_w v => rfl
    | reset_w v => rfl
    | vclk_w v =>
      by_cases h : c = chip
      · simp [List.filterMap, h]
      · simp [List.filterMap, h]

theorem data_trace_concat (chip : Nat) (l : List msm_event) (e : msm_event) :
    data_trace chip (l ++ [e])
      = data_trace chip l ++
        (match e.call with
          | msm_call.data_w v => if e.chip = chip then [v] else []
          | _ => []) := by
  unfold data_trace
  rw [List.filterMap_append]
  congr 1
  cases e with
  | mk c call =>
    cases call with
    | data_w v =>
      by_cases h : c = chip
      · simp [List.filterMap, h]
      · simp [List.filterMap, h]
    | reset_w v => rfl
    | vclk_w v => rfl

/-- An advance makes no `vclk_w` call and leaves the clock-divider bits. -/
theorem msm5205_update_divider (chip c : Nat) (s : sound_state) :
    vclk_trace c (msm5205_update chip s).msm_calls = vclk_trace c s.msm_calls
      ∧ (msm5205_update chip s).m_msm2_vck = s.m_msm2_vck
      ∧ (msm5205_update chip s).m_msm2_vck2 = s.m_msm2_vck2
      ∧ (msm5205_update chip s).m_msm_reset = s.m_msm_reset := by
  by_cases h : s.m_msm_reset chip = 0
  · rw [msm5205_update_active chip s h]
    refine ⟨?_, rfl, rfl, rfl⟩
    show vclk_trace c (s.msm_calls ++ [_]) = _
    rw [vclk_trace_concat]
    exact List.append_nil _
  · rw [msm5205_update_held chip s h]
    exact ⟨rfl, rfl, rfl, rfl⟩

/-- A call that is not a falling edge only records the signal. -/
theorem z80ctc_to0_idle (state : Nat) (s : sound_state)
    (h : ¬ (s.m_msm2_vck2 ≠ 0 ∧ state = 0)) :
    z80ctc_to0 state s = { s with m_msm2_vck2 := u8 state } := by
  unfold z80ctc_to0
  simp only [if_neg h]

/-- A falling edge with the half-rate toggle high: one `vclk_w(1)`, no advance. -/
theorem z80ctc_to0_pulse (state : Nat) (s : sound_state)
    (h : s.m_msm2_vck2 ≠ 0 ∧ state = 0) (hv : s.m_msm2_vck ≠ 0) :
    z80ctc_to0 state s
      = { msm_emit 1 (msm_call.vclk_w 1) s with
          m_msm2_vck := u8 (s.m_msm2_vck ^^^ 1)
          m_msm2_vck2 := u8 state } := by
  unfold z80ctc_to0
  simp only [if_pos h, if_pos hv]
  rfl

/-- A falling edge with the half-rate toggle low: the advance of channel 1, the
loop handling, and the toggle. -/
theorem z80ctc_to0_advance (state : Nat) (s : sound_state)
    (h : s.m_msm2_vck2 ≠ 0 ∧ state = 0) (hv : s.m_msm2_vck = 0) :
    z80ctc_to0 state s
      = { (if (msm5205_update 1 s).m_msm_pos 1 = 0x2000 then
            msm_emit 1 (msm_call.reset_w 0)
              (msm_emit 1 (msm_call.vclk_w 0)
                (msm_emit 1 (msm_call.reset_w 1)
                  { msm5205_update 1 s with
                    m_msm_pos := Function.update (msm5205_update 1 s).m_msm_pos 1 0 }))
          else msm_emit 1 (msm_call.vclk_w 0) (msm5205_update 1 s)) with
          m_msm2_vck := 1
          m_msm2_vck2 := u8 state } := by
  have hv2 : ¬ s.m_msm2_vck ≠ 0 := fun hne => hne hv
  have hk := (msm5205_update_divider 1 1 s).2.1
  unfold z80ctc_to0
  simp only [if_pos h, if_neg hv2]
  by_cases hl : (msm5205_update 1 s).m_msm_pos 1 = 0x2000
  · simp only [if_pos hl]
    show _ = { msm_emit 1 _ (msm_emit 1 _ (msm_emit 1 _ _)) with
      m_msm2_vck := 1, m_msm2_vck2 := u8 state }
    have e : u8 ((msm_emit 1 (msm_call.reset_w 0)
        (msm_emit 1 (msm_call.vclk_w 0)
          (msm_emit 1 (msm_call.reset_w 1)
            { msm5205_update 1 s with
              m_msm_pos := Function.update (msm5205_update 1 s).m_msm_pos 1 0 }))).m_msm2_vck
          ^^^ 1) = 1 := by
      show u8 ((msm5205_update 1 s).m_msm2_vck ^^^ 1) = 1
      rw [hk, hv]
      rfl
    rw [e]
  · simp only [if_neg hl]
    have e : u8 ((msm_emit 1 (msm_call.vclk_w 0) (msm5205_update 1 s)).m_msm2_vck ^^^ 1)
        = 1 := by
      show u8 ((msm5205_update 1 s).m_msm2_vck ^^^ 1) = 1
      rw [hk, hv]
      rfl
    rw [e]

/-- One call of `z80ctc_to0` seen from the divider: the toggle flips on a falling
edge, on which exactly one `vclk_w` is made, with the value of the toggle. -/
theorem z80ctc_to0_step (x : Nat) (s : sound_state) (hv : s.m_msm2_vck ≤ 1) :
    (z80ctc_to0 x s).m_msm2_vck2 = u8 x
      ∧ (z80ctc_to0 x s).m_msm2_vck
        = (if s.m_msm2_vck2 ≠ 0 ∧ x = 0 then 1 - s.m_msm2_vck else s.m_msm2_vck)
      ∧ vclk_trace 1 (z80ctc_to0 x s).msm_calls
        = vclk_trace 1 s.msm_calls
          ++ (if s.m_msm2_vck2 ≠ 0 ∧ x = 0 then [s.m_msm2_vck] else []) := by
  by_cases h : s.m_msm2_vck2 ≠ 0 ∧ x = 0
  · rw [if_pos h, if_pos h]
    have hb : s.m_msm2_vck = 0 ∨ s.m_msm2_vck = 1 := by omega
    rcases hb with hb | hb
    · rw [z80ctc_to0_advance x s h hb, hb]
      refine ⟨rfl, rfl, ?_⟩
      have hd := (msm5205_update_divider 1 1 s).1
      by_cases hl : (msm5205_update 1 s).m_msm_pos 1 = 0x2000
      · simp only [if_pos hl]
        show vclk_trace 1 ((((msm5205_update 1 s).msm_calls ++ [_]) ++ [_]) ++ [_]) = _
        rw [vclk_trace_concat, vclk_trace_concat, vclk_trace_concat, hd]
        simp
      · simp only [if_neg hl]
        show vclk_trace 1 ((msm5205_update 1 s).msm_calls ++ [_]) = _
        rw [vclk_trace_concat, hd]
        simp
    · have hne : s.m_msm2_vck ≠ 0 := by omega
      rw [z80ctc_to0_pulse x s h hne, hb]
      refine ⟨rfl, rfl, ?_⟩
      show vclk_trace 1 (s.msm_calls ++ [_]) = _
      rw [vclk_trace_concat]
      simp
  · rw [if_neg h, if_neg h, z80ctc_to0_idle x s h]
    exact ⟨rfl, rfl, (List.append_nil _).symm⟩

/-- Over a whole signal the toggle counts the falling edges modulo 2 and the
`vclk_w` values alternate, starting with the value of the toggle. -/
theorem z80ctc_run_divider (sigs : List Nat) :
    ∀ (s : sound_state) (b : Nat), s.m_msm2_vck = b → b ≤ 1 →
      (z80ctc_run sigs s).m_msm2_vck = (b + falling_edges s.m_msm2_vck2 sigs) % 2
        ∧ vclk_trace 1 (z80ctc_run sigs s).msm_calls
          = vclk_trace 1 s.msm_calls
            ++ (List.range (falling_edges s.m_msm2_vck2 sigs)).map (fun k => (b + k) % 2) := by
  induction sigs with
  | nil =>
    intro s b hb hle
    refine ⟨?_, ?_⟩
    · show s.m_msm2_vck = (b + 0) % 2
      omega
    · show vclk_trace 1 s.msm_calls = vclk_trace 1 s.msm_calls ++ List.map _ (List.range 0)
      simp
  | cons x xs ih =>
    intro s b hb hle
    obtain ⟨s1, s2, s3⟩ := z80ctc_to0_step x s (by omega)
    by_cases h : s.m_msm2_vck2 ≠ 0 ∧ x = 0
    · rw [if_pos h] at s2 s3
      obtain ⟨i1, i2⟩ := ih (z80ctc_to0 x s) (1 - b) (by rw [s2, hb]) (by omega)
      rw [s1] at i1 i2
      have hf : falling_edges s.m_msm2_vck2 (x :: xs) = falling_edges (u8 x) xs + 1 := by
        show (if s.m_msm2_vck2 ≠ 0 ∧ x = 0 then 1 else 0) + falling_edges (u8 x) xs = _
        rw [if_pos h]
        omega
      refine ⟨?_, ?_⟩
      · show (z80ctc_run xs (z80ctc_to0 x s)).m_msm2_vck = _
        rw [i1, hf]
        omega
      · show vclk_trace 1 (z80ctc_run xs (z80ctc_to0 x s)).msm_calls = _
        rw [i2, s3, hf, List.range_succ_eq_map, List.map_cons, List.map_map, hb,
          List.append_assoc]
        congr 1
        have e0 : (b + 0) % 2 = b := by omega
        rw [e0, List.singleton_append]
        congr 1
        apply List.map_congr_left
        intro k _
        show (1 - b + k) % 2 = (b + (k + 1)) % 2
        omega
    · rw [if_neg h] at s2 s3
      obtain ⟨i1, i2⟩ := ih (z80ctc_to0 x s) b (by rw [s2, hb]) hle
      rw [s1] at i1 i2
      have hf : falling_edges s.m_msm2_vck2 (x :: xs) = falling_edges (u8 x) xs := by
        show (if s.m_msm2_vck2 ≠ 0 ∧ x = 0 then 1 else 0) + falling_edges (u8 x) xs = _
        rw [if_neg h]
        omega
      refine ⟨?_, ?_⟩
      · show (z80ctc_run xs (z80ctc_to0 x s)).m_msm2_vck = _
        rw [i1, hf]
      · show vclk_trace 1 (z80ctc_run xs (z80ctc_to0 x s)).msm_calls = _
        rw [i2, s3, hf, List.append_nil]

/-! ## C20: division by two of the CTC output -/

/-- C20: `z80ctc_to0(state)` acts only on a falling edge (remembered signal
non-zero and `state` 0); any other call changes nothing but the remembered
signal, which always becomes `state`. On a falling edge the half-rate toggle
flips and exactly one `vclk_w` is made on the device of channel 1: with the
toggle high the call is `vclk_w(1)` and nothing else happens (no advance), with
the toggle low `msm5205_update(1)` is called and the call is `vclk_w(0)`. So over
any signal that starts with the toggle low, the toggle counts the falling edges
modulo 2 and the `vclk_w` values of the falling edges are 0, 1, 0, 1, ...: the
`k`-th falling edge advances if and only if `k` is odd. -/
theorem C20_clock_divider (s : sound_state) (state : Nat) :
    (¬ (s.m_msm2_vck2 ≠ 0 ∧ state = 0) →
        z80ctc_to0 state s = { s with m_msm2_vck2 := u8 state })
      ∧ (z80ctc_to0 state s).m_msm2_vck2 = u8 state
      ∧ (state ≤ 1 → (z80ctc_to0 state s).m_msm2_vck2 = state)
      ∧ (s.m_msm2_vck2 ≠ 0 → state = 0 → s.m_msm2_vck = 1 →
        z80ctc_to0 state s
          = { msm_emit 1 (msm_call.vclk_w 1) s with m_msm2_vck := 0, m_msm2_vck2 := 0 })
      ∧ (s.m_msm2_vck2 ≠ 0 → state = 0 → s.m_msm2_vck = 0 →
        (z80ctc_to0 state s).m_msm2_vck = 1
          ∧ (z80ctc_to0 state s).m_msm_nibble = (msm5205_update 1 s).m_msm_nibble
          ∧ (z80ctc_to0 state s).m_msm_pos 0 = (msm5205_update 1 s).m_msm_pos 0
          ∧ (z80ctc_to0 state s).m_msm_pos 1
            = (if (msm5205_update 1 s).m_msm_pos 1 = 0x2000 then 0
              else (msm5205_update 1 s).m_msm_pos 1)
          ∧ data_trace 1 (z80ctc_to0 state s).msm_calls
            = data_trace 1 (msm5205_update 1 s).msm_calls
          ∧ vclk_trace 1 (z80ctc_to0 state s).msm_calls = vclk_trace 1 s.msm_calls ++ [0])
      ∧ (∀ sigs : List Nat, s.m_msm2_vck = 0 →
        (z80ctc_run sigs s).m_msm2_vck = falling_edges s.m_msm2_vck2 sigs % 2
          ∧ vclk_trace 1 (z80ctc_run sigs s).msm_calls
            = vclk_trace 1 s.msm_calls
              ++ (List.range (falling_edges s.m_msm2_vck2 sigs)).map (fun k => k % 2)) := by
  have h10 : (1 : Nat) ≠ 0 := by decide
  refine ⟨fun h => z80ctc_to0_idle state s h, rfl, fun hle => Nat.mod_eq_of_lt (by omega),
    fun h2 h0 hv => ?_, fun h2 h0 hv => ?_, fun sigs hv => ?_⟩
  · rw [z80ctc_to0_pulse state s ⟨h2, h0⟩ (by omega), hv, h0]
    rfl
  · have hz := z80ctc_to0_advance state s ⟨h2, h0⟩ hv
    have hd := (msm5205_update_divider 1 1 s).1
    by_cases hl : (msm5205_update 1 s).m_msm_pos 1 = 0x2000
    · rw [if_pos hl] at hz
      rw [hz]
      refine ⟨rfl, rfl, ?_, ?_, ?_, ?_⟩
      · show Function.update (msm5205_update 1 s).m_msm_pos 1 0 0 = _
        rw [Function.update_noteq h10.symm]
      · show Function.update (msm5205_update 1 s).m_msm_pos 1 0 1 = _
        rw [Function.update_same, if_pos hl]
      · show data_trace 1 ((((msm5205_update 1 s).msm_calls ++ [_]) ++ [_]) ++ [_]) = _
        rw [data_trace_concat, data_trace_concat, data_trace_concat]
        simp
      · show vclk_trace 1 ((((msm5205_update 1 s).msm_calls ++ [_]) ++ [_]) ++ [_]) = _
        rw [vclk_trace_concat, vclk_trace_concat, vclk_trace_concat, hd]
        simp
    · rw [if_neg hl] at hz
      rw [hz]
      refine ⟨rfl, rfl, rfl, ?_, ?_, ?_⟩
      · show (msm5205_update 1 s).m_msm_pos 1 = _
        rw [if_neg hl]
      · show data_trace 1 ((msm5205_update 1 s).msm_calls ++ [_]) = _
        rw [data_trace_concat]
        simp
      · show vclk_trace 1 ((msm5205_update 1 s).msm_calls ++ [_]) = _
        rw [vclk_trace_concat, hd]
        simp
  · obtain ⟨r1, r2⟩ := z80ctc_run_divider sigs s 0 hv (by omega)
    refine ⟨?_, ?_⟩
    · rw [r1, Nat.zero_add]
    · rw [r2]
      congr 1
      apply List.map_congr_left
      intro k _
      show (0 + k) % 2 = k % 2
      rw [Nat.zero_add]

/-! ## C21: loop reset of channel 1 -/

theorem reset_trace_concat (chip : Nat) (l : List msm_event) (e : msm_event) :
    reset_trace chip (l ++ [e])
      = reset_trace chip l ++
        (match e.call with
          | msm_call.reset_w v => if e.chip = chip then [v] else []
          | _ => []) := by
  unfold reset_trace
  rw [List.filterMap_append]
  congr 1
  cases e with
  | mk c call =>
    cases call with
    | data_w v => rfl
    | reset_w v =>
      by_cases hc : c = chip
      · simp [List.filterMap, hc]
      · simp [List.filterMap, hc]
    | vclk_w v => rfl

/-- An advance makes no `reset_w` call. -/
theorem msm5205_update_reset_trace (chip c : Nat) (s : sound_state) :
    reset_trace c (msm5205_update chip s).msm_calls = reset_trace c s.msm_calls := by
  by_cases h : s.m_msm_reset chip = 0
  · rw [msm5205_update_active chip s h]
    show reset_trace c (s.msm_calls ++ [_]) = _
    rw [reset_trace_concat]
    exact List.append_nil _
  · rw [msm5205_update_held chip s h]

/-- C21 (loop reset of channel 1): on a falling edge of the CTC output taken
with the half-rate toggle low, once channel 1 has been advanced: when its ROM
pointer equals the loop boundary `0x2000` the pointer is set to 0 and the second
device receives `reset_w(1)`, `vclk_w(0)`, `reset_w(0)`, in that order; otherwise
the pointer is kept and the device receives `vclk_w(0)` only, with no write to
its reset line. The pointer of channel 0 and the held flags are as the advance
left them in both cases. -/
theorem C21_loop_reset (state : Nat) (s : sound_state)
    (hedge : s.m_msm2_vck2 ≠ 0 ∧ state = 0) (hv : s.m_msm2_vck = 0) :
    ((msm5205_update 1 s).m_msm_pos 1 = 0x2000 →
        (z80ctc_to0 state s).m_msm_pos 1 = 0
          ∧ (z80ctc_to0 state s).m_msm_pos 0 = (msm5205_update 1 s).m_msm_pos 0
          ∧ (z80ctc_to0 state s).msm_calls
            = (msm5205_update 1 s).msm_calls ++
              [⟨1, msm_call.reset_w 1⟩, ⟨1, msm_call.vclk_w 0⟩, ⟨1, msm_call.reset_w 0⟩]
          ∧ reset_trace 1 (z80ctc_to0 state s).msm_calls
            = reset_trace 1 s.msm_calls ++ [1, 0])
      ∧ ((msm5205_update 1 s).m_msm_pos 1 ≠ 0x2000 →
        (z80ctc_to0 state s).m_msm_pos = (msm5205_update 1 s).m_msm_pos
          ∧ (z80ctc_to0 state s).msm_calls
            = (msm5205_update 1 s).msm_calls ++ [⟨1, msm_call.vclk_w 0⟩]
          ∧ reset_trace 1 (z80ctc_to0 state s).msm_calls = reset_trace 1 s.msm_calls)
      ∧ (z80ctc_to0 state s).m_msm_reset = s.m_msm_reset
      ∧ (z80ctc_to0 state s).m_msm_nibble = (msm5205_update 1 s).m_msm_nibble := by
  have hz := z80ctc_to0_advance state s hedge hv
  have hr := (msm5205_update_divider 1 1 s).2.2.2
  have h10 : (0 : Nat) ≠ 1 := by decide
  refine ⟨fun hl => ?_, fun hl => ?_, ?_, ?_⟩
  · rw [if_pos hl] at hz
    rw [hz]
    refine ⟨?_, ?_, ?_, ?_⟩
    · show Function.update (msm5205_update 1 s).m_msm_pos 1 0 1 = 0
      rw [Function.update_same]
    · show Function.update (msm5205_update 1 s).m_msm_pos 1 0 0 = _
      rw [Function.update_noteq h10]
    · show (((msm5205_update 1 s).msm_calls ++ [_]) ++ [_]) ++ [_] = _
      simp
    · show reset_trace 1 ((((msm5205_update 1 s).msm_calls ++ [_]) ++ [_]) ++ [_]) = _
      rw [reset_trace_concat, reset_trace_concat, reset_trace_concat,
        msm5205_update_reset_trace]
      simp
  · rw [if_neg hl] at hz
    rw [hz]
    refine ⟨rfl, rfl, ?_⟩
    show reset_trace 1 ((msm5205_update 1 s).msm_calls ++ [_]) = _
    rw [reset_trace_concat, msm5205_update_reset_trace]
    exact List.append_nil _
  · rw [hz, ← hr]
    by_cases hl : (msm5205_update 1 s).m_msm_pos 1 = 0x2000
    · rw [if_pos hl]
      rfl
    · rw [if_neg hl]
      rfl
  · rw [hz]
    by_cases hl : (msm5205_update 1 s).m_msm_pos 1 = 0x2000
    · rw [if_pos hl]
      rfl
    · rw [if_neg hl]
      rfl

/-- C21 witness: channel 1 at `0x1fff` in its low-nibble phase, the CTC output
high and the toggle low: the falling edge brings the pointer to `0x2000`, which
is reset to 0 with the pulse on the reset line. -/
theorem C21_loop_reset_witness :
    (z80ctc_to0 0
        { sound_example (fun _ => 0x1fff) (fun _ => 0) (fun _ => 1) (fun _ => 0)
            (fun _ => 0x5a) with m_msm2_vck2 := 1 }).m_msm_pos 1 = 0
      ∧ reset_trace 1 (z80ctc_to0 0
        { sound_example (fun _ => 0x1fff) (fun _ => 0) (fun _ => 1) (fun _ => 0)
            (fun _ => 0x5a) with m_msm2_vck2 := 1 }).msm_calls = [1, 0] :=
  ⟨((C21_loop_reset 0
      { sound_example (fun _ => 0x1fff) (fun _ => 0) (fun _ => 1) (fun _ => 0)
          (fun _ => 0x5a) with m_msm2_vck2 := 1 }
      (by decide) (by decide)).1 (by decide)).1,
    ((C21_loop_reset 0
      { sound_example (fun _ => 0x1fff) (fun _ => 0) (fun _ => 1) (fun _ => 0)
          (fun _ => 0x5a) with m_msm2_vck2 := 1 }
      (by decide) (by decide)).1 (by decide)).2.2.2⟩

/-! ## C22: period of the loop of channel 1 -/

/-- An advance neither reads nor writes the latch of the CTC output. -/
theorem msm5205_update_vck2 (chip v : Nat) (s : sound_state) :
    msm5205_update chip { s with m_msm2_vck2 := v }
      = { msm5205_update chip s with m_msm2_vck2 := v } := by
  by_cases h : s.m_msm_reset chip = 0
  · have h2 : ({ s with m_msm2_vck2 := v } : sound_state).m_msm_reset chip = 0 := h
    rw [msm5205_update_active chip s h, msm5205_update_active chip _ h2]
  · have h2 : ({ s with m_msm2_vck2 := v } : sound_state).m_msm_reset chip ≠ 0 := h
    rw [msm5205_update_held chip s h, msm5205_update_held chip _ h2]

/-- One period of the divider taken with the toggle low: one advance of channel
1 with the loop handling, then one `vclk_w(1)`. -/
theorem ctc_cycle_fields (s : sound_state) (hv : s.m_msm2_vck = 0) :
    (ctc_cycle s).m_msm_pos
        = (if (msm5205_update 1 s).m_msm_pos 1 = 0x2000
            then Function.update (msm5205_update 1 s).m_msm_pos 1 0
            else (msm5205_update 1 s).m_msm_pos)
      ∧ (ctc_cycle s).m_msm_nibble = (msm5205_update 1 s).m_msm_nibble
      ∧ (ctc_cycle s).m_msm_reset = s.m_msm_reset
      ∧ (ctc_cycle s).m_msm2_vck = 0
      ∧ reset_trace 1 (ctc_cycle s).msm_calls
        = reset_trace 1 s.msm_calls
          ++ (if (msm5205_update 1 s).m_msm_pos 1 = 0x2000 then [1, 0] else [])
      ∧ data_trace 1 (ctc_cycle s).msm_calls
        = data_trace 1 (msm5205_update 1 s).msm_calls := by
  have hr := (msm5205_update_divider 1 1 s).2.2.2
  have i1 : ¬ (s.m_msm2_vck2 ≠ 0 ∧ (1 : Nat) = 0) := fun h => absurd h.2 (by decide)
  have e1 := z80ctc_to0_idle 1 s i1
  have e2 := z80ctc_to0_advance 0 { s with m_msm2_vck2 := u8 1 } ⟨(show u8 1 ≠ 0 by decide), rfl⟩ hv
  rw [msm5205_update_vck2] at e2
  unfold ctc_cycle
  rw [e1, e2]
  by_cases hl : (msm5205_update 1 s).m_msm_pos 1 = 0x2000
  · have hl2 : ({ msm5205_update 1 s with m_msm2_vck2 := u8 1 } : sound_state).m_msm_pos 1
        = 0x2000 := hl
    rw [if_pos hl2, if_pos hl, if_pos hl]
    rw [z80ctc_to0_idle 1 _ (fun h => absurd h.2 (by decide))]
    rw [z80ctc_to0_pulse 0 _ ⟨(show u8 1 ≠ 0 by decide), rfl⟩ (show (1 : Nat) ≠ 0 by decide)]
    refine ⟨rfl, rfl, hr, ?_, ?_, ?_⟩
    · show u8 ((1 : Nat) ^^^ 1) = 0
      decide
    · show reset_trace 1 (((((msm5205_update 1 s).msm_calls ++ [_]) ++ [_]) ++ [_]) ++ [_]) = _
      rw [reset_trace_concat, reset_trace_concat, reset_trace_concat, reset_trace_concat,
        msm5205_update_reset_trace]
      simp
    · show data_trace 1 (((((msm5205_update 1 s).msm_calls ++ [_]) ++ [_]) ++ [_]) ++ [_]) = _
      rw [data_trace_concat, data_trace_concat, data_trace_concat, data_trace_concat]
      simp
  · have hl2 : ¬ ({ msm5205_update 1 s with m_msm2_vck2 := u8 1 } : sound_state).m_msm_pos 1
        = 0x2000 := hl
    rw [if_neg hl2, if_neg hl, if_neg hl]
    rw [z80ctc_to0_idle 1 _ (fun h => absurd h.2 (by decide))]
    rw [z80ctc_to0_pulse 0 _ ⟨(show u8 1 ≠ 0 by decide), rfl⟩ (show (1 : Nat) ≠ 0 by decide)]
    refine ⟨rfl, rfl, hr, ?_, ?_, ?_⟩
    · show u8 ((1 : Nat) ^^^ 1) = 0
      decide
    · show reset_trace 1 ((((msm5205_update 1 s).msm_calls ++ [_]) ++ [_])) = _
      rw [reset_trace_concat, reset_trace_concat, msm5205_update_reset_trace]
      simp
    · show data_trace 1 ((((msm5205_update 1 s).msm_calls ++ [_]) ++ [_])) = _
      rw [data_trace_concat, data_trace_concat]
      simp

theorem ctc_cycles_succ (n : Nat) (s : sound_state) :
    ctc_cycles (n + 1) s = ctc_cycle (ctc_cycles n s) := rfl

/-- Pointer, phase and data call of an advance of channel 1 that is not held. -/
theorem msm5205_update_one (t : sound_state) (h : t.m_msm_reset 1 = 0) :
    (msm5205_update 1 t).m_msm_pos 1
        = (if t.m_msm_nibble 1 ≠ 0 then u32 (t.m_msm_pos 1 + 1) else t.m_msm_pos 1)
      ∧ (msm5205_update 1 t).m_msm_nibble 1 = u8 (t.m_msm_nibble 1 ^^^ 1)
      ∧ (data_trace 1 (msm5205_update 1 t).msm_calls).length
        = (data_trace 1 t.msm_calls).length + 1 := by
  rw [msm5205_update_active 1 t h]
  refine ⟨?_, ?_, ?_⟩
  · by_cases hn : t.m_msm_nibble 1 ≠ 0
    · simp only [if_pos hn, Function.update_same]
    · simp only [if_neg hn]
  · simp only [Function.update_same]
  · show (data_trace 1 (t.msm_calls ++ [_])).length = _
    rw [data_trace_concat]
    simp

/-- Channel 1 over `n` periods of the divider from pointer 0, phase 0 and the
toggle low, as long as the pointer stays below the loop boundary: one advance
per period, the pointer counts the pairs of advances, and no `reset_w` is made. -/
theorem ctc_cycles_before_loop (s : sound_state) (hr : s.m_msm_reset 1 = 0)
    (hp : s.m_msm_pos 1 = 0) (hn : s.m_msm_nibble 1 = 0) (hv : s.m_msm2_vck = 0) :
    ∀ n, n < 0x4000 →
      (ctc_cycles n s).m_msm_pos 1 = n / 2
        ∧ (ctc_cycles n s).m_msm_nibble 1 = n % 2
        ∧ (ctc_cycles n s).m_msm_reset 1 = 0
        ∧ (ctc_cycles n s).m_msm2_vck = 0
        ∧ reset_trace 1 (ctc_cycles n s).msm_calls = reset_trace 1 s.msm_calls
        ∧ (data_trace 1 (ctc_cycles n s).msm_calls).length
          = (data_trace 1 s.msm_calls).length + n := by
  intro n
  induction n with
  | zero =>
    intro _
    exact ⟨hp, hn, hr, hv, rfl, rfl⟩
  | succ m ih =>
    intro hm
    obtain ⟨ip, inb, ir, iv, it, id⟩ := ih (by omega)
    obtain ⟨fp, fn, fr, fv, ft, fd⟩ := ctc_cycle_fields (ctc_cycles m s) iv
    obtain ⟨up, un, ud⟩ := msm5205_update_one (ctc_cycles m s) ir
    rw [ctc_cycles_succ]
    have hb : m % 2 = 0 ∨ m % 2 = 1 := by omega
    have hpos : (msm5205_update 1 (ctc_cycles m s)).m_msm_pos 1 = (m + 1) / 2
        ∧ (msm5205_update 1 (ctc_cycles m s)).m_msm_nibble 1 = (m + 1) % 2 := by
      rw [up, un, inb, ip]
      rcases hb with hb | hb
      · rw [hb, if_neg (fun h => h rfl)]
        refine ⟨by omega, ?_⟩
        have e : (m + 1) % 2 = 1 := by omega
        rw [e]
        decide
      · rw [hb, if_pos (by decide)]
        refine ⟨?_, ?_⟩
        · unfold u32
          omega
        · have e : (m + 1) % 2 = 0 := by omega
          rw [e]
          decide
    have hne : ¬ (msm5205_update 1 (ctc_cycles m s)).m_msm_pos 1 = 0x2000 := by
      rw [hpos.1]
      omega
    rw [if_neg hne] at fp ft
    refine ⟨?_, ?_, ?_, fv, ?_, ?_⟩
    · rw [fp, hpos.1]
    · rw [fn, hpos.2]
    · rw [fr, ir]
    · rw [ft, List.append_nil, it]
    · rw [fd, ud, id]
      omega

/-- The `0x4000`-th period from pointer 0, phase 0 and the toggle low: its
advance brings the pointer to `0x2000`, which is reset to 0 with the pulse on
the reset line in the same call. -/
theorem ctc_cycles_loop (s : sound_state) (hr : s.m_msm_reset 1 = 0)
    (hp : s.m_msm_pos 1 = 0) (hn : s.m_msm_nibble 1 = 0) (hv : s.m_msm2_vck = 0) :
    (ctc_cycles 0x4000 s).m_msm_pos 1 = 0
      ∧ (ctc_cycles 0x4000 s).m_msm_nibble 1 = 0
      ∧ (ctc_cycles 0x4000 s).m_msm_reset 1 = 0
      ∧ (ctc_cycles 0x4000 s).m_msm2_vck = 0
      ∧ reset_trace 1 (ctc_cycles 0x4000 s).msm_calls = reset_trace 1 s.msm_calls ++ [1, 0]
      ∧ (data_trace 1 (ctc_cycles 0x4000 s).msm_calls).length
        = (data_trace 1 s.msm_calls).length + 0x4000 := by
  obtain ⟨ip, inb, ir, iv, it, id⟩ := ctc_cycles_before_loop s hr hp hn hv 0x3fff (by decide)
  obtain ⟨fp, fn, fr, fv, ft, fd⟩ := ctc_cycle_fields (ctc_cycles 0x3fff s) iv
  obtain ⟨up, un, ud⟩ := msm5205_update_one (ctc_cycles 0x3fff s) ir
  have e : ctc_cycles 0x4000 s = ctc_cycle (ctc_cycles 0x3fff s) := ctc_cycles_succ 0x3fff s
  rw [e]
  have hpos : (msm5205_update 1 (ctc_cycles 0x3fff s)).m_msm_pos 1 = 0x2000 := by
    rw [up, inb, ip]
    decide
  have hnib : (msm5205_update 1 (ctc_cycles 0x3fff s)).m_msm_nibble 1 = 0 := by
    rw [un, inb]
    decide
  rw [if_pos hpos] at fp ft
  refine ⟨?_, ?_, ?_, fv, ?_, ?_⟩
  · rw [fp, Function.update_same]
  · rw [fn, hnib]
  · rw [fr, ir]
  · rw [ft, it]
  · rw [fd, ud, id]

/-- One call of `z80ctc_to0` makes no advance or one advance of channel 1. -/
theorem z80ctc_to0_count (x : Nat) (calls : List msm_event) (n : Nat) (t : sound_state)
    (h : loop_count_inv calls n t) :
    loop_count_inv calls n (z80ctc_to0 x t) ∨ loop_count_inv calls (n + 1) (z80ctc_to0 x t) := by
  obtain ⟨hr, hp, hn, hd, ht⟩ := h
  by_cases he : t.m_msm2_vck2 ≠ 0 ∧ x = 0
  · by_cases hv : t.m_msm2_vck = 0
    · right
      have hz := z80ctc_to0_advance x t he hv
      obtain ⟨up, un, ud⟩ := msm5205_update_one t hr
      have hreset := (msm5205_update_divider 1 1 t).2.2.2
      have hb : n % 2 = 0 ∨ n % 2 = 1 := by omega
      have hpos : (msm5205_update 1 t).m_msm_pos 1
          = (if n % 2 = 1 then n / 2 % 0x2000 + 1 else n / 2 % 0x2000)
          ∧ (msm5205_update 1 t).m_msm_nibble 1 = (n + 1) % 2 := by
        rw [up, un, hn, hp]
        rcases hb with hb | hb
        · rw [hb, if_neg (fun h => h rfl), if_neg (by decide)]
          refine ⟨rfl, ?_⟩
          have e : (n + 1) % 2 = 1 := by omega
          rw [e]
          decide
        · rw [hb, if_pos (by decide), if_pos rfl]
          refine ⟨?_, ?_⟩
          · unfold u32
            omega
          · have e : (n + 1) % 2 = 0 := by omega
            rw [e]
            decide
      by_cases hl : (msm5205_update 1 t).m_msm_pos 1 = 0x2000
      · rw [if_pos hl] at hz
        rw [hz]
        have hodd : n % 2 = 1 := by
          rcases hb with hb | hb
          · rw [hpos.1, hb, if_neg (by decide)] at hl
            omega
          · exact hb
        rw [hpos.1, if_pos hodd] at hl
        have e4 : (n + 1) / 0x4000 = n / 0x4000 + 1 := by omega
        refine ⟨?_, ?_, ?_, ?_, ?_⟩
        · show (msm5205_update 1 t).m_msm_reset 1 = 0
          rw [hreset, hr]
        · show Function.update (msm5205_update 1 t).m_msm_pos 1 0 1 = _
          rw [Function.update_same]
          omega
        · show (msm5205_update 1 t).m_msm_nibble 1 = _
          exact hpos.2
        · show (data_trace 1 ((((msm5205_update 1 t).msm_calls ++ [_]) ++ [_]) ++ [_])).length = _
          rw [data_trace_concat, data_trace_concat, data_trace_concat]
          simp only [List.append_nil]
          rw [ud, hd]
          omega
        · show reset_trace 1 ((((msm5205_update 1 t).msm_calls ++ [_]) ++ [_]) ++ [_]) = _
          rw [reset_trace_concat, reset_trace_concat, reset_trace_concat,
            msm5205_update_reset_trace, ht, e4]
          simp [reset_pulses]
      · rw [if_neg hl] at hz
        rw [hz]
        rw [hpos.1] at hl
        have e4 : (n + 1) / 0x4000 = n / 0x4000 := by
          split at hl <;> omega
        refine ⟨?_, ?_, ?_, ?_, ?_⟩
        · show (msm5205_update 1 t).m_msm_reset 1 = 0
          rw [hreset, hr]
        · show (msm5205_update 1 t).m_msm_pos 1 = _
          rw [hpos.1]
          split at hl <;> split <;> omega
        · show (msm5205_update 1 t).m_msm_nibble 1 = _
          exact hpos.2
        · show (data_trace 1 ((msm5205_update 1 t).msm_calls ++ [_])).length = _
          rw [data_trace_concat]
          simp only [List.append_nil]
          rw [ud, hd]
          omega
        · show reset_trace 1 ((msm5205_update 1 t).msm_calls ++ [_]) = _
          rw [reset_trace_concat, msm5205_update_reset_trace, ht, e4]
          exact List.append_nil _
    · left
      rw [z80ctc_to0_pulse x t he hv]
      refine ⟨hr, hp, hn, ?_, ?_⟩
      · show (data_trace 1 (t.msm_calls ++ [_])).length = _
        rw [data_trace_concat]
        simp only [List.append_nil]
        exact hd
      · show reset_trace 1 (t.msm_calls ++ [_]) = _
        rw [reset_trace_concat]
        simp only [List.append_nil]
        exact ht
  · left
    rw [z80ctc_to0_idle x t he]
    exact ⟨hr, hp, hn, hd, ht⟩

/-- Over any signal on the CTC output, channel 1 stays in step with the number
of advances made. -/
theorem z80ctc_run_count (sigs : List Nat) (calls : List msm_event) :
    ∀ (n : Nat) (t : sound_state), loop_count_inv calls n t →
      ∃ m, loop_count_inv calls m (z80ctc_run sigs t) := by
  induction sigs with
  | nil => exact fun n t h => ⟨n, h⟩
  | cons x xs ih =>
    intro n t h
    rcases z80ctc_to0_count x calls n t h with h2 | h2
    · exact ih n _ h2
    · exact ih (n + 1) _ h2

/-- C22 (amended): starting from channel 1 not held with ROM pointer 0 and
nibble phase 0, over any sequence of calls of `z80ctc_to0` (no stop
intervening): after `n < 0x4000` advances of channel 1 the pointer is `n / 2` and
no `reset_w` has been made; after exactly `0x4000` advances (two per ROM byte,
`0x2000` bytes) the pointer has been reset to 0 and the pulse `reset_w(1)`,
`reset_w(0)` has been emitted, before the next advance. With the divider toggle
low each period of the CTC output (high, low, high, low) delivers exactly one
advance, so `0x4000` periods do this. -/
theorem C22_loop_period (s : sound_state) (hr : s.m_msm_reset 1 = 0)
    (hp : s.m_msm_pos 1 = 0) (hn : s.m_msm_nibble 1 = 0) :
    (∀ (sigs : List Nat) (n : Nat),
        (data_trace 1 (z80ctc_run sigs s).msm_calls).length
            = (data_trace 1 s.msm_calls).length + n →
        (n < 0x4000 →
            (z80ctc_run sigs s).m_msm_pos 1 = n / 2
              ∧ (z80ctc_run sigs s).m_msm_nibble 1 = n % 2
              ∧ reset_trace 1 (z80ctc_run sigs s).msm_calls = reset_trace 1 s.msm_calls)
          ∧ (n = 0x4000 →
            (z80ctc_run sigs s).m_msm_pos 1 = 0
              ∧ (z80ctc_run sigs s).m_msm_nibble 1 = 0
              ∧ reset_trace 1 (z80ctc_run sigs s).msm_calls
                = reset_trace 1 s.msm_calls ++ [1, 0]))
      ∧ (s.m_msm2_vck = 0 →
        (∀ n, n < 0x4000 →
          (data_trace 1 (ctc_cycles n s).msm_calls).length
              = (data_trace 1 s.msm_calls).length + n
            ∧ (ctc_cycles n s).m_msm_pos 1 = n / 2
            ∧ (ctc_cycles n s).m_msm_nibble 1 = n % 2
            ∧ reset_trace 1 (ctc_cycles n s).msm_calls = reset_trace 1 s.msm_calls)
          ∧ (data_trace 1 (ctc_cycles 0x4000 s).msm_calls).length
              = (data_trace 1 s.msm_calls).length + 0x4000
          ∧ (ctc_cycles 0x4000 s).m_msm_pos 1 = 0
          ∧ (ctc_cycles 0x4000 s).m_msm_nibble 1 = 0
          ∧ reset_trace 1 (ctc_cycles 0x4000 s).msm_calls
            = reset_trace 1 s.msm_calls ++ [1, 0]) := by
  refine ⟨fun sigs n hlen => ?_, fun hv => ⟨fun n hlt => ?_, ?_⟩⟩
  · have h0 : loop_count_inv s.msm_calls 0 s :=
      ⟨hr, hp, hn, rfl, (List.append_nil _).symm⟩
    obtain ⟨m, _, mp, mn, md, mt⟩ := z80ctc_run_count sigs s.msm_calls 0 s h0
    have hmn : m = n := by omega
    subst hmn
    refine ⟨fun hlt => ?_, fun heq => ?_⟩
    · have e4 : m / 0x4000 = 0 := by omega
      rw [e4] at mt
      refine ⟨by omega, mn, ?_⟩
      rw [mt]
      exact List.append_nil _
    · subst heq
      exact ⟨mp, mn, mt⟩
  · obtain ⟨ip, inb, _, _, it, id⟩ := ctc_cycles_before_loop s hr hp hn hv n hlt
    exact ⟨id, ip, inb, it⟩
  · obtain ⟨ip, inb, _, _, it, id⟩ := ctc_cycles_loop s hr hp hn hv
    exact ⟨id, ip, inb, it⟩

/-- C22 witness: from the cleared state, the pulse on the reset line is there
after `0x4000` periods. -/
theorem C22_loop_period_witness :
    reset_trace 1 (ctc_cycles 0x4000
        (sound_example (fun _ => 0) (fun _ => 0) (fun _ => 0) (fun _ => 0)
          (fun _ => 0))).msm_calls = [1, 0] :=
  ((C22_loop_period
    (sound_example (fun _ => 0) (fun _ => 0) (fun _ => 0) (fun _ => 0) (fun _ => 0))
    rfl rfl rfl).2 rfl).2.2.2.2

/-- C22 counterexample: from the cleared state, after exactly `0x2000` advances
of channel 1 its pointer is `0x1000`, not 0, and no `reset_w` has been made. -/
theorem C22_counterexample :
    (data_trace 1 (ctc_cycles 0x2000
        (sound_example (fun _ => 0) (fun _ => 0) (fun _ => 0) (fun _ => 0)
          (fun _ => 0))).msm_calls).length = 0x2000
      ∧ (ctc_cycles 0x2000
        (sound_example (fun _ => 0) (fun _ => 0) (fun _ => 0) (fun _ => 0)
          (fun _ => 0))).m_msm_pos 1 = 0x1000
      ∧ reset_trace 1 (ctc_cycles 0x2000
        (sound_example (fun _ => 0) (fun _ => 0) (fun _ => 0) (fun _ => 0)
          (fun _ => 0))).msm_calls = [] :=
  have h := ctc_cycles_before_loop
    (sound_example (fun _ => 0) (fun _ => 0) (fun _ => 0) (fun _ => 0) (fun _ => 0))
    rfl rfl rfl rfl 0x2000 (by decide)
  ⟨(h.2.2.2.2.2).trans (Nat.zero_add _), h.1, h.2.2.2.2.1⟩

/-! ## C23: pixel decode -/

/-- The helper `BIT(x, n)` is bit `n` of `x`. -/
theorem BIT_eq (x n : Nat) : BIT x n = x / 2 ^ n % 2 := by
  unfold BIT
  rw [Nat.shiftRight_eq_div_pow, Nat.and_one_is_mod]

/-- Four bits packed with shifts and ors are the binary number they spell. -/
theorem bits_or (a b c d : Nat) (ha : a ≤ 1) (hb : b ≤ 1) (hc : c ≤ 1) (hd : d ≤ 1) :
    u16 ((a <<< 3) ||| (b <<< 2) ||| (c <<< 1) ||| d) = 8 * a + 4 * b + 2 * c + d := by
  interval_cases a <;> interval_cases b <;> interval_cases c <;> interval_cases d <;> decide

/-- The planes of a tile row in terms of its two source words. -/
theorem tile_planes_words (cha_ram : Nat → Nat) (t y1 : Nat) :
    tile_planes cha_ram t y1
      = (rd16 cha_ram (16 * t + 2 * y1) / 256, rd16 cha_ram (16 * t + 2 * y1) % 256,
          rd16 cha_ram (16 * t + 2 * y1 + 1) / 256, rd16 cha_ram (16 * t + 2 * y1 + 1) % 256) := by
  have e : t * 2 * 8 + y1 * 2 = 16 * t + 2 * y1 := by omega
  have h0 : rd16 cha_ram (16 * t + 2 * y1) < 65536 := u16_lt _
  have h1 : rd16 cha_ram (16 * t + 2 * y1 + 1) < 65536 := u16_lt _
  unfold tile_planes
  simp only [e]
  rw [show (0xff : Nat) = 2 ^ 8 - 1 from rfl, Nat.and_pow_two_sub_one_eq_mod,
    Nat.shiftRight_eq_div_pow, Nat.shiftRight_eq_div_pow]
  unfold u8
  have a1 : rd16 cha_ram (16 * t + 2 * y1) / 2 ^ 8 % 256 = rd16 cha_ram (16 * t + 2 * y1) / 256 := by
    omega
  have a2 : rd16 cha_ram (16 * t + 2 * y1) % 2 ^ 8 % 256 = rd16 cha_ram (16 * t + 2 * y1) % 256 := by
    omega
  have a3 : rd16 cha_ram (16 * t + 2 * y1 + 1) / 2 ^ 8 % 256
      = rd16 cha_ram (16 * t + 2 * y1 + 1) / 256 := by
    omega
  rw [a1, a2, a3]

/-- The base byte of a draw keeps the low nibble of the colour only. -/
theorem basepix_low_nibble (colour : Nat) : u8 (colour <<< 4) = (colour &&& 0x0f) <<< 4 := by
  unfold u8
  rw [Nat.shiftLeft_eq, Nat.shiftLeft_eq, show (0x0f : Nat) = 2 ^ 4 - 1 from rfl,
    Nat.and_pow_two_sub_one_eq_mod]
  omega

/-- C23 (pixel decode of a normal draw): for tile index `t` and tile row `y1`,
with source words `w0 = cha_ram[16t + 2*y1]` and `w1 = cha_ram[16t + 2*y1 + 1]`,
the pixel at column `x1` is
`8*bit_x1(w1 & 0xff) + 4*bit_x1(w1 >> 8) + 2*bit_x1(w0 & 0xff) + bit_x1(w0 >> 8)`,
which is at most 15; a byte stored for it is `((colour & 0x0f) << 4) | pix`, and
the whole command runs the same with `colour & 0x0f` in place of `colour`: only
the low nibble of the colour byte reaches the frame buffer. -/
theorem C23_pixel_decode (cha_ram : Nat → Nat) (attr t x y sx sy colour y1 x1 : Nat)
    (s : dma_vars) (hmode : attr &&& 0x2000 = 0) :
    tile_pixel cha_ram t y1 x1
        = 8 * ((rd16 cha_ram (16 * t + 2 * y1 + 1) &&& 0xff) / 2 ^ x1 % 2)
          + 4 * ((rd16 cha_ram (16 * t + 2 * y1 + 1) >>> 8) / 2 ^ x1 % 2)
          + 2 * ((rd16 cha_ram (16 * t + 2 * y1) &&& 0xff) / 2 ^ x1 % 2)
          + (rd16 cha_ram (16 * t + 2 * y1) >>> 8) / 2 ^ x1 % 2
      ∧ tile_pixel cha_ram t y1 x1 ≤ 15
      ∧ (∀ (addr : Nat) (g : Nat → Nat),
          (attr &&& 0x8000 ≠ 0 ∨ tile_pixel cha_ram t y1 x1 ≠ 0) →
          put_pixel attr (u8 (colour <<< 4)) (tile_pixel cha_ram t y1 x1) addr g
              (BYTE_XOR_BE 1 + addr)
            = ((colour &&& 0x0f) <<< 4) ||| tile_pixel cha_ram t y1 x1)
      ∧ exec_command cha_ram attr t x y sx sy colour s
        = exec_command cha_ram attr t x y sx sy (colour &&& 0x0f) s := by
  have hlt := tile_pixel_lt cha_ram t y1 x1
  refine ⟨?_, by omega, fun addr g heff => ?_, ?_⟩
  · unfold tile_pixel
    rw [tile_planes_words]
    unfold decode_pix
    rw [bits_or _ _ _ _ (BIT_le_one _ _) (BIT_le_one _ _) (BIT_le_one _ _) (BIT_le_one _ _)]
    simp only [BIT_eq]
    rw [show (0xff : Nat) = 2 ^ 8 - 1 from rfl, Nat.and_pow_two_sub_one_eq_mod,
      Nat.and_pow_two_sub_one_eq_mod, Nat.shiftRight_eq_div_pow, Nat.shiftRight_eq_div_pow]
  · have e : BYTE_XOR_BE 1 + addr = addr + 1 := by
      unfold BYTE_XOR_BE
      omega
    rw [e, put_pixel_same attr _ _ addr g heff, u8_basepix_or colour _ hlt, basepix_low_nibble]
  · have e : u8 ((colour &&& 0x0f) <<< 4) = u8 (colour <<< 4) := by
      rw [basepix_low_nibble, basepix_low_nibble]
      congr 1
      rw [show (0x0f : Nat) = 2 ^ 4 - 1 from rfl, Nat.and_pow_two_sub_one_eq_mod,
        Nat.and_pow_two_sub_one_eq_mod]
      omega
    unfold exec_command
    rw [if_pos hmode, if_pos hmode, e]

/-- C23 witness: tile 5 whose row 0 has the words `0x0100`, `0x0001` (plane 1
and plane 4 set at column 0), drawn opaque with colour `0xa7`. -/
theorem C23_pixel_decode_witness :
    tile_pixel (fun w => if w = 80 then 0x0100 else if w = 81 then 0x0001 else 0) 5 0 0 = 9
      ∧ exec_command (fun w => if w = 80 then 0x0100 else if w = 81 then 0x0001 else 0)
          0x8005 5 0 0 1 1 0xa7 (start_vars (fun _ => 0))
        = exec_command (fun w => if w = 80 then 0x0100 else if w = 81 then 0x0001 else 0)
          0x8005 5 0 0 1 1 (0xa7 &&& 0x0f) (start_vars (fun _ => 0)) :=
  ⟨(C23_pixel_decode (fun w => if w = 80 then 0x0100 else if w = 81 then 0x0001 else 0)
      0x8005 5 0 0 1 1 0xa7 0 0 (start_vars (fun _ => 0)) (by decide)).1,
    (C23_pixel_decode (fun w => if w = 80 then 0x0100 else if w = 81 then 0x0001 else 0)
      0x8005 5 0 0 1 1 0xa7 0 0 (start_vars (fun _ => 0)) (by decide)).2.2.2⟩

/-! ## The replay as a composition of per-entry effects -/

/-- The frame buffer after one entry depends on the frame buffer before it only,
and is the closed form `entry_effect`. -/
theorem exec_entry_g_ram (dma_ram cha_ram : Nat → Nat) (offs : Nat) (s : dma_vars) :
    (exec_entry dma_ram cha_ram offs s).g_ram = entry_effect dma_ram cha_ram offs s.g_ram := by
  unfold entry_effect
  by_cases h0 : entry_attr dma_ram offs = 0
  · rw [exec_entry_skip dma_ram cha_ram offs s h0, if_pos h0]
  · rw [exec_entry_run dma_ram cha_ram offs s h0, if_neg h0]
    by_cases hm : entry_attr dma_ram offs &&& 0x2000 = 0
    · rw [if_pos hm]
      exact (exec_command_draw cha_ram _ _ _ _ _ _ _ s hm (entry_code_room dma_ram offs).1
        (entry_code_room dma_ram offs).2).1
    · rw [if_neg hm]
      exact (exec_command_fill cha_ram _ _ _ _ _ _ _ s hm).1

theorem exec_dma_loop_g_ram (dma_ram cha_ram : Nat → Nat) (n : Nat) (s : dma_vars) :
    (exec_dma_loop dma_ram cha_ram n s).g_ram
      = forLoop n (fun i g => entry_effect dma_ram cha_ram (i * 4) g) s.g_ram := by
  unfold exec_dma_loop
  induction n with
  | zero => rfl
  | succ m ih => rw [forLoop_succ, forLoop_succ, exec_entry_g_ram, ih]

/-- The frame buffer after `exec_dma` is the composition of the effects of the
entries of the replayed bank, entry 0 first. -/
theorem exec_dma_g_ram (st : mlanding_state) :
    (exec_dma st).1.m_g_ram
      = forLoop (c_dma_bank_words / 4)
          (fun i g => entry_effect (replay_bank st) st.m_cha_ram (i * 4) g) st.m_g_ram :=
  exec_dma_loop_g_ram (replay_bank st) st.m_cha_ram (c_dma_bank_words / 4)
    (start_vars st.m_g_ram)

/-- A counted loop is the left fold of its body over `0, 1, ..., n - 1`. -/
theorem forLoop_eq_foldl {σ : Type} (n : Nat) (body : Nat → σ → σ) (s : σ) :
    forLoop n body s = (List.range n).foldl (fun t i => body i t) s := by
  induction n with
  | zero => rfl
  | succ m ih => rw [forLoop_succ, List.range_succ, List.foldl_append, ih]; rfl

/-! ## C24: slot order -/

/-- C24 (slot order): `exec_dma` runs the entries of the replayed bank in
increasing slot order: its variables, and so its final frame buffer, are the
left-to-right composition over the slots 0, 1, ..., 0x7ff of the per-slot
effects. Hence when slot `j` leaves the value `v` in byte `b` and no later slot
changes that byte, `b` holds `v` at the end, whatever the lower slots wrote. -/
theorem C24_slot_order (st : mlanding_state) (j b v : Nat) (hj : j < 0x800)
    (hset : ∀ t : dma_vars,
      (exec_entry (replay_bank st) st.m_cha_ram (j * 4) t).g_ram b = v)
    (hkeep : ∀ k, j < k → k < 0x800 → ∀ t : dma_vars,
      (exec_entry (replay_bank st) st.m_cha_ram (k * 4) t).g_ram b = t.g_ram b) :
    exec_dma_loop (replay_bank st) st.m_cha_ram 0x800 (start_vars st.m_g_ram)
        = (List.range 0x800).foldl
            (fun t i => exec_entry (replay_bank st) st.m_cha_ram (i * 4) t)
            (start_vars st.m_g_ram)
      ∧ (exec_dma st).1.m_g_ram
        = (List.range 0x800).foldl
            (fun g i => (exec_entry (replay_bank st) st.m_cha_ram (i * 4) (start_vars g)).g_ram)
            st.m_g_ram
      ∧ (exec_dma st).1.m_g_ram b = v := by
  refine ⟨forLoop_eq_foldl 0x800 _ _, ?_, ?_⟩
  · rw [exec_dma_g_ram, forLoop_eq_foldl]
    have e : (fun (g : Nat → Nat) (i : Nat) =>
        (exec_entry (replay_bank st) st.m_cha_ram (i * 4) (start_vars g)).g_ram)
        = (fun g i => entry_effect (replay_bank st) st.m_cha_ram (i * 4) g) := by
      funext g i
      exact exec_entry_g_ram _ _ _ _
    rw [e]
    rfl
  · show (exec_dma_loop (replay_bank st) st.m_cha_ram (c_dma_bank_words / 4)
      (start_vars st.m_g_ram)).g_ram b = v
    exact forLoop_establish (fun t : dma_vars => t.g_ram b = v) (c_dma_bank_words / 4) j _ _ hj
      hset (fun k hk hjk t ht => (hkeep k hjk hk t).trans ht)

/-- A fill entry leaves its byte at every position of its footprint, in the plane
`attr` selects, whatever the frame buffer held. -/
theorem exec_entry_fill_at (dma_ram cha_ram : Nat → Nat) (offs : Nat) (t : dma_vars)
    (y0 x0 : Nat) (h0 : entry_attr dma_ram offs ≠ 0)
    (hm : entry_attr dma_ram offs &&& 0x2000 ≠ 0)
    (hy0 : y0 < entry_sy dma_ram offs * 8) (hx0 : x0 < entry_sx dma_ram offs * 8) :
    (exec_entry dma_ram cha_ram offs t).g_ram
        (fill_offset (entry_x dma_ram offs) (entry_y dma_ram offs) y0 x0
          + (if entry_attr dma_ram offs &&& 0x4000 = 0 then 1 else 0))
      = entry_colour dma_ram offs := by
  rw [exec_entry_g_ram]
  unfold entry_effect
  rw [if_neg h0, if_neg hm, fill_spec_at _ _ _ _ _ _ _ y0 x0 hy0 hx0]
  exact Nat.mod_eq_of_lt (entry_colour_lt dma_ram offs)

/-- The entries after the first two of a two-command bank are empty. -/
theorem two_command_rest (w v cha g : Nat → Nat) (k : Nat) (hk : 2 ≤ k) :
    entry_attr (replay_bank (two_command_state w v cha g)) (k * 4) = 0 := by
  show u16 (two_command_ram w v ((1 ^^^ 1) * c_dma_bank_words + k * 4)) = 0
  have e : (1 ^^^ 1) * c_dma_bank_words + k * 4 = k * 4 := by
    rw [show (1 ^^^ 1 : Nat) = 0 from rfl]
    omega
  rw [e]
  unfold two_command_ram
  rw [if_neg (by omega), if_neg (by omega)]
  rfl

/-- C24 witness: two fills of the same tile at `(0, 0)`, with the byte `0x11` in
slot 0 and the byte `0x22` in slot 1: the pixel-plane byte 1 ends as `0x22`. -/
theorem C24_slot_order_witness :
    (exec_entry (replay_bank (two_command_state (fill_words 0x11) (fill_words 0x22)
        (fun _ => 0) (fun _ => 0))) (fun _ => 0) 0 (start_vars (fun _ => 0))).g_ram 1 = 0x11
      ∧ (exec_dma (two_command_state (fill_words 0x11) (fill_words 0x22)
        (fun _ => 0) (fun _ => 0))).1.m_g_ram 1 = 0x22 :=
  ⟨exec_entry_fill_at _ _ 0 _ 0 0 (by decide) (by decide) (by decide) (by decide),
    (C24_slot_order
      (two_command_state (fill_words 0x11) (fill_words 0x22) (fun _ => 0) (fun _ => 0))
      1 1 0x22 (by decide)
      (fun t => exec_entry_fill_at _ _ 4 t 0 0 (by decide) (by decide) (by decide) (by decide))
      (fun k hjk _ t => by
        rw [exec_entry_skip _ _ _ t (two_command_rest _ _ _ _ k hjk)])).2.2⟩

/-! ## C25: plane separation -/

theorem dest_offset_even (x y j k y1 x1 : Nat) :
    dest_offset x y j k y1 x1 % 2 = 0 ∧ dest_offset x y j k y1 x1 ≤ 0x7fffe := by
  unfold dest_offset
  omega

theorem fill_offset_even (x y y1 x1 : Nat) :
    fill_offset x y y1 x1 % 2 = 0 ∧ fill_offset x y y1 x1 ≤ 0x7fffe := by
  unfold fill_offset
  omega

/-- A normal draw and a fill of the pixel plane leave every even byte alone. -/
theorem entry_effect_even (dma_ram cha_ram : Nat → Nat) (offs : Nat) (g : Nat → Nat) (b : Nat)
    (hmode : entry_attr dma_ram offs &&& 0x2000 = 0 ∨ entry_attr dma_ram offs &&& 0x4000 = 0)
    (hb : b % 2 = 0) :
    entry_effect dma_ram cha_ram offs g b = g b := by
  unfold entry_effect
  by_cases h0 : entry_attr dma_ram offs = 0
  · rw [if_pos h0]
  · rw [if_neg h0]
    by_cases hm : entry_attr dma_ram offs &&& 0x2000 = 0
    · rw [if_pos hm]
      apply draw_spec_outside
      intro j _ k _ y1 _ x1 _
      have := (dest_offset_even (entry_x dma_ram offs) (entry_y dma_ram offs) j k y1 x1).1
      omega
    · rw [if_neg hm]
      have hp : entry_attr dma_ram offs &&& 0x4000 = 0 := by
        rcases hmode with h | h
        · exact absurd h hm
        · exact h
      apply fill_spec_outside
      intro y1 _ x1 _
      rw [if_pos hp]
      have := (fill_offset_even (entry_x dma_ram offs) (entry_y dma_ram offs) y1 x1).1
      omega

/-- A fill of the palette plane leaves every odd byte alone. -/
theorem entry_effect_odd (dma_ram cha_ram : Nat → Nat) (offs : Nat) (g : Nat → Nat) (b : Nat)
    (hm : entry_attr dma_ram offs &&& 0x2000 ≠ 0) (hp : entry_attr dma_ram offs &&& 0x4000 ≠ 0)
    (hb : b % 2 = 1) :
    entry_effect dma_ram cha_ram offs g b = g b := by
  unfold entry_effect
  by_cases h0 : entry_attr dma_ram offs = 0
  · rw [if_pos h0]
  · rw [if_neg h0, if_neg hm]
    apply fill_spec_outside
    intro y1 _ x1 _
    rw [if_neg hp]
    have := (fill_offset_even (entry_x dma_ram offs) (entry_y dma_ram offs) y1 x1).1
    omega

/-- C25 (plane separation): with the frame buffer seen as bytes in the
hardware's order (odd bytes the pixel plane, even bytes the palette plane), a
command that is a normal draw or a fill of the pixel plane (`attr & 0x4000` clear)
leaves every even byte unchanged, and a fill of the palette plane (`attr & 0x2000`
and `attr & 0x4000` set) leaves every odd byte unchanged. A whole replay whose
commands are all draws or pixel-plane fills leaves every even byte unchanged. -/
theorem C25_plane_separation (st : mlanding_state) (dma_ram cha_ram : Nat → Nat) (offs : Nat)
    (s : dma_vars) (b : Nat) :
    ((entry_attr dma_ram offs &&& 0x2000 = 0 ∨ entry_attr dma_ram offs &&& 0x4000 = 0) →
        b % 2 = 0 → (exec_entry dma_ram cha_ram offs s).g_ram b = s.g_ram b)
      ∧ (entry_attr dma_ram offs &&& 0x2000 ≠ 0 → entry_attr dma_ram offs &&& 0x4000 ≠ 0 →
        b % 2 = 1 → (exec_entry dma_ram cha_ram offs s).g_ram b = s.g_ram b)
      ∧ ((∀ i, i < c_dma_bank_words / 4 →
            entry_attr (replay_bank st) (i * 4) &&& 0x2000 = 0
              ∨ entry_attr (replay_bank st) (i * 4) &&& 0x4000 = 0) →
        b % 2 = 0 → (exec_dma st).1.m_g_ram b = st.m_g_ram b)
      ∧ ((∀ i, i < c_dma_bank_words / 4 →
            entry_attr (replay_bank st) (i * 4) = 0
              ∨ (entry_attr (replay_bank st) (i * 4) &&& 0x2000 ≠ 0
                ∧ entry_attr (replay_bank st) (i * 4) &&& 0x4000 ≠ 0)) →
        b % 2 = 1 → (exec_dma st).1.m_g_ram b = st.m_g_ram b) := by
  refine ⟨fun hmode hb => ?_, fun hm hp hb => ?_, fun hall hb => ?_, fun hall hb => ?_⟩
  · rw [exec_entry_g_ram]
    exact entry_effect_even dma_ram cha_ram offs s.g_ram b hmode hb
  · rw [exec_entry_g_ram]
    exact entry_effect_odd dma_ram cha_ram offs s.g_ram b hm hp hb
  · rw [exec_dma_g_ram]
    exact forLoop_frame _ _ _ b (fun i hi t =>
      entry_effect_even _ _ _ t b (hall i hi) hb)
  · rw [exec_dma_g_ram]
    refine forLoop_frame _ _ _ b (fun i hi t => ?_)
    rcases hall i hi with h0 | ⟨hm, hp⟩
    · show entry_effect _ _ _ t b = t b
      unfold entry_effect
      rw [if_pos h0]
    · exact entry_effect_odd _ _ _ t b hm hp hb

/-! ## C26: the stores stay inside the frame buffer -/

/-- No entry changes a byte beyond the frame buffer. -/
theorem entry_effect_inside (dma_ram cha_ram : Nat → Nat) (offs : Nat) (g : Nat → Nat)
    (b : Nat) (hb : g_ram_bytes ≤ b) :
    entry_effect dma_ram cha_ram offs g b = g b := by
  have hg : g_ram_bytes = 0x80000 := by decide
  rw [hg] at hb
  unfold entry_effect
  by_cases h0 : entry_attr dma_ram offs = 0
  · rw [if_pos h0]
  · rw [if_neg h0]
    by_cases hm : entry_attr dma_ram offs &&& 0x2000 = 0
    · rw [if_pos hm]
      apply draw_spec_outside
      intro j _ k _ y1 _ x1 _
      have := (dest_offset_even (entry_x dma_ram offs) (entry_y dma_ram offs) j k y1 x1).2
      omega
    · rw [if_neg hm]
      apply fill_spec_outside
      intro y1 _ x1 _
      have := (fill_offset_even (entry_x dma_ram offs) (entry_y dma_ram offs) y1 x1).2
      split <;> omega

/-- C26 (frame-buffer write safety): for every contents of the replayed bank,
`exec_dma` changes no byte at or beyond offset `0x80000`, the size of the frame
buffer; a masked even `byteaddr` is even and at most `0x7fffe`, so with the plane
offset 0 or 1 it stays below `0x80000`; and the 32-bit `byteaddr` never
overflows: in a draw and in a fill it is the exact value
`(row * 512 + column) * 2 + 2 * n` after `n` pixels of a row. -/
theorem C26_write_safety (st : mlanding_state) (dma_ram : Nat → Nat) (offs : Nat) :
    (∀ b, g_ram_bytes ≤ b → (exec_dma st).1.m_g_ram b = st.m_g_ram b)
      ∧ (∀ c, ((2 * c) &&& gram_mask) % 2 = 0
          ∧ (2 * c) &&& gram_mask ≤ 0x7fffe
          ∧ BYTE_XOR_BE 0 + ((2 * c) &&& gram_mask) < g_ram_bytes
          ∧ BYTE_XOR_BE 1 + ((2 * c) &&& gram_mask) < g_ram_bytes)
      ∧ (∀ (attr basepix : Nat) (p : Nat × Nat × Nat × Nat) (j k y1 n : Nat) (t : dma_vars),
          j < 32 → k < 32 → y1 < 8 → n ≤ 8 →
          (forLoop n (draw_pixel attr basepix p)
              { t with byteaddr := u32 (((entry_y dma_ram offs + k * 8 + y1) * 512
                + (j * 8 + entry_x dma_ram offs)) * 2) }).byteaddr
            = ((entry_y dma_ram offs + k * 8 + y1) * 512 + (j * 8 + entry_x dma_ram offs)) * 2
              + 2 * n)
      ∧ (∀ (attr colour y1 n : Nat) (t : dma_vars), y1 < 32 * 8 → n ≤ 32 * 8 →
          (forLoop n (fill_pixel attr colour)
              { t with byteaddr := u32 ((((entry_y dma_ram offs + y1) * 512)
                + entry_x dma_ram offs) * 2) }).byteaddr
            = (((entry_y dma_ram offs + y1) * 512) + entry_x dma_ram offs) * 2 + 2 * n) := by
  have hx := entry_x_lt dma_ram offs
  have hy := entry_y_lt dma_ram offs
  have hg : g_ram_bytes = 0x80000 := by decide
  refine ⟨fun b hb => ?_, fun c => ?_, ?_, ?_⟩
  · rw [exec_dma_g_ram]
    exact forLoop_frame _ _ _ b (fun i _ t => entry_effect_inside _ _ _ t b hb)
  · rw [and_gram_mask, hg]
    unfold BYTE_XOR_BE
    omega
  · intro attr basepix p j k y1 n t hj hk hy1 hn
    rw [(draw_pixel_loop attr basepix p n _ (u32_lt _)).2.1]
    show (u32 _ + 2 * n) % 4294967296 = _
    unfold u32
    omega
  · intro attr colour y1 n t hy1 hn
    rw [(fill_pixel_loop attr colour n _ (u32_lt _)).2.1]
    show (u32 _ + 2 * n) % 4294967296 = _
    unfold u32
    omega

/-! ## C27: the tile source words a draw reads -/

/-- The planes of a tile row are read at `tile_src_index` and the next word. -/
theorem tile_planes_src (cha_ram : Nat → Nat) (code y1 : Nat) :
    tile_planes cha_ram code y1
      = (u8 (rd16 cha_ram (tile_src_index code y1) >>> 8),
          u8 (rd16 cha_ram (tile_src_index code y1) &&& 0xff),
          u8 (rd16 cha_ram (tile_src_index code y1 + 1) >>> 8),
          u8 (rd16 cha_ram (tile_src_index code y1 + 1))) := rfl

/-- C27 (failing input): the normal-draw command `{0x9fff, 0x0000, 0x0800,
0x0000}` (tile index `0x1fff`, one tile wide, two tiles high) draws its second
tile with the running index `0x1fff + 1 = 0x2000`, whose row 0 is read at word
index `16 * 0x2000 = 0x20000`, which is not below the `0x20000` words of the
character RAM: two tile sources that agree on every word below `0x20000` give
different frame buffers (byte 8193 is the pixel-plane byte of row 8, column 0). -/
theorem C27_read_beyond_cha_ram :
    cha_ram_words = 0x20000
      ∧ entry_code (one_command_ram 0x9fff 0x0000 0x0800 0x0000) 0 + 1 = 0x2000
      ∧ tile_src_index 0x2000 0 = 0x20000
      ∧ (∀ w, w < cha_ram_words →
          (fun w : Nat => if w = 0x20000 then 0x0100 else 0) w = (fun _ : Nat => 0) w)
      ∧ (exec_dma (one_command_state 0x9fff 0x0000 0x0800 0x0000
          (fun w => if w = 0x20000 then 0x0100 else 0) (fun _ => 0))).1.m_g_ram 8193 = 1
      ∧ (exec_dma (one_command_state 0x9fff 0x0000 0x0800 0x0000
          (fun _ => 0) (fun _ => 0))).1.m_g_ram 8193 = 0 := by
  refine ⟨by decide, by decide, by decide, fun w hw => ?_, ?_, ?_⟩
  · have hw2 : w < 0x20000 := hw
    show (if w = 0x20000 then 0x0100 else 0) = 0
    rw [if_neg (by omega)]
  · rw [exec_dma_one_command_draw 0x9fff 0 0x0800 0 _ (fun _ => 0) (by decide) (by decide)]
    exact (draw_spec_at _ _ _ _ _ _ _ _ _ 0 1 0 0 (by decide) (by decide) (by decide)
      (by decide) (by decide) (by decide) (Or.inl (by decide))).trans (by decide)
  · rw [exec_dma_one_command_draw 0x9fff 0 0x0800 0 _ (fun _ => 0) (by decide) (by decide)]
    exact (draw_spec_at _ _ _ _ _ _ _ _ _ 0 1 0 0 (by decide) (by decide) (by decide)
      (by decide) (by decide) (by decide) (Or.inl (by decide))).trans (by decide)

/-! ## C28: the destination map of one command is injective -/

/-- Two positions of a footprint of at most 256 x 256 pixels with the same masked
offset are the same position. -/
theorem fill_offset_inj (x y r c r2 c2 : Nat) (hr : r < 256) (hc : c < 256)
    (hr2 : r2 < 256) (hc2 : c2 < 256)
    (h : fill_offset x y r c = fill_offset x y r2 c2) : r = r2 ∧ c = c2 := by
  unfold fill_offset at h
  omega

/-- The offset of a pixel of a draw is the offset of its position
`(8k + y1, 8j + x1)` in the footprint. -/
theorem dest_offset_eq_fill_offset (x y j k y1 x1 : Nat) :
    dest_offset x y j k y1 x1 = fill_offset x y (8 * k + y1) (8 * j + x1) := by
  unfold dest_offset fill_offset
  omega

theorem mem_footprint (x y sx sy plane b : Nat) :
    b ∈ footprint x y sx sy plane
      ↔ ∃ r c, r < sy * 8 ∧ c < sx * 8 ∧ b = fill_offset x y r c + plane := by
  unfold footprint
  constructor
  · intro h
    obtain ⟨p, hp, e⟩ := Finset.mem_image.mp h
    rw [Finset.mem_product, Finset.mem_range, Finset.mem_range] at hp
    exact ⟨p.1, p.2, hp.1, hp.2, e.symm⟩
  · rintro ⟨r, c, hr, hc, e⟩
    refine Finset.mem_image.mpr ⟨(r, c), ?_, e.symm⟩
    rw [Finset.mem_product, Finset.mem_range, Finset.mem_range]
    exact ⟨hr, hc⟩

/-- The footprint of a command holds `64 * sx * sy` distinct bytes. -/
theorem footprint_card (x y sx sy plane : Nat) (hsx : sx ≤ 32) (hsy : sy ≤ 32) :
    (footprint x y sx sy plane).card = 64 * sx * sy := by
  unfold footprint
  rw [Finset.card_image_of_injOn, Finset.card_product, Finset.card_range, Finset.card_range]
  · ring
  · intro p hp q hq h
    rw [Finset.mem_coe, Finset.mem_product, Finset.mem_range, Finset.mem_range] at hp hq
    have h2 : fill_offset x y p.1 p.2 = fill_offset x y q.1 q.2 := Nat.add_right_cancel h
    obtain ⟨e1, e2⟩ := fill_offset_inj x y p.1 p.2 q.1 q.2 (by omega) (by omega) (by omega)
      (by omega) h2
    exact Prod.ext e1 e2

theorem mem_footprint_draw (x y sx sy b : Nat) :
    b ∈ footprint x y sx sy 1
      ↔ ∃ j k y1 x1, j < sx ∧ k < sy ∧ y1 < 8 ∧ x1 < 8 ∧ b = dest_offset x y j k y1 x1 + 1 := by
  rw [mem_footprint]
  constructor
  · rintro ⟨r, c, hr, hc, e⟩
    refine ⟨c / 8, r / 8, r % 8, c % 8, by omega, by omega, by omega, by omega, ?_⟩
    rw [e, dest_offset_eq_fill_offset]
    have e1 : 8 * (r / 8) + r % 8 = r := by omega
    have e2 : 8 * (c / 8) + c % 8 = c := by omega
    rw [e1, e2]
  · rintro ⟨j, k, y1, x1, hj, hk, hy1, hx1, e⟩
    refine ⟨8 * k + y1, 8 * j + x1, by omega, by omega, ?_⟩
    rw [e, dest_offset_eq_fill_offset]

/-- C28 (injective destination map): within one command at any `(x, y)`, `sx`
and `sy` at most 32 tiles, two positions `(row offset, column offset)` of the
footprint with the same masked frame-buffer offset are the same position, for a
fill and, tile by tile, for a draw, even when the footprint wraps. Hence the
footprint holds exactly `64 * sx * sy` distinct bytes, a fill stores its byte in
each of them and changes nothing else, and an opaque draw stores `basepix | pix`
in each of them and changes nothing else. -/
theorem C28_destination_injective (cha_ram : Nat → Nat) (attr code x y sx sy colour : Nat)
    (s : dma_vars) (hsx : sx ≤ 32) (hsy : sy ≤ 32) (hcode : code < 0x2000) :
    (∀ r c r2 c2, r < sy * 8 → c < sx * 8 → r2 < sy * 8 → c2 < sx * 8 →
        fill_offset x y r c = fill_offset x y r2 c2 → r = r2 ∧ c = c2)
      ∧ (∀ j k y1 x1 j2 k2 y2 x2, j < sx → k < sy → y1 < 8 → x1 < 8 →
        j2 < sx → k2 < sy → y2 < 8 → x2 < 8 →
        dest_offset x y j k y1 x1 = dest_offset x y j2 k2 y2 x2 →
        j = j2 ∧ k = k2 ∧ y1 = y2 ∧ x1 = x2)
      ∧ (∀ plane, (footprint x y sx sy plane).card = 64 * sx * sy)
      ∧ (∀ b, b ∈ footprint x y sx sy 1
          ↔ ∃ j k y1 x1, j < sx ∧ k < sy ∧ y1 < 8 ∧ x1 < 8
              ∧ b = dest_offset x y j k y1 x1 + 1)
      ∧ (attr &&& 0x2000 ≠ 0 → ∀ b,
          (exec_command cha_ram attr code x y sx sy colour s).g_ram b
            = if b ∈ footprint x y sx sy (if attr &&& 0x4000 = 0 then 1 else 0)
              then u8 colour else s.g_ram b)
      ∧ (attr &&& 0x2000 = 0 → attr &&& 0x8000 ≠ 0 →
          (∀ b, b ∉ footprint x y sx sy 1 →
            (exec_command cha_ram attr code x y sx sy colour s).g_ram b = s.g_ram b)
          ∧ (∀ j k y1 x1, j < sx → k < sy → y1 < 8 → x1 < 8 →
            (exec_command cha_ram attr code x y sx sy colour s).g_ram
                (dest_offset x y j k y1 x1 + 1)
              = u8 (u8 (colour <<< 4) ||| tile_pixel cha_ram (code + j * sy + k) y1 x1))) := by
  refine ⟨fun r c r2 c2 hr hc hr2 hc2 h => ?_,
    fun j k y1 x1 j2 k2 y2 x2 hj hk hy1 hx1 hj2 hk2 hy2 hx2 h => ?_,
    fun plane => footprint_card x y sx sy plane hsx hsy,
    fun b => mem_footprint_draw x y sx sy b, fun hm b => ?_, fun hm ho => ⟨fun b hb => ?_, ?_⟩⟩
  · exact fill_offset_inj x y r c r2 c2 (by omega) (by omega) (by omega) (by omega) h
  · exact dest_offset_inj x y j k y1 x1 j2 k2 y2 x2 (by omega) (by omega) hy1 hx1 (by omega)
      (by omega) hy2 hx2 h
  · rw [(exec_command_fill cha_ram attr code x y sx sy colour s hm).1]
    by_cases hb : b ∈ footprint x y sx sy (if attr &&& 0x4000 = 0 then 1 else 0)
    · rw [if_pos hb]
      obtain ⟨r, c, hr, hc, e⟩ := (mem_footprint _ _ _ _ _ _).mp hb
      rw [e]
      exact fill_spec_at attr x y sx sy colour s.g_ram r c hr hc
    · rw [if_neg hb]
      apply fill_spec_outside
      intro y1 hy1 x1 hx1 e
      exact hb ((mem_footprint _ _ _ _ _ _).mpr ⟨y1, x1, hy1, hx1, e⟩)
  · have hroom : code + sx * sy ≤ 65536 := by
      have := Nat.mul_le_mul hsx hsy
      omega
    rw [(exec_command_draw cha_ram attr code x y sx sy colour s hm (by omega) hroom).1]
    apply draw_spec_outside
    intro j hj k hk y1 hy1 x1 hx1 e
    exact hb ((mem_footprint_draw _ _ _ _ _).mpr ⟨j, k, y1, x1, hj, hk, hy1, hx1, e⟩)
  · intro j k y1 x1 hj hk hy1 hx1
    have hroom : code + sx * sy ≤ 65536 := by
      have := Nat.mul_le_mul hsx hsy
      omega
    rw [(exec_command_draw cha_ram attr code x y sx sy colour s hm (by omega) hroom).1]
    exact draw_spec_at cha_ram attr x y sx sy _ code s.g_ram j k y1 x1 hsx hsy hj hk hy1 hx1
      (Or.inl ho)

/-- C28 witness: a 2 x 2 tile command at `(508, 510)`, whose footprint wraps in
both directions, covers 256 distinct bytes. -/
theorem C28_destination_injective_witness :
    (footprint 508 510 2 2 1).card = 64 * 2 * 2 :=
  (C28_destination_injective (fun _ => 0) 0x8005 5 508 510 2 2 3 (start_vars (fun _ => 0))
    (by decide) (by decide) (by decide)).2.2.1 1

/-! ## C29: a replay is idempotent on the frame buffer -/

theorem constant_stores_id : constant_stores (fun g => g) :=
  ⟨fun _ => none, fun _ _ => rfl⟩

theorem constant_stores_update (b v : Nat) :
    constant_stores (fun g => Function.update g b v) := by
  refine ⟨fun a => if a = b then some v else none, fun g a => ?_⟩
  by_cases h : a = b
  · subst h
    simp
  · simp [h]

theorem constant_stores_comp (T1 T2 : (Nat → Nat) → (Nat → Nat))
    (h1 : constant_stores T1) (h2 : constant_stores T2) :
    constant_stores (fun g => T2 (T1 g)) := by
  obtain ⟨f1, e1⟩ := h1
  obtain ⟨f2, e2⟩ := h2
  refine ⟨fun a => match f2 a with
    | some v => some v
    | none => f1 a, fun g a => ?_⟩
  show T2 (T1 g) a = (match f2 a with
    | some v => some v
    | none => f1 a).getD (g a)
  rw [e2, e1]
  cases f2 a <;> rfl

theorem constant_stores_forLoop (n : Nat) (body : Nat → (Nat → Nat) → (Nat → Nat))
    (h : ∀ i, i < n → constant_stores (body i)) :
    constant_stores (fun g => forLoop n body g) := by
  induction n with
  | zero => exact constant_stores_id
  | succ m ih =>
    exact constant_stores_comp (fun g => forLoop m body g) (body m)
      (ih (fun i hi => h i (Nat.lt_succ_of_lt hi))) (h m (Nat.lt_succ_self m))

/-- Storing the same fixed values twice is storing them once. -/
theorem constant_stores_idem (T : (Nat → Nat) → (Nat → Nat)) (h : constant_stores T)
    (g : Nat → Nat) : T (T g) = T g := by
  obtain ⟨f, e⟩ := h
  funext a
  rw [e (T g) a, e g a]
  cases f a <;> rfl

theorem constant_stores_put_pixel (attr basepix pix addr : Nat) :
    constant_stores (put_pixel attr basepix pix addr) := by
  unfold put_pixel pixdata_put
  split
  · split
    · exact constant_stores_update _ _
    · exact constant_stores_id
  · exact constant_stores_update _ _

theorem constant_stores_put_fill (attr colour addr : Nat) :
    constant_stores (put_fill attr colour addr) := by
  unfold put_fill pixdata_put paldata_put
  split
  · exact constant_stores_update _ _
  · exact constant_stores_update _ _

theorem constant_stores_draw_spec (cha_ram : Nat → Nat) (attr x y sx sy basepix code : Nat) :
    constant_stores (draw_spec cha_ram attr x y sx sy basepix code) := by
  unfold draw_spec
  refine constant_stores_forLoop sx _ (fun j _ => ?_)
  refine constant_stores_forLoop sy _ (fun k _ => ?_)
  unfold tile_spec
  refine constant_stores_forLoop 8 _ (fun y1 _ => ?_)
  unfold row_spec
  exact constant_stores_forLoop 8 _ (fun x1 _ => constant_stores_put_pixel _ _ _ _)

theorem constant_stores_fill_spec (attr x y sx sy colour : Nat) :
    constant_stores (fill_spec attr x y sx sy colour) := by
  unfold fill_spec
  refine constant_stores_forLoop (sy * 8) _ (fun y1 _ => ?_)
  exact constant_stores_forLoop (sx * 8) _ (fun x1 _ => constant_stores_put_fill _ _ _)

theorem constant_stores_entry_effect (dma_ram cha_ram : Nat → Nat) (offs : Nat) :
    constant_stores (entry_effect dma_ram cha_ram offs) := by
  unfold entry_effect
  by_cases h0 : entry_attr dma_ram offs = 0
  · simp only [if_pos h0]
    exact constant_stores_id
  · simp only [if_neg h0]
    by_cases hm : entry_attr dma_ram offs &&& 0x2000 = 0
    · simp only [if_pos hm]
      exact constant_stores_draw_spec _ _ _ _ _ _ _ _
    · simp only [if_neg hm]
      exact constant_stores_fill_spec _ _ _ _ _ _

/-- C29 (idempotent replay): running `exec_dma` twice in succession on the same
bank and the same tile source leaves the frame buffer as one run leaves it,
whatever the bank, the tile source and the initial frame buffer are, and both
runs return the same pixel count. -/
theorem C29_replay_idempotent (st : mlanding_state) :
    (exec_dma (exec_dma st).1).1.m_g_ram = (exec_dma st).1.m_g_ram
      ∧ (exec_dma (exec_dma st).1).2 = (exec_dma st).2
      ∧ replay_bank (exec_dma st).1 = replay_bank st
      ∧ (exec_dma st).1.m_cha_ram = st.m_cha_ram := by
  have hb : replay_bank (exec_dma st).1 = replay_bank st := rfl
  have hc : (exec_dma st).1.m_cha_ram = st.m_cha_ram := rfl
  refine ⟨?_, ?_, hb, hc⟩
  · rw [exec_dma_g_ram (exec_dma st).1, hb, hc, exec_dma_g_ram st]
    exact constant_stores_idem
      (fun g => forLoop (c_dma_bank_words / 4)
        (fun i g => entry_effect (replay_bank st) st.m_cha_ram (i * 4) g) g)
      (constant_stores_forLoop _ _ (fun i _ => constant_stores_entry_effect _ _ _))
      st.m_g_ram
  · rw [exec_dma_count_eq_sum, exec_dma_count_eq_sum, hb]

/-! ## C30: the pointer of channel 1 stays inside its ROM -/

/-- An advance of channel 1 moves its pointer by at most one. -/
theorem msm5205_update_one_le (s : sound_state) (h : s.m_msm_pos 1 < 0x2000) :
    (msm5205_update 1 s).m_msm_pos 1 ≤ 0x2000 := by
  by_cases hr : s.m_msm_reset 1 = 0
  · rw [(msm5205_update_one s hr).1]
    split
    · unfold u32
      omega
    · omega
  · rw [msm5205_update_held 1 s hr]
    omega

/-- An advance of channel 0 leaves the pointer of channel 1 alone. -/
theorem msm5205_update_zero_pos1 (s : sound_state) :
    (msm5205_update 0 s).m_msm_pos 1 = s.m_msm_pos 1 := by
  have h10 : (1 : Nat) ≠ 0 := by decide
  by_cases hr : s.m_msm_reset 0 = 0
  · rw [msm5205_update_active 0 s hr]
    by_cases hn : s.m_msm_nibble 0 ≠ 0
    · simp only [if_pos hn, Function.update_noteq h10]
    · simp only [if_neg hn]
  · rw [msm5205_update_held 0 s hr]

theorem z80ctc_to0_pos1 (state : Nat) (s : sound_state) (h : s.m_msm_pos 1 < 0x2000) :
    (z80ctc_to0 state s).m_msm_pos 1 < 0x2000 := by
  by_cases he : s.m_msm2_vck2 ≠ 0 ∧ state = 0
  · by_cases hv : s.m_msm2_vck = 0
    · have hz := z80ctc_to0_advance state s he hv
      have hle := msm5205_update_one_le s h
      by_cases hl : (msm5205_update 1 s).m_msm_pos 1 = 0x2000
      · rw [if_pos hl] at hz
        rw [hz]
        show Function.update (msm5205_update 1 s).m_msm_pos 1 0 1 < 0x2000
        rw [Function.update_same]
        decide
      · rw [if_neg hl] at hz
        rw [hz]
        show (msm5205_update 1 s).m_msm_pos 1 < 0x2000
        omega
    · rw [z80ctc_to0_pulse state s he hv]
      exact h
  · rw [z80ctc_to0_idle state s he]
    exact h

/-- Every handler keeps the pointer of channel 1 below `0x2000`. -/
theorem apply_op_pos1 (op : sound_op) (s : sound_state) (h : s.m_msm_pos 1 < 0x2000) :
    (apply_op op s).m_msm_pos 1 < 0x2000 := by
  have h10 : (1 : Nat) ≠ 0 := by decide
  cases op with
  | ctc_to0 state => exact z80ctc_to0_pos1 state s h
  | vck_1 state =>
    show (msm5205_update 0 s).m_msm_pos 1 < 0x2000
    rw [msm5205_update_zero_pos1]
    exact h
  | start_1 => exact h
  | stop_1 =>
    show (msm5205_1_stop_w s).m_msm_pos 1 < 0x2000
    simp only [msm5205_1_stop_w, msm_emit, Function.update_noteq h10]
    exact h
  | addr_lo_1 data =>
    show (msm5205_1_addr_lo_w data s).m_msm_pos 1 < 0x2000
    simp only [msm5205_1_addr_lo_w, Function.update_noteq h10]
    exact h
  | addr_hi_1 data =>
    show (msm5205_1_addr_hi_w data s).m_msm_pos 1 < 0x2000
    simp only [msm5205_1_addr_hi_w, Function.update_noteq h10]
    exact h
  | start_2 => exact h
  | stop_2 => exact h

theorem run_ops_pos1 (ops : List sound_op) :
    ∀ s : sound_state, s.m_msm_pos 1 < 0x2000 → (run_ops ops s).m_msm_pos 1 < 0x2000 := by
  induction ops with
  | nil => exact fun s h => h
  | cons op rest ih => exact fun s h => ih (apply_op op s) (apply_op_pos1 op s h)

/-- C30 (pointer of channel 1): when the ROM pointer of channel 1 is below the
loop boundary `0x2000`, it still is after `z80ctc_to0(state)` for any `state`,
after `msm5205_2_start_w`, after `msm5205_2_stop_w`, and after every operation of
channel 0 (its clock callback and its start, stop and address writes), which do
not change it at all; hence after any sequence of these handlers, so that the
byte read by an advance of channel 1 is inside the `0x2000`-byte ROM of the
second device. -/
theorem C30_channel1_pointer_invariant (s : sound_state) (h : s.m_msm_pos 1 < 0x2000) :
    (∀ state, (z80ctc_to0 state s).m_msm_pos 1 < 0x2000)
      ∧ (msm5205_2_start_w s).m_msm_pos 1 = s.m_msm_pos 1
      ∧ (msm5205_2_stop_w s).m_msm_pos 1 = s.m_msm_pos 1
      ∧ (∀ state, (msm5205_1_vck state s).m_msm_pos 1 = s.m_msm_pos 1)
      ∧ (msm5205_1_start_w s).m_msm_pos 1 = s.m_msm_pos 1
      ∧ (msm5205_1_stop_w s).m_msm_pos 1 = s.m_msm_pos 1
      ∧ (∀ data, (msm5205_1_addr_lo_w data s).m_msm_pos 1 = s.m_msm_pos 1)
      ∧ (∀ data, (msm5205_1_addr_hi_w data s).m_msm_pos 1 = s.m_msm_pos 1)
      ∧ (∀ ops, (run_ops ops s).m_msm_pos 1 < adpcm2_bytes) := by
  have h10 : (1 : Nat) ≠ 0 := by decide
  refine ⟨fun state => z80ctc_to0_pos1 state s h, rfl, rfl,
    fun _ => msm5205_update_zero_pos1 s, rfl, ?_, fun data => ?_, fun data => ?_,
    fun ops => run_ops_pos1 ops s h⟩
  · simp only [msm5205_1_stop_w, msm_emit, Function.update_noteq h10]
  · simp only [msm5205_1_addr_lo_w, Function.update_noteq h10]
  · simp only [msm5205_1_addr_hi_w, Function.update_noteq h10]

/-- C30 witness: channel 1 at `0x1fff` in its low-nibble phase with the toggle
low; the falling edge advances the pointer to `0x2000` and resets it, and a
sequence of handlers ending with that edge leaves it below `0x2000`. -/
theorem C30_channel1_pointer_invariant_witness :
    (z80ctc_to0 0
        { sound_example (fun _ => 0x1fff) (fun _ => 0) (fun _ => 1) (fun _ => 0)
            (fun _ => 0) with m_msm2_vck2 := 1 }).m_msm_pos 1 < 0x2000
      ∧ (run_ops [sound_op.addr_hi_1 7, sound_op.vck_1 0, sound_op.ctc_to0 0]
        { sound_example (fun _ => 0x1fff) (fun _ => 0) (fun _ => 1) (fun _ => 0)
            (fun _ => 0) with m_msm2_vck2 := 1 }).m_msm_pos 1 < adpcm2_bytes :=
  ⟨(C30_channel1_pointer_invariant
      { sound_example (fun _ => 0x1fff) (fun _ => 0) (fun _ => 1) (fun _ => 0)
          (fun _ => 0) with m_msm2_vck2 := 1 } (by decide)).1 0,
    (C30_channel1_pointer_invariant
      { sound_example (fun _ => 0x1fff) (fun _ => 0) (fun _ => 1) (fun _ => 0)
          (fun _ => 0) with m_msm2_vck2 := 1 } (by decide)).2.2.2.2.2.2.2.2 _⟩

end mlanding
